import Mathlib

set_option maxHeartbeats 1000000

namespace GraphSearch

/-- Grid coordinate value with row index i and column index j; equality by value
(graph.Cell of the repository). -/
structure Cell where
  i : Int
  j : Int
deriving DecidableEq, Repr

/-- Dictionary key of a cell: the Python code keys its dictionaries and sets by the
tuple (i, j). -/
def Cell.key (c : Cell) : Int × Int := (c.i, c.j)

/-- Association-list lookup modelling Python dict access; insertion conses a new
binding at the front, so later insertions shadow older ones. -/
def alookup {β : Type} : List ((Int × Int) × β) → (Int × Int) → Option β
  | [], _ => none
  | (k, v) :: rest, a => if a = k then some v else alookup rest a

/-- Modelled from the spec: the Grid collaborator's mutable per-search state
(graph.py is not part of the analysed source).  It holds the parent links and the
append-only visited-cell log, both cleared by init_graph. -/
structure GraphState where
  parent : List ((Int × Int) × Option Cell)
  visited_cells : List Cell
deriving DecidableEq, Repr

/-- Modelled from the spec: graph.init_graph() clears all per-search state
(parent links and the visited log) so successive searches see no stale data. -/
def init_graph (_gs : GraphState) : GraphState :=
  { parent := [], visited_cells := [] }

/-- Modelled from the spec: the external Grid collaborator's geometry, a 2-D grid
of height by width cells, some of them blocked by obstacles. -/
structure Grid where
  width : Nat
  height : Nat
  blocked : Int → Int → Bool

/-- A coordinate is free when it is inside the grid bounds and not blocked. -/
def Grid.free (g : Grid) (i j : Int) : Bool :=
  (0 ≤ i && i < (g.height : Int)) && (0 ≤ j && j < (g.width : Int)) && !(g.blocked i j)

/-- Modelled from the spec: graph.find_neighbors(ci, cj) enumerates the
4-connected free neighbor cells in a fixed, stable order (up, down, left, right),
as the spec requires a stable enumeration order. -/
def Grid.find_neighbors (g : Grid) (ci cj : Int) : List Cell :=
  [(ci - 1, cj), (ci + 1, cj), (ci, cj - 1), (ci, cj + 1)].filterMap
    (fun p => if g.free p.1 p.2 then some (Cell.mk p.1 p.2) else none)

/-- Modelled from the spec: utils.trace_path walks backward via the grid's parent
links from the given cell, prepending each cell, until reaching a cell whose
recorded parent is absent (the start).  The recursion is bounded by the size of
the parent map, which suffices for every chain the searches build.  On a cell
with no recorded parent entry the spec leaves the behavior undefined; this model
then stops and emits the cell itself. -/
def trace_go (gs : GraphState) : Nat → Cell → List Cell → List Cell
  | 0, c, acc => c :: acc
  | fuel + 1, c, acc =>
    match alookup gs.parent c.key with
    | some (some p) => trace_go gs fuel p (c :: acc)
    | _ => c :: acc

/-- Modelled from the spec: utils.trace_path(cell, graph), see trace_go. -/
def trace_path (c : Cell) (gs : GraphState) : List Cell :=
  trace_go gs gs.parent.length c []

/-- Simple Manhattan distance heuristic for grid maps
(heuristic of graph_search.py; the Python value is a nonnegative integer). -/
def heuristic (a b : Cell) : Nat := (a.i - b.i).natAbs + (a.j - b.j).natAbs

/-- One step of a search loop either finishes with a returned path and the final
graph state, or continues in a successor state. -/
inductive StepRes (σ : Type) where
  | done : List Cell → GraphState → StepRes σ
  | next : σ → StepRes σ

/-- Run a search loop for at most the given number of steps; none means the step
budget ran out (the termination lemmas show the chosen budgets never do). -/
def runSteps {σ : Type} (step : σ → StepRes σ) : Nat → σ → Option (List Cell × GraphState)
  | 0, _ => none
  | n + 1, s =>
    match step s with
    | .done p gs => some (p, gs)
    | .next s2 => runSteps step n s2

/-- The state reached after n steps of a search loop, if the loop is still
running then (used to state invariants that hold at all times during a run). -/
def iterStates {σ : Type} (step : σ → StepRes σ) : Nat → σ → Option σ
  | 0, s => some s
  | n + 1, s =>
    match step s with
    | .done _ _ => none
    | .next s2 => iterStates step n s2

/-! ### Depth-first search (graph_search.depth_first_search) -/

/-- Loop state of depth_first_search: the explicit stack, the set of discovered
coordinates, and the graph's mutable state. -/
structure DfsState where
  stack : List Cell
  visited : List (Int × Int)
  gs : GraphState
deriving DecidableEq, Repr

/-- Body of the neighbor loop of depth_first_search: an undiscovered neighbor is
marked discovered, its parent is recorded as the current cell, it is appended to
the visited log and pushed onto the stack. -/
def dfs_visit (current : Cell) (s : DfsState) (nbr : Cell) : DfsState :=
  if nbr.key ∈ s.visited then s
  else
    { stack := nbr :: s.stack
      visited := nbr.key :: s.visited
      gs := { parent := (nbr.key, some current) :: s.gs.parent
              visited_cells := s.gs.visited_cells ++ [Cell.mk nbr.i nbr.j] } }

/-- One iteration of the while loop of depth_first_search: pop the most recently
pushed cell, return the traced path on a goal match, otherwise process the
neighbors in order. -/
def dfs_step (g : Grid) (goal : Cell) (s : DfsState) : StepRes DfsState :=
  match s.stack with
  | [] => .done [] s.gs
  | current :: rest =>
    if current.i = goal.i ∧ current.j = goal.j then
      .done (trace_path current s.gs) s.gs
    else
      .next ((g.find_neighbors current.i current.j).foldl (dfs_visit current)
        { s with stack := rest })

/-- Initialization of depth_first_search: reset the graph, push the start, mark
it discovered, record it as parentless and log it as visited. -/
def dfs_init (gs0 : GraphState) (start : Cell) : DfsState :=
  let gs1 := init_graph gs0
  { stack := [start]
    visited := [start.key]
    gs := { parent := (start.key, none) :: gs1.parent
            visited_cells := gs1.visited_cells ++ [Cell.mk start.i start.j] } }

/-- Step budget that always suffices for DFS and BFS on a grid (each iteration
pops one frontier entry and at most width * height + 1 cells are ever pushed). -/
def gridFuel (g : Grid) : Nat := g.width * g.height + 2

/-- graph_search.depth_first_search, returning the path together with the final
state of the graph's parent map and visited log. -/
def depth_first_search (g : Grid) (gs0 : GraphState) (start goal : Cell) :
    List Cell × GraphState :=
  match runSteps (dfs_step g goal) (gridFuel g) (dfs_init gs0 start) with
  | some r => r
  | none => ([], (dfs_init gs0 start).gs)

/-! ### Breadth-first search (graph_search.breadth_first_search) -/

/-- Loop state of breadth_first_search: the FIFO queue, the set of discovered
coordinates, and the graph's mutable state. -/
structure BfsState where
  queue : List Cell
  visited : List (Int × Int)
  gs : GraphState
deriving DecidableEq, Repr

/-- Body of the neighbor loop of breadth_first_search: an undiscovered neighbor
is marked discovered, its parent is recorded, it is appended to the visited log
and enqueued at the back. -/
def bfs_visit (current : Cell) (s : BfsState) (nbr : Cell) : BfsState :=
  if nbr.key ∈ s.visited then s
  else
    { queue := s.queue ++ [nbr]
      visited := nbr.key :: s.visited
      gs := { parent := (nbr.key, some current) :: s.gs.parent
              visited_cells := s.gs.visited_cells ++ [Cell.mk nbr.i nbr.j] } }

/-- One iteration of the while loop of breadth_first_search: dequeue from the
front, return the traced path on a goal match, otherwise process neighbors. -/
def bfs_step (g : Grid) (goal : Cell) (s : BfsState) : StepRes BfsState :=
  match s.queue with
  | [] => .done [] s.gs
  | current :: rest =>
    if current.i = goal.i ∧ current.j = goal.j then
      .done (trace_path current s.gs) s.gs
    else
      .next ((g.find_neighbors current.i current.j).foldl (bfs_visit current)
        { s with queue := rest })

/-- Initialization of breadth_first_search. -/
def bfs_init (gs0 : GraphState) (start : Cell) : BfsState :=
  let gs1 := init_graph gs0
  { queue := [start]
    visited := [start.key]
    gs := { parent := (start.key, none) :: gs1.parent
            visited_cells := gs1.visited_cells ++ [Cell.mk start.i start.j] } }

/-- graph_search.breadth_first_search, returning the path together with the
final state of the graph's parent map and visited log. -/
def breadth_first_search (g : Grid) (gs0 : GraphState) (start goal : Cell) :
    List Cell × GraphState :=
  match runSteps (bfs_step g goal) (gridFuel g) (bfs_init gs0 start) with
  | some r => r
  | none => ([], (bfs_init gs0 start).gs)

/-! ### A* search (graph_search.a_star_search) -/

/-- A frontier entry of a_star_search: the Python tuple
(f_cost, g_cost, counter, Cell).  All costs are exact small integers in the
Python run (g is a whole number of unit steps and the heuristic is integral), so
Nat models the float arithmetic exactly. -/
structure AstarEntry where
  f : Nat
  g : Nat
  cnt : Nat
  cell : Cell
deriving DecidableEq, Repr

/-- Strict lexicographic order on the (f, g, cnt) prefix of a heap entry.  The
Python heap compares the full tuples, but since every pushed entry carries a
fresh counter the cell component is never reached. -/
def entryLt (a b : AstarEntry) : Prop :=
  a.f < b.f ∨ (a.f = b.f ∧ (a.g < b.g ∨ (a.g = b.g ∧ a.cnt < b.cnt)))

instance (a b : AstarEntry) : Decidable (entryLt a b) := by
  unfold entryLt; infer_instance

/-- Least entry of a nonempty collection under entryLt, preferring the earlier
element when neither is strictly smaller. -/
def minEntry : AstarEntry → List AstarEntry → AstarEntry
  | e, [] => e
  | e, x :: xs => minEntry (if entryLt x e then x else e) xs

/-- Remove the first occurrence of an entry from the heap list. -/
def removeFirst (e : AstarEntry) : List AstarEntry → List AstarEntry
  | [] => []
  | x :: xs => if x = e then xs else x :: removeFirst e xs

/-- Models heappop on the Python heap.  Because the counters of the entries in
the heap are pairwise distinct, the tuple order is total on them, hence heappop
returns exactly the entryLt-least entry and leaves the rest; the heap is
represented by the list of its entries. -/
def popMin (h : List AstarEntry) : Option (AstarEntry × List AstarEntry) :=
  match h with
  | [] => none
  | x :: xs => some (minEntry x xs, removeFirst (minEntry x xs) (x :: xs))

/-- Loop state of a_star_search: the open heap, the g-cost map, the tie-breaking
counter, the closed set, and the graph's mutable state. -/
structure AstarState where
  open_heap : List AstarEntry
  g_cost : List ((Int × Int) × Nat)
  counter : Nat
  closed : List (Int × Int)
  gs : GraphState
deriving DecidableEq, Repr

/-- The successful relaxation of a_star_search: record the cheaper g-cost,
overwrite the parent link, and push a fresh frontier entry. -/
def astar_update (goal current : Cell) (tentative : Nat) (s : AstarState)
    (nbr : Cell) : AstarState :=
  { open_heap := { f := tentative + heuristic nbr goal, g := tentative,
                   cnt := s.counter, cell := nbr } :: s.open_heap
    g_cost := (nbr.key, tentative) :: s.g_cost
    counter := s.counter + 1
    closed := s.closed
    gs := { s.gs with parent := (nbr.key, some current) :: s.gs.parent } }

/-- Body of the neighbor loop of a_star_search: skip closed neighbors, otherwise
relax when the neighbor has no recorded g-cost or the tentative cost improves on
it (tentative_g is computed from the g value of the popped entry). -/
def astar_relax (goal current : Cell) (gpop : Nat) (s : AstarState)
    (nbr : Cell) : AstarState :=
  if nbr.key ∈ s.closed then s
  else
    match alookup s.g_cost nbr.key with
    | none => astar_update goal current (gpop + 1) s nbr
    | some gold =>
      if gpop + 1 < gold then astar_update goal current (gpop + 1) s nbr else s

/-- One iteration of the while loop of a_star_search: pop the least entry,
discard it if its cell is already closed, otherwise close the cell, log it as
visited, return the traced path on a goal match, else relax the neighbors. -/
def astar_step (g : Grid) (goal : Cell) (s : AstarState) : StepRes AstarState :=
  match popMin s.open_heap with
  | none => .done [] s.gs
  | some (e, rest) =>
    if e.cell.key ∈ s.closed then .next { s with open_heap := rest }
    else
      let s1 : AstarState :=
        { s with
          open_heap := rest
          closed := e.cell.key :: s.closed
          gs := { s.gs with
                  visited_cells := s.gs.visited_cells ++ [Cell.mk e.cell.i e.cell.j] } }
      if e.cell.i = goal.i ∧ e.cell.j = goal.j then
        .done (trace_path e.cell s1.gs) s1.gs
      else
        .next ((g.find_neighbors e.cell.i e.cell.j).foldl
          (astar_relax goal e.cell e.g) s1)

/-- Initialization of a_star_search: reset the graph, seed the g-cost of start
with 0, record start as parentless, and push the start entry with counter 0. -/
def astar_init (gs0 : GraphState) (start goal : Cell) : AstarState :=
  let gs1 := init_graph gs0
  { open_heap := [{ f := 0 + heuristic start goal, g := 0, cnt := 0, cell := start }]
    g_cost := [(start.key, 0)]
    counter := 1
    closed := []
    gs := { gs1 with parent := (start.key, none) :: gs1.parent } }

/-- Step budget that always suffices for A* on a grid: at most
4 * (width * height + 1) + 1 entries are ever pushed and each iteration pops
one entry. -/
def astarFuel (g : Grid) : Nat := 4 * (g.width * g.height + 1) + 2

/-- graph_search.a_star_search, returning the path together with the final state
of the graph's parent map and visited log. -/
def a_star_search (g : Grid) (gs0 : GraphState) (start goal : Cell) :
    List Cell × GraphState :=
  match runSteps (astar_step g goal) (astarFuel g) (astar_init gs0 start goal) with
  | some r => r
  | none => ([], (astar_init gs0 start goal).gs)

/-! ### Paths in the grid -/

/-- Adjacency of the search graph: b is listed among the neighbors of a. -/
def Grid.adjB (g : Grid) (a b : Cell) : Bool := decide (b ∈ g.find_neighbors a.i a.j)

/-- Every consecutive pair of the list is adjacent. -/
def chainB (g : Grid) : List Cell → Bool
  | [] => true
  | [_] => true
  | a :: b :: rest => g.adjB a b && chainB g (b :: rest)

/-- The list is a path of the grid from s to t: nonempty, starting at s, ending
at t, with consecutive cells adjacent. -/
def isPathB (g : Grid) (s t : Cell) (p : List Cell) : Bool :=
  (p.head? == some s) && (p.getLast? == some t) && chainB g p

/-- Propositional form of isPathB. -/
def IsPath (g : Grid) (s t : Cell) (p : List Cell) : Prop := isPathB g s t p = true

/-- Number of edges of a path given as its list of cells. -/
def pathEdges (p : List Cell) : Nat := p.length - 1

/-- There is a walk of exactly n edges from s to t in the grid's neighbor
relation (snoc-structured, which matches how the searches extend paths). -/
inductive Reach (g : Grid) (s : Cell) : Cell → Nat → Prop where
  | base : Reach g s s 0
  | snoc : ∀ {y u : Cell} {n : Nat}, Reach g s y n → u ∈ g.find_neighbors y.i y.j →
      Reach g s u (n + 1)

/-- Parent chains of the graph state: the cell's recorded parent links, walked
back to a parentless cell, spell out the given list (ending in the cell). -/
inductive ChainTo (gs : GraphState) : Cell → List Cell → Prop where
  | root : ∀ c : Cell, alookup gs.parent c.key = some none → ChainTo gs c [c]
  | step : ∀ (c p : Cell) (l : List Cell), alookup gs.parent c.key = some (some p) →
      ChainTo gs p l → ChainTo gs c (l ++ [c])

/-- The cell at a given coordinate key (inverse of Cell.key). -/
def keyCell (k : Int × Int) : Cell := Cell.mk k.1 k.2

/-- The parent map is a forest rooted at start: walking the recorded parent
links from any mapped coordinate yields a finite, repetition-free chain that
begins at the start cell (hence there are no cycles). -/
def ForestRootedAt (start : Cell) (gs : GraphState) : Prop :=
  ∀ k, (alookup gs.parent k).isSome →
    ∃ l, ChainTo gs (keyCell k) l ∧ l.head? = some start ∧ l.Nodup

/-- Invariant tying the parent map of the graph to the set of discovered
coordinates, shared by the DFS and BFS loops. -/
structure ParentInv (g : Grid) (start : Cell) (visited : List (Int × Int))
    (gs : GraphState) : Prop where
  start_mem : start.key ∈ visited
  start_parent : alookup gs.parent start.key = some none
  dom_iff : ∀ k, (alookup gs.parent k).isSome ↔ k ∈ visited
  none_start : ∀ k, alookup gs.parent k = some none → k = start.key
  step_rel : ∀ k p, alookup gs.parent k = some (some p) →
    p.key ∈ visited ∧ keyCell k ∈ g.find_neighbors p.i p.j
  chain : ∀ k ∈ visited, ∃ l, ChainTo gs (keyCell k) l ∧
    IsPath g start (keyCell k) l ∧ l.Nodup ∧ ∀ x ∈ l, x.key ∈ visited

/-- Invariant of the A* loop: the g-cost map, parent map, closed set and open
heap are mutually coherent.  Parent links always point one unit step down in
g-cost into the closed set, non-closed mapped cells always own a heap entry
carrying their current g-cost, and every mapped cell has a parent chain that is
a path from start of length exactly its g-cost. -/
structure AstarInv (g : Grid) (start goal : Cell) (s : AstarState) : Prop where
  start_g : alookup s.g_cost start.key = some 0
  start_parent : alookup s.gs.parent start.key = some none
  none_start : ∀ k, alookup s.gs.parent k = some none → k = start.key
  dom_iff : ∀ k, (alookup s.g_cost k).isSome ↔ (alookup s.gs.parent k).isSome
  parent_rel : ∀ k p, alookup s.gs.parent k = some (some p) → ∃ gk gp,
    alookup s.g_cost k = some gk ∧ alookup s.g_cost p.key = some gp ∧ gk = gp + 1 ∧
    p.key ∈ s.closed ∧ keyCell k ∈ g.find_neighbors p.i p.j
  closed_dom : ∀ k ∈ s.closed, (alookup s.g_cost k).isSome
  heap_dom : ∀ e ∈ s.open_heap, (alookup s.g_cost e.cell.key).isSome
  heap_f : ∀ e ∈ s.open_heap, e.f = e.g + heuristic e.cell goal
  heap_ge : ∀ e ∈ s.open_heap, ∀ gk, alookup s.g_cost e.cell.key = some gk → gk ≤ e.g
  open_entry : ∀ k gk, alookup s.g_cost k = some gk → k ∉ s.closed →
    ∃ e ∈ s.open_heap, e.cell.key = k ∧ e.g = gk
  chain : ∀ k gk, alookup s.g_cost k = some gk → ∃ l,
    ChainTo s.gs (keyCell k) l ∧ IsPath g start (keyCell k) l ∧ l.length = gk + 1 ∧
    l.Nodup ∧ ∀ x ∈ l.dropLast, x.key ∈ s.closed
  goal_open : goal.key ∉ s.closed

/-- Optimality invariant of the A* loop, on top of AstarInv: closed cells carry
a g-cost that lower-bounds every walk from start reaching them, and every
neighbor of a closed cell that is itself not closed has been relaxed to within
one step of it. -/
structure AstarOpt (g : Grid) (start : Cell) (s : AstarState) : Prop where
  closed_opt : ∀ k ∈ s.closed, ∀ gk, alookup s.g_cost k = some gk →
    ∀ n, Reach g start (keyCell k) n → gk ≤ n
  closed_edge : ∀ k ∈ s.closed, ∀ m, m ∈ g.find_neighbors (keyCell k).i (keyCell k).j →
    m.key ∉ s.closed → ∃ gm gk, alookup s.g_cost m.key = some gm ∧
      alookup s.g_cost k = some gk ∧ gm ≤ gk + 1

/-- Full invariant of the BFS loop, with an explicit depth assignment δ for the
discovered coordinates: parent chains realize δ, the queue is sorted by δ with a
window of at most one, expanded cells have all neighbors discovered within δ+1,
δ lower-bounds every walk from start, and a discovered goal is still queued. -/
structure BfsInvD (g : Grid) (start goal : Cell) (δ : (Int × Int) → Nat)
    (s : BfsState) : Prop where
  base : ParentInv g start s.visited s.gs
  frontier_vis : ∀ c ∈ s.queue, c.key ∈ s.visited
  queue_nodup : (s.queue.map Cell.key).Nodup
  δ_start : δ start.key = 0
  δ_chain : ∀ k ∈ s.visited, ∃ l, ChainTo s.gs (keyCell k) l ∧
    IsPath g start (keyCell k) l ∧ l.length = δ k + 1 ∧ l.Nodup ∧
    ∀ x ∈ l, x.key ∈ s.visited
  sorted : s.queue.Pairwise (fun a b => δ a.key ≤ δ b.key ∧ δ b.key ≤ δ a.key + 1)
  expanded : ∀ k ∈ s.visited, (∀ c ∈ s.queue, c.key ≠ k) →
    ∀ m, m ∈ g.find_neighbors (keyCell k).i (keyCell k).j →
      m.key ∈ s.visited ∧ δ m.key ≤ δ k + 1
  vis_bound : ∀ k ∈ s.visited, (∃ c ∈ s.queue, c.key = k) ∨
    (∀ c ∈ s.queue, δ k ≤ δ c.key)
  opt : ∀ k ∈ s.visited, ∀ n, Reach g start (keyCell k) n → δ k ≤ n
  goal_pending : goal.key ∈ s.visited → ∃ c ∈ s.queue, c.key = goal.key

/-- The BFS loop invariant, with the depth assignment quantified away. -/
def BfsInv (g : Grid) (start goal : Cell) (s : BfsState) : Prop :=
  ∃ δ, BfsInvD g start goal δ s

/-- A concrete one-cell open grid, used to instantiate theorems at a concrete
input. -/
def witGrid : Grid := { width := 1, height := 1, blocked := fun _ _ => false }

/-- The empty graph state. -/
def emptyGS : GraphState := { parent := [], visited_cells := [] }

/-- A concrete 4-by-4 grid whose second-to-last row is blocked except for its
first column, used as an input on which a run of a_star_search pops an entry
that ties on f-cost with an earlier-pushed entry still in the heap. -/
def c3Grid : Grid :=
  { width := 4, height := 4,
    blocked := fun i j =>
      decide ((i = 2 ∧ j = 1) ∨ (i = 2 ∧ j = 2) ∨ (i = 2 ∧ j = 3)) }

/-- All free coordinates of the grid, row by row. -/
def freeCells (g : Grid) : List (Int × Int) :=
  ((List.range g.height).flatMap fun i =>
    (List.range g.width).map fun j => (Int.ofNat i, Int.ofNat j)).filter
    fun p => g.free p.1 p.2

/-- The coordinates a search can ever put on its frontier: the free cells plus
the start coordinate, without duplicates (used only to measure termination). -/
def keyUniverse (g : Grid) (start : Cell) : List (Int × Int) :=
  (start.key :: freeCells g).dedup

/-- Termination measure for DFS and BFS: undiscovered potential cells plus the
frontier size; every loop iteration strictly decreases it. -/
def dfsMeasure (g : Grid) (start : Cell) (s : DfsState) : Nat :=
  (keyUniverse g start).countP (fun k => decide (k ∉ s.visited)) + s.stack.length

/-- Termination measure for BFS. -/
def bfsMeasure (g : Grid) (start : Cell) (s : BfsState) : Nat :=
  (keyUniverse g start).countP (fun k => decide (k ∉ s.visited)) + s.queue.length

/-- Termination measure for A*: each expansion closes a fresh cell and pushes at
most four entries, each skip just shrinks the heap. -/
def astarMeasure (g : Grid) (start : Cell) (s : AstarState) : Nat :=
  4 * (keyUniverse g start).countP (fun k => decide (k ∉ s.closed)) + s.open_heap.length

/-! ## Generic lemmas about the step runner -/

theorem iterStates_zero {σ : Type} (step : σ → StepRes σ) (s : σ) :
    iterStates step 0 s = some s := rfl

theorem iterStates_next {σ : Type} {step : σ → StepRes σ} {s s2 : σ}
    (h : step s = .next s2) (n : Nat) :
    iterStates step (n + 1) s = iterStates step n s2 := by
  simp [iterStates, h]

theorem iterStates_done {σ : Type} {step : σ → StepRes σ} {s : σ} {p : List Cell}
    {gs : GraphState} (h : step s = .done p gs) (n : Nat) :
    iterStates step (n + 1) s = none := by
  simp [iterStates, h]

theorem iter_invariant {σ : Type} {step : σ → StepRes σ} {P : σ → Prop}
    (pres : ∀ s s2, P s → step s = .next s2 → P s2) :
    ∀ (n : Nat) (s s2 : σ), P s → iterStates step n s = some s2 → P s2 := by
  intro n
  induction n with
  | zero => intro s s2 h he; rw [iterStates_zero] at he; cases he; exact h
  | succ n ih =>
    intro s s2 h he
    cases hs : step s with
    | done p gs => rw [iterStates_done hs] at he; cases he
    | next s3 => rw [iterStates_next hs] at he; exact ih s3 s2 (pres s s3 h hs) he

theorem runSteps_isSome {σ : Type} {step : σ → StepRes σ} {P : σ → Prop} {μ : σ → Nat}
    (pres : ∀ s s2, P s → step s = .next s2 → P s2)
    (dec : ∀ s s2, P s → step s = .next s2 → μ s2 < μ s) :
    ∀ (fuel : Nat) (s : σ), P s → μ s < fuel → (runSteps step fuel s).isSome := by
  intro fuel
  induction fuel with
  | zero => intro s _ h; omega
  | succ n ih =>
    intro s hP hμ
    cases hs : step s with
    | done p gs => simp [runSteps, hs]
    | next s2 =>
      have h2 := dec s s2 hP hs
      simpa [runSteps, hs] using ih s2 (pres s s2 hP hs) (by omega)

theorem runSteps_done_exists {σ : Type} {step : σ → StepRes σ} :
    ∀ {fuel : Nat} {s : σ} {r : List Cell × GraphState},
      runSteps step fuel s = some r →
      ∃ (n : Nat) (s2 : σ), iterStates step n s = some s2 ∧ step s2 = .done r.1 r.2 := by
  intro fuel
  induction fuel with
  | zero => intro s r h; simp [runSteps] at h
  | succ n ih =>
    intro s r h
    cases hs : step s with
    | done p gs =>
      refine ⟨0, s, iterStates_zero step s, ?_⟩
      simp only [runSteps, hs] at h
      cases h
      exact hs
    | next s2 =>
      simp only [runSteps, hs] at h
      obtain ⟨m, s3, hit, hdone⟩ := ih h
      exact ⟨m + 1, s3, by rw [iterStates_next hs]; exact hit, hdone⟩

/-! ## Lemmas about association-list lookup -/

theorem alookup_cons {β : Type} (k : Int × Int) (v : β) (l : List ((Int × Int) × β))
    (a : Int × Int) :
    alookup ((k, v) :: l) a = if a = k then some v else alookup l a := rfl

theorem alookup_cons_self {β : Type} (k : Int × Int) (v : β)
    (l : List ((Int × Int) × β)) : alookup ((k, v) :: l) k = some v := by
  simp [alookup_cons]

theorem alookup_cons_ne {β : Type} {k a : Int × Int} (v : β)
    (l : List ((Int × Int) × β)) (h : a ≠ k) :
    alookup ((k, v) :: l) a = alookup l a := by
  simp [alookup_cons, h]

/-! ## Lemmas about neighbors and the heuristic -/

theorem mem_find_neighbors {g : Grid} {ci cj : Int} {b : Cell} :
    b ∈ g.find_neighbors ci cj ↔
      g.free b.i b.j = true ∧
        ((b.i = ci - 1 ∧ b.j = cj) ∨ (b.i = ci + 1 ∧ b.j = cj) ∨
         (b.i = ci ∧ b.j = cj - 1) ∨ (b.i = ci ∧ b.j = cj + 1)) := by
  simp only [Grid.find_neighbors, List.mem_filterMap, List.mem_cons,
    List.mem_singleton, List.not_mem_nil, or_false]
  constructor
  · rintro ⟨p, hp, hif⟩
    by_cases hf : g.free p.1 p.2
    · simp only [hf, if_pos] at hif
      cases hif
      rcases hp with h | h | h | h <;> (cases h; simp_all)
    · simp [hf] at hif
  · rintro ⟨hf, hcoord⟩
    refine ⟨(b.i, b.j), ?_, by simp [hf]⟩
    rcases hcoord with ⟨h1, h2⟩ | ⟨h1, h2⟩ | ⟨h1, h2⟩ | ⟨h1, h2⟩ <;> simp [h1, h2]

theorem free_of_mem_find_neighbors {g : Grid} {ci cj : Int} {b : Cell}
    (h : b ∈ g.find_neighbors ci cj) : g.free b.i b.j = true :=
  (mem_find_neighbors.mp h).1

theorem length_find_neighbors_le (g : Grid) (ci cj : Int) :
    (g.find_neighbors ci cj).length ≤ 4 := by
  have := List.length_filterMap_le
    (fun p : Int × Int => if g.free p.1 p.2 then some (Cell.mk p.1 p.2) else none)
    [(ci - 1, cj), (ci + 1, cj), (ci, cj - 1), (ci, cj + 1)]
  simpa using this

theorem nodup_find_neighbors (g : Grid) (ci cj : Int) :
    (g.find_neighbors ci cj).Nodup := by
  have base : ([(ci - 1, cj), (ci + 1, cj), (ci, cj - 1), (ci, cj + 1)] :
      List (Int × Int)).Nodup := by
    simp only [List.nodup_cons, List.mem_cons, List.not_mem_nil, or_false,
      List.nodup_nil, and_true, Prod.mk.injEq, not_or, not_and,
      not_false_eq_true, true_implies]
    repeat' apply And.intro
    all_goals (intros; omega)
  refine List.Nodup.filterMap ?_ base
  intro p q b hp hq
  rw [Option.mem_def] at hp hq
  by_cases h1 : g.free p.1 p.2
  · by_cases h2 : g.free q.1 q.2
    · simp only [h1, if_pos, Option.some.injEq] at hp
      simp only [h2, if_pos, Option.some.injEq] at hq
      have heq : Cell.mk p.1 p.2 = Cell.mk q.1 q.2 := hp.trans hq.symm
      have h3 := congrArg Cell.i heq
      have h4 := congrArg Cell.j heq
      simp only at h3 h4
      exact Prod.ext h3 h4
    · simp [h2] at hq
  · simp [h1] at hp

theorem heuristic_self (a : Cell) : heuristic a a = 0 := by
  simp [heuristic]

theorem heuristic_adj {g : Grid} {ci cj : Int} {b c : Cell}
    (h : b ∈ g.find_neighbors ci cj) :
    heuristic (Cell.mk ci cj) c ≤ heuristic b c + 1 := by
  obtain ⟨-, hcoord⟩ := mem_find_neighbors.mp h
  simp only [heuristic]
  rcases hcoord with ⟨h1, h2⟩ | ⟨h1, h2⟩ | ⟨h1, h2⟩ | ⟨h1, h2⟩ <;> (rw [h1, h2]; omega)

/-! ## Lemmas about paths and reachability -/

theorem chainB_cons {g : Grid} {a b : Cell} {rest : List Cell} :
    chainB g (a :: b :: rest) = (g.adjB a b && chainB g (b :: rest)) := rfl

theorem isPath_single (g : Grid) (s : Cell) : IsPath g s s [s] := by
  simp [IsPath, isPathB, chainB]

theorem chainB_append_single {g : Grid} :
    ∀ {p : List Cell} {y u : Cell}, chainB g p = true → p.getLast? = some y →
      u ∈ g.find_neighbors y.i y.j → chainB g (p ++ [u]) = true := by
  intro p
  induction p with
  | nil => intro y u _ h; simp at h
  | cons a rest ih =>
    intro y u hc hl hu
    cases rest with
    | nil =>
      simp only [List.getLast?_singleton, Option.some.injEq] at hl
      cases hl
      simp [chainB, Grid.adjB, hu]
    | cons b rest2 =>
      rw [chainB_cons] at hc
      have h1 := (Bool.and_eq_true _ _).mp hc
      have hl2 : (b :: rest2).getLast? = some y := by
        rw [List.getLast?_cons_cons] at hl
        exact hl
      have := ih h1.2 hl2 hu
      simpa [chainB_cons, h1.1] using this

theorem isPath_snoc {g : Grid} {s y u : Cell} {p : List Cell}
    (h : IsPath g s y p) (hu : u ∈ g.find_neighbors y.i y.j) :
    IsPath g s u (p ++ [u]) := by
  simp only [IsPath, isPathB, Bool.and_eq_true, beq_iff_eq] at h ⊢
  obtain ⟨⟨hh, hl⟩, hc⟩ := h
  refine ⟨⟨?_, by simp⟩, chainB_append_single hc hl hu⟩
  cases p with
  | nil => simp at hh
  | cons a rest => simpa using hh

theorem reach_isPath {g : Grid} {s t : Cell} {n : Nat} (h : Reach g s t n) :
    ∃ p : List Cell, IsPath g s t p ∧ p.length = n + 1 := by
  induction h with
  | base => exact ⟨[s], isPath_single g s, rfl⟩
  | snoc hr hu ih =>
    obtain ⟨p, hp, hlen⟩ := ih
    exact ⟨p ++ [_], isPath_snoc hp hu, by simp [hlen]⟩

theorem chainB_dropLast {g : Grid} :
    ∀ {p : List Cell} {y u : Cell}, chainB g (p ++ [u]) = true → p.getLast? = some y →
      chainB g p = true ∧ u ∈ g.find_neighbors y.i y.j := by
  intro p
  induction p with
  | nil => intro y u _ h; simp at h
  | cons a rest ih =>
    intro y u hc hl
    cases rest with
    | nil =>
      simp only [List.getLast?_singleton, Option.some.injEq] at hl
      cases hl
      simp only [List.cons_append, List.nil_append, chainB_cons, Bool.and_eq_true] at hc
      refine ⟨rfl, ?_⟩
      have := hc.1
      simpa [Grid.adjB] using this
    | cons b rest2 =>
      rw [List.getLast?_cons_cons] at hl
      simp only [List.cons_append, chainB_cons] at hc
      have h1 := (Bool.and_eq_true _ _).mp hc
      obtain ⟨h2, h3⟩ := ih h1.2 hl
      exact ⟨by simp [chainB_cons, h1.1, h2], h3⟩

theorem isPath_reach {g : Grid} {s : Cell} :
    ∀ {p : List Cell} {t : Cell}, IsPath g s t p → Reach g s t (p.length - 1) := by
  intro p
  induction p using List.reverseRecOn with
  | nil => intro t h; simp [IsPath, isPathB] at h
  | append_singleton q x ih =>
    intro t h
    simp only [IsPath, isPathB, Bool.and_eq_true, beq_iff_eq] at h
    obtain ⟨⟨hh, hl⟩, hc⟩ := h
    rw [List.getLast?_concat] at hl
    cases hl
    cases q with
    | nil =>
      simp only [List.nil_append, List.head?_cons, Option.some.injEq] at hh
      cases hh
      exact Reach.base
    | cons a rest =>
      have hqne : (a :: rest : List Cell) ≠ [] := by simp
      have hy : (a :: rest).getLast? = some ((a :: rest).getLast hqne) :=
        List.getLast?_eq_getLast _ hqne
      obtain ⟨hcq, hx⟩ := chainB_dropLast (y := (a :: rest).getLast hqne) hc hy
      have hhq : (a :: rest).head? = some s := by
        simpa using hh
      have hp : IsPath g s ((a :: rest).getLast hqne) (a :: rest) := by
        simp [IsPath, isPathB, hhq, hy, hcq]
      have hr := Reach.snoc (ih hp) hx
      simpa using hr

theorem cell_eta (a : Cell) : Cell.mk a.i a.j = a := rfl

theorem heuristic_le_reach {g : Grid} {s t : Cell} {n : Nat}
    (h : Reach g s t n) : ∀ c : Cell, heuristic s c ≤ n + heuristic t c := by
  induction h with
  | base => intro c; omega
  | snoc hr hu ih =>
    intro c
    have step := heuristic_adj (c := c) hu
    rw [cell_eta] at step
    have := ih c
    omega

theorem reach_target_free {g : Grid} {s t : Cell} {n : Nat} (h : Reach g s t n) :
    s = t ∨ g.free t.i t.j = true := by
  cases h with
  | base => exact Or.inl rfl
  | snoc hr hu => exact Or.inr (free_of_mem_find_neighbors hu)

/-! ## Counting and universe lemmas for termination -/

theorem countP_cons_key (U : List (Int × Int)) (hU : U.Nodup) (ks : List (Int × Int))
    (k : Int × Int) (hk : k ∈ U) (hnk : k ∉ ks) :
    U.countP (fun a => decide (a ∉ (k :: ks))) + 1 =
      U.countP (fun a => decide (a ∉ ks)) := by
  induction U with
  | nil => cases hk
  | cons u rest ih =>
    rw [List.nodup_cons] at hU
    rw [List.countP_cons, List.countP_cons]
    by_cases hu : u = k
    · subst hu
      have hcong : rest.countP (fun a => decide (a ∉ (u :: ks))) =
          rest.countP (fun a => decide (a ∉ ks)) := by
        apply List.countP_congr
        intro a ha
        have hne : a ≠ u := fun h => hU.1 (h ▸ ha)
        simp [List.mem_cons, hne]
      simp only [hcong]
      simp [hnk]
    · have hk2 : k ∈ rest := by
        rcases List.mem_cons.mp hk with h | h
        · exact absurd h.symm hu
        · exact h
      have ih2 := ih hU.2 hk2
      simp only [List.mem_cons] at ih2 ⊢
      simp only [hu, false_or]
      omega

theorem nodup_keyUniverse (g : Grid) (start : Cell) : (keyUniverse g start).Nodup :=
  List.nodup_dedup _

theorem start_key_mem_universe (g : Grid) (start : Cell) :
    start.key ∈ keyUniverse g start := by
  simp [keyUniverse, List.mem_dedup]

theorem key_mem_universe {g : Grid} {start : Cell} {c : Cell}
    (h : g.free c.i c.j = true) : c.key ∈ keyUniverse g start := by
  simp only [keyUniverse, List.mem_dedup, List.mem_cons]
  right
  have hb : (0 ≤ c.i ∧ c.i < (g.height : Int)) ∧ (0 ≤ c.j ∧ c.j < (g.width : Int)) := by
    simp only [Grid.free, Bool.and_eq_true, decide_eq_true_eq] at h
    exact ⟨⟨h.1.1.1, h.1.1.2⟩, h.1.2.1, h.1.2.2⟩
  simp only [freeCells, List.mem_filter, List.mem_flatMap, List.mem_map,
    List.mem_range]
  constructor
  · refine ⟨c.i.toNat, ?_, c.j.toNat, ?_, ?_⟩
    · omega
    · omega
    · simp only [Cell.key, Prod.mk.injEq, Int.ofNat_eq_natCast]
      constructor <;> omega
  · simpa [Cell.key] using h

theorem keyUniverse_length_le (g : Grid) (start : Cell) :
    (keyUniverse g start).length ≤ g.width * g.height + 1 := by
  have h1 : (keyUniverse g start).length ≤ (start.key :: freeCells g).length :=
    List.Sublist.length_le (List.dedup_sublist _)
  have h2 : (freeCells g).length ≤ g.width * g.height := by
    have h3 : (freeCells g).length ≤
        (((List.range g.height).flatMap fun i =>
          (List.range g.width).map fun j => (Int.ofNat i, Int.ofNat j))).length :=
      List.length_filter_le _ _
    have h4 : (((List.range g.height).flatMap fun i =>
        (List.range g.width).map fun j => (Int.ofNat i, Int.ofNat j))).length =
          g.height * g.width := by
      rw [List.length_flatMap]
      simp only [Function.comp_def]
      have hmap : ((List.range g.height).map fun i =>
          (((List.range g.width).map fun j => (Int.ofNat i, Int.ofNat j))).length) =
          List.replicate g.height g.width := by
        rw [List.eq_replicate_iff]
        constructor
        · simp
        · intro b hb
          simp only [List.mem_map, List.mem_range] at hb
          obtain ⟨i, _, hi⟩ := hb
          simp [← hi]
      rw [hmap, List.sum_replicate, smul_eq_mul]
    have hc : g.height * g.width = g.width * g.height := Nat.mul_comm _ _
    omega
  simp only [List.length_cons] at h1
  omega

/-! ## Lemmas about the heap model -/

theorem entryLt_irrefl (a : AstarEntry) : ¬ entryLt a a := by
  unfold entryLt; omega

theorem entryLt_trans {a b c : AstarEntry} (h1 : entryLt a b) (h2 : entryLt b c) :
    entryLt a c := by
  unfold entryLt at h1 h2 ⊢; omega

theorem entryLt_resolve {a b : AstarEntry} (h : ¬ entryLt a b) :
    entryLt b a ∨ (a.f = b.f ∧ a.g = b.g ∧ a.cnt = b.cnt) := by
  unfold entryLt at h ⊢; omega

theorem entryLt_congr_left {a b c : AstarEntry}
    (hk : a.f = b.f ∧ a.g = b.g ∧ a.cnt = b.cnt) (h : entryLt a c) : entryLt b c := by
  unfold entryLt at h ⊢; omega

theorem minEntry_mem (e : AstarEntry) : ∀ (l : List AstarEntry), minEntry e l ∈ e :: l := by
  intro l
  induction l generalizing e with
  | nil => simp [minEntry]
  | cons x xs ih =>
    unfold minEntry
    have h2 := ih (if entryLt x e then x else e)
    rcases List.mem_cons.mp h2 with h3 | h3
    · rw [h3]
      by_cases h : entryLt x e <;> simp [h]
    · simp [List.mem_cons, h3]

theorem minEntry_min (e : AstarEntry) :
    ∀ (l : List AstarEntry) (x : AstarEntry), x ∈ e :: l → ¬ entryLt x (minEntry e l) := by
  intro l
  induction l generalizing e with
  | nil =>
    intro x hx
    simp only [List.mem_singleton] at hx
    subst hx
    simpa [minEntry] using entryLt_irrefl x
  | cons y ys ih =>
    intro x hx
    unfold minEntry
    rcases List.mem_cons.mp hx with h1 | h1
    · subst h1
      by_cases h : entryLt y x
      · simp only [h, if_pos]
        intro hcon
        exact ih y y (List.mem_cons_self _ _) (entryLt_trans h hcon)
      · simp only [h, if_neg, not_false_iff]
        exact ih x x (List.mem_cons_self _ _)
    · rcases List.mem_cons.mp h1 with h2 | h2
      · subst h2
        by_cases h : entryLt x e
        · simp only [h, if_pos]
          exact ih x x (List.mem_cons_self _ _)
        · simp only [h, if_neg, not_false_iff]
          intro hcon
          rcases entryLt_resolve h with h3 | h3
          · exact ih e e (List.mem_cons_self _ _) (entryLt_trans h3 hcon)
          · exact ih e e (List.mem_cons_self _ _) (entryLt_congr_left h3 hcon)
      · by_cases h : entryLt y e
        · simp only [h, if_pos]
          exact ih y x (List.mem_cons_of_mem _ h2)
        · simp only [h, if_neg, not_false_iff]
          exact ih e x (List.mem_cons_of_mem _ h2)

theorem removeFirst_length {e : AstarEntry} :
    ∀ {l : List AstarEntry}, e ∈ l → (removeFirst e l).length + 1 = l.length := by
  intro l
  induction l with
  | nil => intro h; cases h
  | cons x xs ih =>
    intro h
    unfold removeFirst
    by_cases hx : x = e
    · simp [hx]
    · rcases List.mem_cons.mp h with h1 | h1
      · exact absurd h1.symm hx
      · simp only [hx, if_neg, not_false_iff, List.length_cons]
        rw [← ih h1]

theorem removeFirst_subset (e : AstarEntry) :
    ∀ (l : List AstarEntry) (x : AstarEntry), x ∈ removeFirst e l → x ∈ l := by
  intro l
  induction l with
  | nil => intro x h; cases h
  | cons y ys ih =>
    intro x h
    unfold removeFirst at h
    by_cases hy : y = e
    · simp only [hy, if_pos] at h
      exact List.mem_cons_of_mem _ h
    · simp only [hy, if_neg, not_false_iff, List.mem_cons] at h
      rcases h with h | h
      · exact h ▸ List.mem_cons_self _ _
      · exact List.mem_cons_of_mem _ (ih x h)

theorem removeFirst_perm {e : AstarEntry} :
    ∀ {l : List AstarEntry}, e ∈ l → l.Perm (e :: removeFirst e l) := by
  intro l
  induction l with
  | nil => intro h; cases h
  | cons x xs ih =>
    intro h
    unfold removeFirst
    by_cases hx : x = e
    · rw [hx]; simp
    · rcases List.mem_cons.mp h with h1 | h1
      · exact absurd h1.symm hx
      · simp only [hx, if_neg, not_false_iff]
        exact ((ih h1).cons x).trans (List.Perm.swap e x _)

theorem popMin_some {h : List AstarEntry} {e : AstarEntry} {rest : List AstarEntry}
    (hp : popMin h = some (e, rest)) :
    e ∈ h ∧ rest = removeFirst e h ∧ (∀ x ∈ h, ¬ entryLt x e) := by
  cases h with
  | nil => cases hp
  | cons x xs =>
    simp only [popMin, Option.some.injEq, Prod.mk.injEq] at hp
    obtain ⟨he, hrest⟩ := hp
    subst he
    exact ⟨minEntry_mem x xs, hrest.symm, minEntry_min x xs⟩

theorem popMin_none {h : List AstarEntry} (hp : popMin h = none) : h = [] := by
  cases h with
  | nil => rfl
  | cons x xs => simp [popMin] at hp

/-! ## Case analysis of the A* relaxation -/

theorem astar_relax_cases (goal current : Cell) (gpop : Nat) (s : AstarState)
    (nbr : Cell) :
    astar_relax goal current gpop s nbr = s ∨
      astar_relax goal current gpop s nbr = astar_update goal current (gpop + 1) s nbr := by
  unfold astar_relax
  split
  · exact Or.inl rfl
  · split
    · exact Or.inr rfl
    · split
      · exact Or.inr rfl
      · exact Or.inl rfl

theorem astar_relax_closed (goal current : Cell) (gpop : Nat) (s : AstarState)
    (nbr : Cell) : (astar_relax goal current gpop s nbr).closed = s.closed := by
  rcases astar_relax_cases goal current gpop s nbr with h | h <;> rw [h]
  rfl

theorem foldl_relax_closed (goal current : Cell) (gpop : Nat) :
    ∀ (L : List Cell) (s : AstarState),
      (L.foldl (astar_relax goal current gpop) s).closed = s.closed := by
  intro L
  induction L with
  | nil => intro s; rfl
  | cons x xs ih =>
    intro s
    simp only [List.foldl_cons]
    rw [ih, astar_relax_closed]

theorem foldl_relax_heap_length (goal current : Cell) (gpop : Nat) :
    ∀ (L : List Cell) (s : AstarState),
      ((L.foldl (astar_relax goal current gpop) s).open_heap).length ≤
        s.open_heap.length + L.length := by
  intro L
  induction L with
  | nil => intro s; simp
  | cons x xs ih =>
    intro s
    simp only [List.foldl_cons, List.length_cons]
    have h1 := ih (astar_relax goal current gpop s x)
    have h2 : (astar_relax goal current gpop s x).open_heap.length ≤
        s.open_heap.length + 1 := by
      rcases astar_relax_cases goal current gpop s x with h | h <;> rw [h]
      · omega
      · simp [astar_update]
    omega

theorem foldl_relax_heap_mem (goal current : Cell) (gpop : Nat) :
    ∀ (L : List Cell) (s : AstarState) (e : AstarEntry),
      e ∈ (L.foldl (astar_relax goal current gpop) s).open_heap →
        e ∈ s.open_heap ∨ e.cell ∈ L := by
  intro L
  induction L with
  | nil => intro s e h; exact Or.inl h
  | cons x xs ih =>
    intro s e h
    simp only [List.foldl_cons] at h
    rcases ih _ e h with h1 | h1
    · rcases astar_relax_cases goal current gpop s x with h2 | h2
      · rw [h2] at h1; exact Or.inl h1
      · rw [h2] at h1
        simp only [astar_update, List.mem_cons] at h1
        rcases h1 with h3 | h3
        · exact Or.inr (by simp [h3])
        · exact Or.inl h3
    · exact Or.inr (List.mem_cons_of_mem _ h1)

/-! ## Termination of the three search loops -/

theorem dfs_visit_measure_le (g : Grid) (start current : Cell) (s : DfsState)
    (nbr : Cell) (hfree : g.free nbr.i nbr.j = true) :
    dfsMeasure g start (dfs_visit current s nbr) ≤ dfsMeasure g start s := by
  unfold dfs_visit
  by_cases h : nbr.key ∈ s.visited
  · simp [h]
  · simp only [h, if_neg, not_false_iff]
    unfold dfsMeasure
    simp only [List.length_cons]
    have := countP_cons_key (keyUniverse g start) (nodup_keyUniverse g start)
      s.visited nbr.key (key_mem_universe hfree) h
    omega

theorem foldl_dfs_visit_measure (g : Grid) (start current : Cell) :
    ∀ (L : List Cell) (s : DfsState), (∀ c ∈ L, g.free c.i c.j = true) →
      dfsMeasure g start (L.foldl (dfs_visit current) s) ≤ dfsMeasure g start s := by
  intro L
  induction L with
  | nil => intro s _; exact le_refl _
  | cons x xs ih =>
    intro s hL
    simp only [List.foldl_cons]
    exact le_trans (ih _ (fun c hc => hL c (List.mem_cons_of_mem _ hc)))
      (dfs_visit_measure_le g start current s x (hL x (List.mem_cons_self _ _)))

theorem dfs_step_measure {g : Grid} {goal : Cell} (start : Cell) {s s2 : DfsState}
    (h : dfs_step g goal s = .next s2) :
    dfsMeasure g start s2 < dfsMeasure g start s := by
  unfold dfs_step at h
  cases hs : s.stack with
  | nil => rw [hs] at h; cases h
  | cons current rest =>
    simp only [hs] at h
    by_cases hg : current.i = goal.i ∧ current.j = goal.j
    · rw [if_pos hg] at h; cases h
    · rw [if_neg hg] at h
      cases h
      have hf := foldl_dfs_visit_measure g start current
        (g.find_neighbors current.i current.j) { s with stack := rest }
        (fun c hc => free_of_mem_find_neighbors hc)
      have hlt : dfsMeasure g start { s with stack := rest } < dfsMeasure g start s := by
        unfold dfsMeasure
        rw [hs]
        simp only [List.length_cons]
        omega
      omega

theorem bfs_visit_measure_le (g : Grid) (start current : Cell) (s : BfsState)
    (nbr : Cell) (hfree : g.free nbr.i nbr.j = true) :
    bfsMeasure g start (bfs_visit current s nbr) ≤ bfsMeasure g start s := by
  unfold bfs_visit
  by_cases h : nbr.key ∈ s.visited
  · simp [h]
  · simp only [h, if_neg, not_false_iff]
    unfold bfsMeasure
    simp only [List.length_append, List.length_cons, List.length_nil]
    have := countP_cons_key (keyUniverse g start) (nodup_keyUniverse g start)
      s.visited nbr.key (key_mem_universe hfree) h
    omega

theorem foldl_bfs_visit_measure (g : Grid) (start current : Cell) :
    ∀ (L : List Cell) (s : BfsState), (∀ c ∈ L, g.free c.i c.j = true) →
      bfsMeasure g start (L.foldl (bfs_visit current) s) ≤ bfsMeasure g start s := by
  intro L
  induction L with
  | nil => intro s _; exact le_refl _
  | cons x xs ih =>
    intro s hL
    simp only [List.foldl_cons]
    exact le_trans (ih _ (fun c hc => hL c (List.mem_cons_of_mem _ hc)))
      (bfs_visit_measure_le g start current s x (hL x (List.mem_cons_self _ _)))

theorem bfs_step_measure {g : Grid} {goal : Cell} (start : Cell) {s s2 : BfsState}
    (h : bfs_step g goal s = .next s2) :
    bfsMeasure g start s2 < bfsMeasure g start s := by
  unfold bfs_step at h
  cases hs : s.queue with
  | nil => rw [hs] at h; cases h
  | cons current rest =>
    simp only [hs] at h
    by_cases hg : current.i = goal.i ∧ current.j = goal.j
    · rw [if_pos hg] at h; cases h
    · rw [if_neg hg] at h
      cases h
      have hf := foldl_bfs_visit_measure g start current
        (g.find_neighbors current.i current.j) { s with queue := rest }
        (fun c hc => free_of_mem_find_neighbors hc)
      have hlt : bfsMeasure g start { s with queue := rest } < bfsMeasure g start s := by
        unfold bfsMeasure
        rw [hs]
        simp only [List.length_cons]
        omega
      omega

theorem astar_step_measure {g : Grid} {goal : Cell} (start : Cell) {s s2 : AstarState}
    (hcells : ∀ e ∈ s.open_heap, e.cell.key ∈ keyUniverse g start)
    (h : astar_step g goal s = .next s2) :
    astarMeasure g start s2 < astarMeasure g start s := by
  unfold astar_step at h
  cases hp : popMin s.open_heap with
  | none => rw [hp] at h; cases h
  | some pr =>
    obtain ⟨e, rest⟩ := pr
    simp only [hp] at h
    obtain ⟨hmem, hrest, -⟩ := popMin_some hp
    have hlen : rest.length + 1 = s.open_heap.length := hrest ▸ removeFirst_length hmem
    by_cases hc : e.cell.key ∈ s.closed
    · rw [if_pos hc] at h
      cases h
      unfold astarMeasure
      simp only
      omega
    · rw [if_neg hc] at h
      by_cases hg : e.cell.i = goal.i ∧ e.cell.j = goal.j
      · rw [if_pos hg] at h; cases h
      · rw [if_neg hg] at h
        cases h
        have hcnt := countP_cons_key (keyUniverse g start) (nodup_keyUniverse g start)
          s.closed e.cell.key (hcells e hmem) hc
        have hclosed := foldl_relax_closed goal e.cell e.g
          (g.find_neighbors e.cell.i e.cell.j)
        have hheap := foldl_relax_heap_length goal e.cell e.g
          (g.find_neighbors e.cell.i e.cell.j)
        have hnb := length_find_neighbors_le g e.cell.i e.cell.j
        unfold astarMeasure
        rw [hclosed]
        simp only
        have hh := hheap
          { s with
            open_heap := rest
            closed := e.cell.key :: s.closed
            gs := { s.gs with
                    visited_cells := s.gs.visited_cells ++ [Cell.mk e.cell.i e.cell.j] } }
        simp only at hh
        omega

theorem astar_cells_ok_step {g : Grid} {goal start : Cell} {s s2 : AstarState}
    (hcells : ∀ e ∈ s.open_heap, e.cell.key ∈ keyUniverse g start)
    (h : astar_step g goal s = .next s2) :
    ∀ e ∈ s2.open_heap, e.cell.key ∈ keyUniverse g start := by
  unfold astar_step at h
  cases hp : popMin s.open_heap with
  | none => rw [hp] at h; cases h
  | some pr =>
    obtain ⟨e, rest⟩ := pr
    simp only [hp] at h
    obtain ⟨hmem, hrest, -⟩ := popMin_some hp
    have hsub : ∀ x ∈ rest, x ∈ s.open_heap := by
      intro x hx
      exact removeFirst_subset e s.open_heap x (hrest ▸ hx)
    by_cases hc : e.cell.key ∈ s.closed
    · rw [if_pos hc] at h
      cases h
      intro x hx
      exact hcells x (hsub x hx)
    · rw [if_neg hc] at h
      by_cases hg : e.cell.i = goal.i ∧ e.cell.j = goal.j
      · rw [if_pos hg] at h; cases h
      · rw [if_neg hg] at h
        cases h
        intro x hx
        rcases foldl_relax_heap_mem goal e.cell e.g _ _ x hx with h1 | h1
        · exact hcells x (hsub x h1)
        · exact key_mem_universe (free_of_mem_find_neighbors h1)

theorem universe_countP_init (g : Grid) (start : Cell) :
    (keyUniverse g start).countP (fun a => decide (a ∉ ([start.key] : List (Int × Int))))
      + 1 ≤ g.width * g.height + 1 := by
  have hcnt := countP_cons_key (keyUniverse g start) (nodup_keyUniverse g start)
    [] start.key (start_key_mem_universe g start) (by simp)
  have hfull : (keyUniverse g start).countP
      (fun a => decide (a ∉ ([] : List (Int × Int)))) = (keyUniverse g start).length := by
    rw [List.countP_eq_length]
    intro a _
    simp
  have hlen := keyUniverse_length_le g start
  omega

theorem dfs_terminates (g : Grid) (gs0 : GraphState) (start goal : Cell) :
    (runSteps (dfs_step g goal) (gridFuel g) (dfs_init gs0 start)).isSome := by
  apply runSteps_isSome (P := fun _ => True) (μ := dfsMeasure g start)
    (fun s s2 _ h => trivial) (fun s s2 _ h => dfs_step_measure start h) _ _ trivial
  have := universe_countP_init g start
  unfold dfsMeasure dfs_init gridFuel
  simp only [List.length_cons, List.length_nil]
  omega

theorem bfs_terminates (g : Grid) (gs0 : GraphState) (start goal : Cell) :
    (runSteps (bfs_step g goal) (gridFuel g) (bfs_init gs0 start)).isSome := by
  apply runSteps_isSome (P := fun _ => True) (μ := bfsMeasure g start)
    (fun s s2 _ h => trivial) (fun s s2 _ h => bfs_step_measure start h) _ _ trivial
  have := universe_countP_init g start
  unfold bfsMeasure bfs_init gridFuel
  simp only [List.length_cons, List.length_nil]
  omega

theorem astar_terminates (g : Grid) (gs0 : GraphState) (start goal : Cell) :
    (runSteps (astar_step g goal) (astarFuel g) (astar_init gs0 start goal)).isSome := by
  apply runSteps_isSome
    (P := fun s : AstarState => ∀ e ∈ s.open_heap, e.cell.key ∈ keyUniverse g start)
    (μ := astarMeasure g start)
    (fun s s2 hP h => astar_cells_ok_step hP h)
    (fun s s2 hP h => astar_step_measure start hP h)
  · intro e he
    simp only [astar_init, List.mem_singleton] at he
    subst he
    exact start_key_mem_universe g start
  · have hfull : (keyUniverse g start).countP
        (fun a => decide (a ∉ ([] : List (Int × Int)))) =
          (keyUniverse g start).length := by
      rw [List.countP_eq_length]
      intro a _
      simp
    have hlen := keyUniverse_length_le g start
    unfold astarMeasure astar_init astarFuel
    simp only [List.length_cons, List.length_nil]
    omega

/-! ## Claim C4: unreachable goals give an empty path -/

theorem cell_ext {a b : Cell} (h1 : a.i = b.i) (h2 : a.j = b.j) : a = b := by
  cases a; cases b; simp_all

theorem runSteps_final_inv {σ : Type} {step : σ → StepRes σ} {P : σ → Prop}
    (pres : ∀ s s2, P s → step s = .next s2 → P s2)
    {fuel : Nat} {s : σ} {r : List Cell × GraphState}
    (hP : P s) (hrun : runSteps step fuel s = some r) :
    ∃ s2, P s2 ∧ step s2 = .done r.1 r.2 := by
  obtain ⟨n, s2, hit, hdone⟩ := runSteps_done_exists hrun
  exact ⟨s2, iter_invariant pres n s s2 hP hit, hdone⟩

theorem foldl_dfs_visit_stack_mem (current : Cell) :
    ∀ (L : List Cell) (s : DfsState) (c : Cell),
      c ∈ (L.foldl (dfs_visit current) s).stack → c ∈ s.stack ∨ c ∈ L := by
  intro L
  induction L with
  | nil => intro s c h; exact Or.inl h
  | cons x xs ih =>
    intro s c h
    simp only [List.foldl_cons] at h
    rcases ih _ c h with h1 | h1
    · unfold dfs_visit at h1
      by_cases hx : x.key ∈ s.visited
      · simp only [hx, if_pos] at h1
        exact Or.inl h1
      · simp only [hx, if_neg, not_false_iff, List.mem_cons] at h1
        rcases h1 with h2 | h2
        · exact Or.inr (by simp [h2])
        · exact Or.inl h2
    · exact Or.inr (List.mem_cons_of_mem _ h1)

theorem foldl_bfs_visit_queue_mem (current : Cell) :
    ∀ (L : List Cell) (s : BfsState) (c : Cell),
      c ∈ (L.foldl (bfs_visit current) s).queue → c ∈ s.queue ∨ c ∈ L := by
  intro L
  induction L with
  | nil => intro s c h; exact Or.inl h
  | cons x xs ih =>
    intro s c h
    simp only [List.foldl_cons] at h
    rcases ih _ c h with h1 | h1
    · unfold bfs_visit at h1
      by_cases hx : x.key ∈ s.visited
      · simp only [hx, if_pos] at h1
        exact Or.inl h1
      · simp only [hx, if_neg, not_false_iff, List.mem_append,
          List.mem_singleton] at h1
        rcases h1 with h2 | h2
        · exact Or.inl h2
        · exact Or.inr (by simp [h2])
    · exact Or.inr (List.mem_cons_of_mem _ h1)

theorem dfs_frontier_reach {g : Grid} {goal start : Cell} :
    ∀ s s2 : DfsState, (∀ c ∈ s.stack, ∃ n, Reach g start c n) →
      dfs_step g goal s = .next s2 → ∀ c ∈ s2.stack, ∃ n, Reach g start c n := by
  intro s s2 hinv h
  unfold dfs_step at h
  cases hs : s.stack with
  | nil => rw [hs] at h; cases h
  | cons current rest =>
    simp only [hs] at h
    by_cases hg : current.i = goal.i ∧ current.j = goal.j
    · rw [if_pos hg] at h; cases h
    · rw [if_neg hg] at h
      cases h
      intro c hc
      rcases foldl_dfs_visit_stack_mem current _ _ c hc with h1 | h1
      · exact hinv c (by rw [hs]; exact List.mem_cons_of_mem _ h1)
      · obtain ⟨n, hn⟩ := hinv current (by rw [hs]; exact List.mem_cons_self _ _)
        exact ⟨n + 1, hn.snoc h1⟩

theorem bfs_frontier_reach {g : Grid} {goal start : Cell} :
    ∀ s s2 : BfsState, (∀ c ∈ s.queue, ∃ n, Reach g start c n) →
      bfs_step g goal s = .next s2 → ∀ c ∈ s2.queue, ∃ n, Reach g start c n := by
  intro s s2 hinv h
  unfold bfs_step at h
  cases hs : s.queue with
  | nil => rw [hs] at h; cases h
  | cons current rest =>
    simp only [hs] at h
    by_cases hg : current.i = goal.i ∧ current.j = goal.j
    · rw [if_pos hg] at h; cases h
    · rw [if_neg hg] at h
      cases h
      intro c hc
      rcases foldl_bfs_visit_queue_mem current _ _ c hc with h1 | h1
      · exact hinv c (by rw [hs]; exact List.mem_cons_of_mem _ h1)
      · obtain ⟨n, hn⟩ := hinv current (by rw [hs]; exact List.mem_cons_self _ _)
        exact ⟨n + 1, hn.snoc h1⟩

theorem astar_frontier_reach {g : Grid} {goal start : Cell} :
    ∀ s s2 : AstarState, (∀ e ∈ s.open_heap, ∃ n, Reach g start e.cell n) →
      astar_step g goal s = .next s2 →
      ∀ e ∈ s2.open_heap, ∃ n, Reach g start e.cell n := by
  intro s s2 hinv h
  unfold astar_step at h
  cases hp : popMin s.open_heap with
  | none => rw [hp] at h; cases h
  | some pr =>
    obtain ⟨e, rest⟩ := pr
    simp only [hp] at h
    obtain ⟨hmem, hrest, -⟩ := popMin_some hp
    have hsub : ∀ x ∈ rest, x ∈ s.open_heap := fun x hx =>
      removeFirst_subset e s.open_heap x (hrest ▸ hx)
    by_cases hc : e.cell.key ∈ s.closed
    · rw [if_pos hc] at h
      cases h
      intro x hx
      exact hinv x (hsub x hx)
    · rw [if_neg hc] at h
      by_cases hg : e.cell.i = goal.i ∧ e.cell.j = goal.j
      · rw [if_pos hg] at h; cases h
      · rw [if_neg hg] at h
        cases h
        intro x hx
        rcases foldl_relax_heap_mem goal e.cell e.g _ _ x hx with h1 | h1
        · exact hinv x (hsub x h1)
        · obtain ⟨n, hn⟩ := hinv e hmem
          exact ⟨n + 1, hn.snoc h1⟩

theorem dfs_done_unreachable {g : Grid} {start goal : Cell} {s : DfsState}
    {p : List Cell} {gs : GraphState}
    (hinv : ∀ c ∈ s.stack, ∃ n, Reach g start c n)
    (hun : ¬ ∃ q, IsPath g start goal q)
    (h : dfs_step g goal s = .done p gs) : p = [] := by
  unfold dfs_step at h
  cases hs : s.stack with
  | nil => rw [hs] at h; cases h; rfl
  | cons current rest =>
    simp only [hs] at h
    by_cases hg : current.i = goal.i ∧ current.j = goal.j
    · exfalso
      have hcur : current = goal := cell_ext hg.1 hg.2
      obtain ⟨n, hn⟩ := hinv current (by rw [hs]; exact List.mem_cons_self _ _)
      obtain ⟨q, hq, -⟩ := reach_isPath (hcur ▸ hn)
      exact hun ⟨q, hq⟩
    · rw [if_neg hg] at h; cases h

theorem bfs_done_unreachable {g : Grid} {start goal : Cell} {s : BfsState}
    {p : List Cell} {gs : GraphState}
    (hinv : ∀ c ∈ s.queue, ∃ n, Reach g start c n)
    (hun : ¬ ∃ q, IsPath g start goal q)
    (h : bfs_step g goal s = .done p gs) : p = [] := by
  unfold bfs_step at h
  cases hs : s.queue with
  | nil => rw [hs] at h; cases h; rfl
  | cons current rest =>
    simp only [hs] at h
    by_cases hg : current.i = goal.i ∧ current.j = goal.j
    · exfalso
      have hcur : current = goal := cell_ext hg.1 hg.2
      obtain ⟨n, hn⟩ := hinv current (by rw [hs]; exact List.mem_cons_self _ _)
      obtain ⟨q, hq, -⟩ := reach_isPath (hcur ▸ hn)
      exact hun ⟨q, hq⟩
    · rw [if_neg hg] at h; cases h

theorem astar_done_unreachable {g : Grid} {start goal : Cell} {s : AstarState}
    {p : List Cell} {gs : GraphState}
    (hinv : ∀ e ∈ s.open_heap, ∃ n, Reach g start e.cell n)
    (hun : ¬ ∃ q, IsPath g start goal q)
    (h : astar_step g goal s = .done p gs) : p = [] := by
  unfold astar_step at h
  cases hp : popMin s.open_heap with
  | none => rw [hp] at h; cases h; rfl
  | some pr =>
    obtain ⟨e, rest⟩ := pr
    simp only [hp] at h
    obtain ⟨hmem, -, -⟩ := popMin_some hp
    by_cases hc : e.cell.key ∈ s.closed
    · rw [if_pos hc] at h; cases h
    · rw [if_neg hc] at h
      by_cases hg : e.cell.i = goal.i ∧ e.cell.j = goal.j
      · exfalso
        have hcur : e.cell = goal := cell_ext hg.1 hg.2
        obtain ⟨n, hn⟩ := hinv e hmem
        obtain ⟨q, hq, -⟩ := reach_isPath (hcur ▸ hn)
        exact hun ⟨q, hq⟩
      · rw [if_neg hg] at h; cases h

/-- C4: for every grid whose goal is not reachable from the start (no path in
the grid connects them), each of the three searches terminates with an
exhausted frontier, returning the empty path as its normal result (the step
budget is never exceeded and no other outcome occurs). -/
theorem C4_unreachable_empty_path (g : Grid) (gs0 : GraphState) (start goal : Cell)
    (hun : ¬ ∃ q, IsPath g start goal q) :
    (∃ gs, runSteps (dfs_step g goal) (gridFuel g) (dfs_init gs0 start) =
      some ([], gs)) ∧
    (∃ gs, runSteps (bfs_step g goal) (gridFuel g) (bfs_init gs0 start) =
      some ([], gs)) ∧
    (∃ gs, runSteps (astar_step g goal) (astarFuel g) (astar_init gs0 start goal) =
      some ([], gs)) ∧
    (depth_first_search g gs0 start goal).1 = [] ∧
    (breadth_first_search g gs0 start goal).1 = [] ∧
    (a_star_search g gs0 start goal).1 = [] := by
  obtain ⟨rd, hrd⟩ := Option.isSome_iff_exists.mp (dfs_terminates g gs0 start goal)
  obtain ⟨rb, hrb⟩ := Option.isSome_iff_exists.mp (bfs_terminates g gs0 start goal)
  obtain ⟨ra, hra⟩ := Option.isSome_iff_exists.mp (astar_terminates g gs0 start goal)
  have hd1 : rd.1 = [] := by
    obtain ⟨s2, hP, hdone⟩ := runSteps_final_inv
      (P := fun s : DfsState => ∀ c ∈ s.stack, ∃ n, Reach g start c n)
      (fun s s2 hP h => dfs_frontier_reach s s2 hP h)
      (by
        intro c hc
        simp only [dfs_init, List.mem_singleton] at hc
        exact ⟨0, hc ▸ Reach.base⟩)
      hrd
    exact dfs_done_unreachable hP hun hdone
  have hb1 : rb.1 = [] := by
    obtain ⟨s2, hP, hdone⟩ := runSteps_final_inv
      (P := fun s : BfsState => ∀ c ∈ s.queue, ∃ n, Reach g start c n)
      (fun s s2 hP h => bfs_frontier_reach s s2 hP h)
      (by
        intro c hc
        simp only [bfs_init, List.mem_singleton] at hc
        exact ⟨0, hc ▸ Reach.base⟩)
      hrb
    exact bfs_done_unreachable hP hun hdone
  have ha1 : ra.1 = [] := by
    obtain ⟨s2, hP, hdone⟩ := runSteps_final_inv
      (P := fun s : AstarState => ∀ e ∈ s.open_heap, ∃ n, Reach g start e.cell n)
      (fun s s2 hP h => astar_frontier_reach s s2 hP h)
      (by
        intro e he
        simp only [astar_init, List.mem_singleton] at he
        exact ⟨0, he ▸ Reach.base⟩)
      hra
    exact astar_done_unreachable hP hun hdone
  refine ⟨⟨rd.2, by rw [hrd, ← hd1]⟩, ⟨rb.2, by rw [hrb, ← hb1]⟩,
    ⟨ra.2, by rw [hra, ← ha1]⟩, ?_, ?_, ?_⟩
  · unfold depth_first_search
    rw [hrd, hd1]
  · unfold breadth_first_search
    rw [hrb, hb1]
  · unfold a_star_search
    rw [hra, ha1]

/-- Witness for C4 at a concrete input: on the 1 by 1 open grid the cell (0, 5)
is out of bounds, hence unreachable from (0, 0), and all three searches return
the empty path. -/
theorem C4_witness :
    (¬ ∃ q, IsPath { width := 1, height := 1, blocked := fun _ _ => false }
      (Cell.mk 0 0) (Cell.mk 0 5) q) ∧
    (depth_first_search { width := 1, height := 1, blocked := fun _ _ => false }
      { parent := [], visited_cells := [] } (Cell.mk 0 0) (Cell.mk 0 5)).1 = [] ∧
    (breadth_first_search { width := 1, height := 1, blocked := fun _ _ => false }
      { parent := [], visited_cells := [] } (Cell.mk 0 0) (Cell.mk 0 5)).1 = [] ∧
    (a_star_search { width := 1, height := 1, blocked := fun _ _ => false }
      { parent := [], visited_cells := [] } (Cell.mk 0 0) (Cell.mk 0 5)).1 = [] := by
  have hun : ¬ ∃ q, IsPath { width := 1, height := 1, blocked := fun _ _ => false }
      (Cell.mk 0 0) (Cell.mk 0 5) q := by
    rintro ⟨q, hq⟩
    rcases reach_target_free (isPath_reach hq) with h | h
    · exact absurd h (by decide)
    · exact absurd h (by decide)
  have := C4_unreachable_empty_path
    { width := 1, height := 1, blocked := fun _ _ => false }
    { parent := [], visited_cells := [] } (Cell.mk 0 0) (Cell.mk 0 5) hun
  exact ⟨hun, this.2.2.2.1, this.2.2.2.2.1, this.2.2.2.2.2⟩

/-! ## Claim C5: start equal to goal -/

/-- C5: for every grid, when start equals goal, each of depth_first_search,
breadth_first_search and a_star_search returns the single-element path
consisting of the start cell. -/
theorem C5_start_eq_goal_singleton (g : Grid) (gs0 : GraphState) (s : Cell) :
    (depth_first_search g gs0 s s).1 = [s] ∧
    (breadth_first_search g gs0 s s).1 = [s] ∧
    (a_star_search g gs0 s s).1 = [s] := by
  obtain ⟨k, hk⟩ : ∃ k, gridFuel g = k + 1 := ⟨_, rfl⟩
  obtain ⟨m, hm⟩ : ∃ m, astarFuel g = m + 1 := ⟨_, rfl⟩
  refine ⟨?_, ?_, ?_⟩
  · unfold depth_first_search
    rw [hk]
    simp [runSteps, dfs_step, dfs_init, init_graph, trace_path, trace_go, alookup,
      Cell.key]
  · unfold breadth_first_search
    rw [hk]
    simp [runSteps, bfs_step, bfs_init, init_graph, trace_path, trace_go, alookup,
      Cell.key]
  · unfold a_star_search
    rw [hm]
    simp [runSteps, astar_step, astar_init, init_graph, popMin, minEntry,
      removeFirst, trace_path, trace_go, alookup, Cell.key]

/-! ## Claim C9: reset discards all prior per-search state -/

/-- C9: each search begins by resetting the grid state, so its result and final
graph state are independent of whatever parent map and visited log were left on
the grid, and a second run on the same grid carries no residue of the first
(running after any earlier run equals running on a freshly reset grid). -/
theorem C9_reset_no_residue (g : Grid) (gs1 gs2 : GraphState) (s1 t1 s2 t2 : Cell) :
    (depth_first_search g gs1 s2 t2 = depth_first_search g gs2 s2 t2 ∧
      breadth_first_search g gs1 s2 t2 = breadth_first_search g gs2 s2 t2 ∧
      a_star_search g gs1 s2 t2 = a_star_search g gs2 s2 t2) ∧
    (depth_first_search g (depth_first_search g gs1 s1 t1).2 s2 t2 =
        depth_first_search g (init_graph gs2) s2 t2 ∧
      breadth_first_search g (breadth_first_search g gs1 s1 t1).2 s2 t2 =
        breadth_first_search g (init_graph gs2) s2 t2 ∧
      a_star_search g (a_star_search g gs1 s1 t1).2 s2 t2 =
        a_star_search g (init_graph gs2) s2 t2) :=
  ⟨⟨rfl, rfl, rfl⟩, ⟨rfl, rfl, rfl⟩⟩

/-! ## Parent chains and the path reconstructor -/

theorem key_inj {a b : Cell} (h : a.key = b.key) : a = b := by
  cases a; cases b
  simp only [Cell.key, Prod.mk.injEq] at h
  simp [h.1, h.2]

theorem keyCell_key (c : Cell) : keyCell c.key = c := rfl

theorem key_keyCell (k : Int × Int) : (keyCell k).key = k := rfl

theorem chainTo_nonempty {gs : GraphState} {c : Cell} {l : List Cell}
    (h : ChainTo gs c l) : l ≠ [] := by
  cases h with
  | root _ _ => simp
  | step _ _ _ _ _ => simp

theorem chainTo_last {gs : GraphState} {c : Cell} {l : List Cell}
    (h : ChainTo gs c l) : l.getLast? = some c := by
  cases h with
  | root _ _ => rfl
  | step _ _ _ _ hc => simp [List.getLast?_concat]

theorem chainTo_mem_dom {gs : GraphState} {c : Cell} {l : List Cell}
    (h : ChainTo gs c l) : ∀ x ∈ l, (alookup gs.parent x.key).isSome := by
  induction h with
  | root c hc => intro x hx; simp only [List.mem_singleton] at hx; simp [hx, hc]
  | step c p l hc hp ih =>
    intro x hx
    rcases List.mem_append.mp hx with h1 | h1
    · exact ih x h1
    · simp only [List.mem_singleton] at h1
      simp [h1, hc]

theorem chainTo_congr {gs gs2 : GraphState} {c : Cell} {l : List Cell}
    (h : ChainTo gs c l)
    (heq : ∀ x ∈ l, alookup gs2.parent x.key = alookup gs.parent x.key) :
    ChainTo gs2 c l := by
  induction h with
  | root c hc =>
    exact ChainTo.root c (by rw [heq c (List.mem_singleton.mpr rfl)]; exact hc)
  | step c p l hc hp ih =>
    refine ChainTo.step c p l ?_ (ih ?_)
    · rw [heq c (by simp)]
      exact hc
    · intro x hx
      exact heq x (List.mem_append.mpr (Or.inl hx))

theorem chainTo_head_start {gs : GraphState} {start c : Cell} {l : List Cell}
    (h : ChainTo gs c l) (hns : ∀ k, alookup gs.parent k = some none → k = start.key) :
    l.head? = some start := by
  induction h with
  | root c hc =>
    have := hns c.key hc
    have : c = start := key_inj this
    simp [this]
  | step c p l hc hp ih =>
    cases l with
    | nil => exact absurd rfl (chainTo_nonempty hp)
    | cons a rest => simpa using ih

theorem alookup_isSome_iff {β : Type} :
    ∀ (l : List ((Int × Int) × β)) (k : Int × Int),
      (alookup l k).isSome ↔ k ∈ l.map Prod.fst := by
  intro l
  induction l with
  | nil => intro k; simp [alookup]
  | cons kv rest ih =>
    intro k
    obtain ⟨k0, v0⟩ := kv
    rw [alookup_cons]
    by_cases h : k = k0
    · simp [h]
    · simp only [h, if_neg, not_false_iff, List.map_cons, List.mem_cons]
      rw [ih]
      simp [h]

theorem nodup_length_le_dom {gs : GraphState} {l : List Cell} (hnd : l.Nodup)
    (hdom : ∀ x ∈ l, (alookup gs.parent x.key).isSome) :
    l.length ≤ gs.parent.length := by
  have hsub : l.map Cell.key ⊆ gs.parent.map Prod.fst := by
    intro k hk
    rcases List.mem_map.mp hk with ⟨x, hx, rfl⟩
    exact (alookup_isSome_iff _ _).mp (hdom x hx)
  have hnd2 : (l.map Cell.key).Nodup :=
    hnd.map (fun a b h => key_inj h)
  have hle := (hnd2.subperm hsub).length_le
  simpa using hle

theorem chainTo_length_le {gs : GraphState} {c : Cell} {l : List Cell}
    (h : ChainTo gs c l) (hnd : l.Nodup) : l.length ≤ gs.parent.length :=
  nodup_length_le_dom hnd (chainTo_mem_dom h)

theorem trace_go_chain {gs : GraphState} {c : Cell} {l : List Cell}
    (h : ChainTo gs c l) :
    ∀ (fuel : Nat) (acc : List Cell), l.length ≤ fuel + 1 →
      trace_go gs fuel c acc = l ++ acc := by
  induction h with
  | root c hc =>
    intro fuel acc _
    cases fuel with
    | zero => rfl
    | succ f => simp [trace_go, hc]
  | step c p l hc hp ih =>
    intro fuel acc hlen
    have hl1 : 1 ≤ l.length := by
      cases l with
      | nil => exact absurd rfl (chainTo_nonempty hp)
      | cons a rest => simp
    cases fuel with
    | zero =>
      exfalso
      rw [List.length_append, List.length_singleton] at hlen
      omega
    | succ f =>
      simp only [trace_go, hc]
      rw [ih f (c :: acc) (by rw [List.length_append, List.length_singleton] at hlen; omega)]
      simp

theorem trace_path_of_chain {gs : GraphState} {c : Cell} {l : List Cell}
    (h : ChainTo gs c l) (hnd : l.Nodup) : trace_path c gs = l := by
  unfold trace_path
  rw [trace_go_chain h gs.parent.length [] (by have := chainTo_length_le h hnd; omega)]
  simp

theorem nodup_concat {l : List Cell} {x : Cell} (hnd : l.Nodup) (hx : x ∉ l) :
    (l ++ [x]).Nodup := by
  simp [List.nodup_append, hnd, hx]

theorem parentInv_update {g : Grid} {start current nbr : Cell}
    {visited : List (Int × Int)} {gs : GraphState}
    (hinv : ParentInv g start visited gs) (hcur : current.key ∈ visited)
    (hnbr : nbr ∈ g.find_neighbors current.i current.j) (hfresh : nbr.key ∉ visited)
    (vc : List Cell) :
    ParentInv g start (nbr.key :: visited)
      { parent := (nbr.key, some current) :: gs.parent, visited_cells := vc } := by
  obtain ⟨sm, sp, di, ns, sr, ch⟩ := hinv
  have hne_start : start.key ≠ nbr.key := fun h => hfresh (h ▸ sm)
  set gs2 : GraphState :=
    { parent := (nbr.key, some current) :: gs.parent, visited_cells := vc } with hgs2
  refine ⟨List.mem_cons_of_mem _ sm, ?_, ?_, ?_, ?_, ?_⟩
  · rw [show alookup ((nbr.key, some current) :: gs.parent) start.key =
        alookup gs.parent start.key from alookup_cons_ne _ _ hne_start]
    exact sp
  · intro k
    by_cases hk : k = nbr.key
    · subst hk
      simp [alookup_cons_self]
    · rw [show alookup ((nbr.key, some current) :: gs.parent) k =
          alookup gs.parent k from alookup_cons_ne _ _ hk]
      rw [di k]
      simp [List.mem_cons, hk]
  · intro k hk
    by_cases hk2 : k = nbr.key
    · subst hk2
      rw [alookup_cons_self] at hk
      cases hk
    · rw [show alookup ((nbr.key, some current) :: gs.parent) k =
          alookup gs.parent k from alookup_cons_ne _ _ hk2] at hk
      exact ns k hk
  · intro k p hk
    by_cases hk2 : k = nbr.key
    · subst hk2
      rw [alookup_cons_self] at hk
      have hp : p = current := by
        injection hk with h1
        injection h1 with h2
        exact h2.symm
      subst hp
      exact ⟨List.mem_cons_of_mem _ hcur, by rw [keyCell_key]; exact hnbr⟩
    · rw [show alookup ((nbr.key, some current) :: gs.parent) k =
          alookup gs.parent k from alookup_cons_ne _ _ hk2] at hk
      obtain ⟨h1, h2⟩ := sr k p hk
      exact ⟨List.mem_cons_of_mem _ h1, h2⟩
  · intro k hk
    rcases List.mem_cons.mp hk with h1 | h1
    · subst h1
      obtain ⟨l, hl, hpath, hnd, hmem⟩ := ch current.key hcur
      rw [keyCell_key] at hl hpath
      have hl2 : ChainTo gs2 current l := by
        refine chainTo_congr hl ?_
        intro x hx
        exact alookup_cons_ne _ _ (fun he => hfresh (he ▸ hmem x hx))
      have hnewchain : ChainTo gs2 (keyCell nbr.key) (l ++ [keyCell nbr.key]) := by
        rw [keyCell_key]
        exact ChainTo.step nbr current l (alookup_cons_self _ _ _) hl2
      refine ⟨l ++ [keyCell nbr.key], hnewchain, ?_, ?_, ?_⟩
      · rw [keyCell_key]
        exact isPath_snoc hpath hnbr
      · rw [keyCell_key]
        refine nodup_concat hnd (fun hin => hfresh (hmem nbr hin))
      · intro x hx
        rcases List.mem_append.mp hx with h2 | h2
        · exact List.mem_cons_of_mem _ (hmem x h2)
        · simp only [List.mem_singleton] at h2
          subst h2
          simp [key_keyCell]
    · obtain ⟨l, hl, hpath, hnd, hmem⟩ := ch k h1
      have hl2 : ChainTo gs2 (keyCell k) l := by
        refine chainTo_congr hl ?_
        intro x hx
        exact alookup_cons_ne _ _ (fun he => hfresh (he ▸ hmem x hx))
      exact ⟨l, hl2, hpath, hnd, fun x hx => List.mem_cons_of_mem _ (hmem x hx)⟩

theorem dfs_visit_parentInv {g : Grid} {start current : Cell} {s : DfsState}
    (hinv : ParentInv g start s.visited s.gs) (hcur : current.key ∈ s.visited)
    {nbr : Cell} (hnbr : nbr ∈ g.find_neighbors current.i current.j) :
    ParentInv g start (dfs_visit current s nbr).visited (dfs_visit current s nbr).gs := by
  unfold dfs_visit
  by_cases h : nbr.key ∈ s.visited
  · simpa [h] using hinv
  · simp only [h, if_neg, not_false_iff]
    exact parentInv_update hinv hcur hnbr h _

theorem dfs_visit_visited_mono (current : Cell) (s : DfsState) (nbr : Cell) :
    ∀ k ∈ s.visited, k ∈ (dfs_visit current s nbr).visited := by
  intro k hk
  unfold dfs_visit
  by_cases h : nbr.key ∈ s.visited
  · simpa [h] using hk
  · simp only [h, if_neg, not_false_iff]
    exact List.mem_cons_of_mem _ hk

theorem foldl_dfs_visit_parentInv {g : Grid} {start current : Cell} :
    ∀ (L : List Cell) (s : DfsState), ParentInv g start s.visited s.gs →
      current.key ∈ s.visited →
      (∀ c ∈ L, c ∈ g.find_neighbors current.i current.j) →
      ParentInv g start (L.foldl (dfs_visit current) s).visited
        (L.foldl (dfs_visit current) s).gs := by
  intro L
  induction L with
  | nil => intro s h _ _; exact h
  | cons x xs ih =>
    intro s hinv hcur hL
    simp only [List.foldl_cons]
    exact ih _ (dfs_visit_parentInv hinv hcur (hL x (List.mem_cons_self _ _)))
      (dfs_visit_visited_mono current s x _ hcur)
      (fun c hc => hL c (List.mem_cons_of_mem _ hc))

theorem foldl_dfs_visit_visited_mono (current : Cell) :
    ∀ (L : List Cell) (s : DfsState) (k : Int × Int), k ∈ s.visited →
      k ∈ (L.foldl (dfs_visit current) s).visited := by
  intro L
  induction L with
  | nil => intro s k h; exact h
  | cons x xs ih =>
    intro s k h
    simp only [List.foldl_cons]
    exact ih _ k (dfs_visit_visited_mono current s x k h)

theorem foldl_dfs_visit_L_visited (current : Cell) :
    ∀ (L : List Cell) (s : DfsState) (c : Cell), c ∈ L →
      c.key ∈ (L.foldl (dfs_visit current) s).visited := by
  intro L
  induction L with
  | nil => intro s c h; cases h
  | cons x xs ih =>
    intro s c h
    rcases List.mem_cons.mp h with h1 | h1
    · subst h1
      simp only [List.foldl_cons]
      apply foldl_dfs_visit_visited_mono
      unfold dfs_visit
      by_cases hx : c.key ∈ s.visited <;> simp [hx]
    · simp only [List.foldl_cons]
      exact ih _ c h1

theorem dfs_init_parentInv (g : Grid) (gs0 : GraphState) (start : Cell) :
    ParentInv g start (dfs_init gs0 start).visited (dfs_init gs0 start).gs := by
  have hgs : (dfs_init gs0 start).gs =
      { parent := [(start.key, none)], visited_cells := [Cell.mk start.i start.j] } := rfl
  have hvis : (dfs_init gs0 start).visited = [start.key] := rfl
  rw [hgs, hvis]
  refine ⟨List.mem_singleton.mpr rfl, by simp [alookup], ?_, ?_, ?_, ?_⟩
  · intro k
    by_cases hk : k = start.key <;> simp [alookup, hk]
  · intro k hk
    by_cases hk2 : k = start.key
    · exact hk2
    · simp [alookup, hk2] at hk
  · intro k p hk
    by_cases hk2 : k = start.key
    · subst hk2
      simp [alookup] at hk
    · simp [alookup, hk2] at hk
  · intro k hk
    simp only [List.mem_singleton] at hk
    subst hk
    refine ⟨[keyCell start.key], ChainTo.root _ (by simp [alookup, key_keyCell]), ?_, ?_, ?_⟩
    · rw [keyCell_key]
      exact isPath_single g start
    · simp
    · intro x hx
      simp only [List.mem_singleton] at hx
      subst hx
      simp [key_keyCell]

theorem dfs_reachable_inv {g : Grid} {goal : Cell} (gs0 : GraphState) (start : Cell) :
    ∀ (n : Nat) (s : DfsState),
      iterStates (dfs_step g goal) n (dfs_init gs0 start) = some s →
      ParentInv g start s.visited s.gs ∧ ∀ c ∈ s.stack, c.key ∈ s.visited := by
  intro n s hit
  refine iter_invariant (P := fun s : DfsState =>
    ParentInv g start s.visited s.gs ∧ ∀ c ∈ s.stack, c.key ∈ s.visited)
    ?_ n _ s ?_ hit
  · intro t t2 hP h
    obtain ⟨hinv, hfr⟩ := hP
    unfold dfs_step at h
    cases hs : t.stack with
    | nil => rw [hs] at h; cases h
    | cons current rest =>
      simp only [hs] at h
      by_cases hg : current.i = goal.i ∧ current.j = goal.j
      · rw [if_pos hg] at h; cases h
      · rw [if_neg hg] at h
        cases h
        have hcur : current.key ∈ t.visited := hfr current (by rw [hs]; simp)
        constructor
        · exact foldl_dfs_visit_parentInv _ { t with stack := rest } hinv hcur
            (fun c hc => hc)
        · intro c hc
          rcases foldl_dfs_visit_stack_mem current _ _ c hc with h1 | h1
          · exact foldl_dfs_visit_visited_mono current _ _ _
              (hfr c (by rw [hs]; exact List.mem_cons_of_mem _ h1))
          · exact foldl_dfs_visit_L_visited current _ _ c h1
  · refine ⟨dfs_init_parentInv g gs0 start, ?_⟩
    intro c hc
    simp only [dfs_init, List.mem_singleton] at hc
    subst hc
    simp [dfs_init]

theorem bfs_visit_parentInv {g : Grid} {start current : Cell} {s : BfsState}
    (hinv : ParentInv g start s.visited s.gs) (hcur : current.key ∈ s.visited)
    {nbr : Cell} (hnbr : nbr ∈ g.find_neighbors current.i current.j) :
    ParentInv g start (bfs_visit current s nbr).visited (bfs_visit current s nbr).gs := by
  unfold bfs_visit
  by_cases h : nbr.key ∈ s.visited
  · simpa [h] using hinv
  · simp only [h, if_neg, not_false_iff]
    exact parentInv_update hinv hcur hnbr h _

theorem bfs_visit_visited_mono (current : Cell) (s : BfsState) (nbr : Cell) :
    ∀ k ∈ s.visited, k ∈ (bfs_visit current s nbr).visited := by
  intro k hk
  unfold bfs_visit
  by_cases h : nbr.key ∈ s.visited
  · simpa [h] using hk
  · simp only [h, if_neg, not_false_iff]
    exact List.mem_cons_of_mem _ hk

theorem foldl_bfs_visit_parentInv {g : Grid} {start current : Cell} :
    ∀ (L : List Cell) (s : BfsState), ParentInv g start s.visited s.gs →
      current.key ∈ s.visited →
      (∀ c ∈ L, c ∈ g.find_neighbors current.i current.j) →
      ParentInv g start (L.foldl (bfs_visit current) s).visited
        (L.foldl (bfs_visit current) s).gs := by
  intro L
  induction L with
  | nil => intro s h _ _; exact h
  | cons x xs ih =>
    intro s hinv hcur hL
    simp only [List.foldl_cons]
    exact ih _ (bfs_visit_parentInv hinv hcur (hL x (List.mem_cons_self _ _)))
      (bfs_visit_visited_mono current s x _ hcur)
      (fun c hc => hL c (List.mem_cons_of_mem _ hc))

theorem foldl_bfs_visit_visited_mono (current : Cell) :
    ∀ (L : List Cell) (s : BfsState) (k : Int × Int), k ∈ s.visited →
      k ∈ (L.foldl (bfs_visit current) s).visited := by
  intro L
  induction L with
  | nil => intro s k h; exact h
  | cons x xs ih =>
    intro s k h
    simp only [List.foldl_cons]
    exact ih _ k (bfs_visit_visited_mono current s x k h)

theorem foldl_bfs_visit_L_visited (current : Cell) :
    ∀ (L : List Cell) (s : BfsState) (c : Cell), c ∈ L →
      c.key ∈ (L.foldl (bfs_visit current) s).visited := by
  intro L
  induction L with
  | nil => intro s c h; cases h
  | cons x xs ih =>
    intro s c h
    rcases List.mem_cons.mp h with h1 | h1
    · subst h1
      simp only [List.foldl_cons]
      apply foldl_bfs_visit_visited_mono
      unfold bfs_visit
      by_cases hx : c.key ∈ s.visited <;> simp [hx]
    · simp only [List.foldl_cons]
      exact ih _ c h1

theorem bfs_init_parentInv (g : Grid) (gs0 : GraphState) (start : Cell) :
    ParentInv g start (bfs_init gs0 start).visited (bfs_init gs0 start).gs := by
  have hgs : (bfs_init gs0 start).gs =
      { parent := [(start.key, none)], visited_cells := [Cell.mk start.i start.j] } := rfl
  have hvis : (bfs_init gs0 start).visited = [start.key] := rfl
  rw [hgs, hvis]
  refine ⟨List.mem_singleton.mpr rfl, by simp [alookup], ?_, ?_, ?_, ?_⟩
  · intro k
    by_cases hk : k = start.key <;> simp [alookup, hk]
  · intro k hk
    by_cases hk2 : k = start.key
    · exact hk2
    · simp [alookup, hk2] at hk
  · intro k p hk
    by_cases hk2 : k = start.key
    · subst hk2
      simp [alookup] at hk
    · simp [alookup, hk2] at hk
  · intro k hk
    simp only [List.mem_singleton] at hk
    subst hk
    refine ⟨[keyCell start.key], ChainTo.root _ (by simp [alookup, key_keyCell]),
      ?_, ?_, ?_⟩
    · rw [keyCell_key]
      exact isPath_single g start
    · simp
    · intro x hx
      simp only [List.mem_singleton] at hx
      subst hx
      simp [key_keyCell]

theorem bfs_reachable_base_inv {g : Grid} {goal : Cell} (gs0 : GraphState) (start : Cell) :
    ∀ (n : Nat) (s : BfsState),
      iterStates (bfs_step g goal) n (bfs_init gs0 start) = some s →
      ParentInv g start s.visited s.gs ∧ ∀ c ∈ s.queue, c.key ∈ s.visited := by
  intro n s hit
  refine iter_invariant (P := fun s : BfsState =>
    ParentInv g start s.visited s.gs ∧ ∀ c ∈ s.queue, c.key ∈ s.visited)
    ?_ n _ s ?_ hit
  · intro t t2 hP h
    obtain ⟨hinv, hfr⟩ := hP
    unfold bfs_step at h
    cases hs : t.queue with
    | nil => rw [hs] at h; cases h
    | cons current rest =>
      simp only [hs] at h
      by_cases hg : current.i = goal.i ∧ current.j = goal.j
      · rw [if_pos hg] at h; cases h
      · rw [if_neg hg] at h
        cases h
        have hcur : current.key ∈ t.visited := hfr current (by rw [hs]; simp)
        constructor
        · exact foldl_bfs_visit_parentInv _ { t with queue := rest } hinv hcur
            (fun c hc => hc)
        · intro c hc
          rcases foldl_bfs_visit_queue_mem current _ _ c hc with h1 | h1
          · exact foldl_bfs_visit_visited_mono current _ _ _
              (hfr c (by rw [hs]; exact List.mem_cons_of_mem _ h1))
          · exact foldl_bfs_visit_L_visited current _ _ c h1
  · refine ⟨bfs_init_parentInv g gs0 start, ?_⟩
    intro c hc
    simp only [bfs_init, List.mem_singleton] at hc
    subst hc
    simp [bfs_init]

theorem removeFirst_mem_of_ne {e x : AstarEntry} :
    ∀ {l : List AstarEntry}, x ∈ l → x ≠ e → x ∈ removeFirst e l := by
  intro l
  induction l with
  | nil => intro h _; cases h
  | cons y ys ih =>
    intro h hne
    unfold removeFirst
    by_cases hy : y = e
    · simp only [hy, if_pos]
      rcases List.mem_cons.mp h with h1 | h1
      · exact absurd (h1.trans hy) hne
      · exact h1
    · simp only [hy, if_neg, not_false_iff, List.mem_cons]
      rcases List.mem_cons.mp h with h1 | h1
      · exact Or.inl h1
      · exact Or.inr (ih h1 hne)

/-! ## Pointwise description of the A* relaxation fold -/

theorem find_neighbors_key_ne {g : Grid} {ci cj : Int} :
    ∀ c ∈ g.find_neighbors ci cj, c.key ≠ (ci, cj) := by
  intro c hc he
  obtain ⟨-, hcoord⟩ := mem_find_neighbors.mp hc
  have h1 : c.i = ci ∧ c.j = cj := by
    simpa [Cell.key, Prod.ext_iff] using he
  rcases hcoord with ⟨h2, h3⟩ | ⟨h2, h3⟩ | ⟨h2, h3⟩ | ⟨h2, h3⟩ <;> omega

theorem astar_relax_skip_closed {goal current : Cell} {gpop : Nat} {s : AstarState}
    {nbr : Cell} (h : nbr.key ∈ s.closed) :
    astar_relax goal current gpop s nbr = s := by
  unfold astar_relax
  simp [h]

theorem astar_relax_lookup_other (goal current : Cell) (gpop : Nat) (s : AstarState)
    (nbr : Cell) (k : Int × Int) (hk : k ≠ nbr.key) :
    alookup (astar_relax goal current gpop s nbr).g_cost k = alookup s.g_cost k ∧
      alookup (astar_relax goal current gpop s nbr).gs.parent k =
        alookup s.gs.parent k := by
  rcases astar_relax_cases goal current gpop s nbr with h | h <;> rw [h]
  · exact ⟨rfl, rfl⟩
  · exact ⟨alookup_cons_ne _ _ hk, alookup_cons_ne _ _ hk⟩

theorem astar_relax_heap_mono (goal current : Cell) (gpop : Nat) (s : AstarState)
    (nbr : Cell) : ∀ e ∈ s.open_heap, e ∈ (astar_relax goal current gpop s nbr).open_heap := by
  intro e he
  rcases astar_relax_cases goal current gpop s nbr with h | h <;> rw [h]
  · exact he
  · exact List.mem_cons_of_mem _ he

theorem astar_relax_vc (goal current : Cell) (gpop : Nat) (s : AstarState) (nbr : Cell) :
    (astar_relax goal current gpop s nbr).gs.visited_cells = s.gs.visited_cells := by
  rcases astar_relax_cases goal current gpop s nbr with h | h <;> rw [h]
  rfl

theorem foldl_relax_vc (goal current : Cell) (gpop : Nat) :
    ∀ (L : List Cell) (s : AstarState),
      (L.foldl (astar_relax goal current gpop) s).gs.visited_cells =
        s.gs.visited_cells := by
  intro L
  induction L with
  | nil => intro s; rfl
  | cons x xs ih =>
    intro s
    simp only [List.foldl_cons]
    rw [ih, astar_relax_vc]

theorem foldl_relax_heap_mono (goal current : Cell) (gpop : Nat) :
    ∀ (L : List Cell) (s : AstarState) (e : AstarEntry), e ∈ s.open_heap →
      e ∈ (L.foldl (astar_relax goal current gpop) s).open_heap := by
  intro L
  induction L with
  | nil => intro s e h; exact h
  | cons x xs ih =>
    intro s e h
    simp only [List.foldl_cons]
    exact ih _ e (astar_relax_heap_mono goal current gpop s x e h)

theorem foldl_relax_frozen (goal current : Cell) (gpop : Nat) :
    ∀ (L : List Cell) (s : AstarState) (k : Int × Int), k ∈ s.closed →
      alookup (L.foldl (astar_relax goal current gpop) s).g_cost k =
        alookup s.g_cost k ∧
      alookup (L.foldl (astar_relax goal current gpop) s).gs.parent k =
        alookup s.gs.parent k := by
  intro L
  induction L with
  | nil => intro s k _; exact ⟨rfl, rfl⟩
  | cons x xs ih =>
    intro s k hk
    simp only [List.foldl_cons]
    have hk2 : k ∈ (astar_relax goal current gpop s x).closed := by
      rw [astar_relax_closed]; exact hk
    obtain ⟨h1, h2⟩ := ih (astar_relax goal current gpop s x) k hk2
    by_cases hx : x.key = k
    · subst hx
      rw [astar_relax_skip_closed hk] at h1 h2 ⊢
      exact ⟨h1, h2⟩
    · obtain ⟨h3, h4⟩ := astar_relax_lookup_other goal current gpop s x k
        (fun he => hx he.symm)
      exact ⟨h1.trans h3, h2.trans h4⟩

theorem foldl_relax_other_key (goal current : Cell) (gpop : Nat) :
    ∀ (L : List Cell) (s : AstarState) (k : Int × Int), (∀ c ∈ L, c.key ≠ k) →
      alookup (L.foldl (astar_relax goal current gpop) s).g_cost k =
        alookup s.g_cost k ∧
      alookup (L.foldl (astar_relax goal current gpop) s).gs.parent k =
        alookup s.gs.parent k := by
  intro L
  induction L with
  | nil => intro s k _; exact ⟨rfl, rfl⟩
  | cons x xs ih =>
    intro s k hL
    simp only [List.foldl_cons]
    obtain ⟨h1, h2⟩ := ih (astar_relax goal current gpop s x) k
      (fun c hc => hL c (List.mem_cons_of_mem _ hc))
    obtain ⟨h3, h4⟩ := astar_relax_lookup_other goal current gpop s x k
      (fun he => hL x (List.mem_cons_self _ _) he.symm)
    exact ⟨h1.trans h3, h2.trans h4⟩

theorem foldl_relax_heap_new (goal current : Cell) (gpop : Nat) :
    ∀ (L : List Cell) (s : AstarState) (e : AstarEntry),
      e ∈ (L.foldl (astar_relax goal current gpop) s).open_heap →
      e ∈ s.open_heap ∨ (e.cell ∈ L ∧ e.cell.key ∉ s.closed ∧ e.g = gpop + 1 ∧
        e.f = gpop + 1 + heuristic e.cell goal) := by
  intro L
  induction L with
  | nil => intro s e h; exact Or.inl h
  | cons x xs ih =>
    intro s e h
    simp only [List.foldl_cons] at h
    rcases ih _ e h with h1 | h1
    · unfold astar_relax at h1
      by_cases hc : x.key ∈ s.closed
      · simp only [hc, if_pos] at h1
        exact Or.inl h1
      · simp only [hc, if_neg, not_false_iff] at h1
        cases halo : alookup s.g_cost x.key with
        | none =>
          simp only [halo] at h1
          simp only [astar_update, List.mem_cons] at h1
          rcases h1 with h2 | h2
          · subst h2
            exact Or.inr ⟨List.mem_cons_self _ _, hc, rfl, rfl⟩
          · exact Or.inl h2
        | some gold =>
          simp only [halo] at h1
          by_cases hlt : gpop + 1 < gold
          · rw [if_pos hlt] at h1
            simp only [astar_update, List.mem_cons] at h1
            rcases h1 with h2 | h2
            · subst h2
              exact Or.inr ⟨List.mem_cons_self _ _, hc, rfl, rfl⟩
            · exact Or.inl h2
          · rw [if_neg hlt] at h1
            exact Or.inl h1
    · obtain ⟨hm, hcl, hg, hf⟩ := h1
      refine Or.inr ⟨List.mem_cons_of_mem _ hm, ?_, hg, hf⟩
      rwa [astar_relax_closed] at hcl

theorem foldl_relax_key_char (goal current : Cell) (gpop : Nat) :
    ∀ (L : List Cell), (L.map Cell.key).Nodup → ∀ (s : AstarState) (nbr : Cell),
      nbr ∈ L → nbr.key ∉ s.closed →
      (alookup (L.foldl (astar_relax goal current gpop) s).g_cost nbr.key =
          alookup s.g_cost nbr.key ∧
        alookup (L.foldl (astar_relax goal current gpop) s).gs.parent nbr.key =
          alookup s.gs.parent nbr.key ∧
        ∃ gold, alookup s.g_cost nbr.key = some gold ∧ gold ≤ gpop + 1) ∨
      (alookup (L.foldl (astar_relax goal current gpop) s).g_cost nbr.key =
          some (gpop + 1) ∧
        alookup (L.foldl (astar_relax goal current gpop) s).gs.parent nbr.key =
          some (some current) ∧
        (∀ gold, alookup s.g_cost nbr.key = some gold → gpop + 1 < gold) ∧
        (∃ e ∈ (L.foldl (astar_relax goal current gpop) s).open_heap, e.cell = nbr ∧
          e.g = gpop + 1 ∧ e.f = gpop + 1 + heuristic nbr goal)) := by
  intro L
  induction L with
  | nil => intro _ s nbr h _; cases h
  | cons x xs ih =>
    intro hnd s nbr hmem hncl
    simp only [List.map_cons, List.nodup_cons] at hnd
    rcases List.mem_cons.mp hmem with h1 | h1
    · subst h1
      simp only [List.foldl_cons]
      have hothers : ∀ c ∈ xs, c.key ≠ nbr.key := by
        intro c hc he
        exact hnd.1 (he ▸ List.mem_map_of_mem Cell.key hc)
      obtain ⟨hg2, hp2⟩ := foldl_relax_other_key goal current gpop xs
        (astar_relax goal current gpop s nbr) nbr.key hothers
      cases halo : alookup s.g_cost nbr.key with
      | none =>
        have hrel : astar_relax goal current gpop s nbr =
            astar_update goal current (gpop + 1) s nbr := by
          unfold astar_relax
          simp [hncl, halo]
        rw [hrel] at hg2 hp2 ⊢
        right
        refine ⟨?_, ?_, ?_, ?_⟩
        · rw [hg2]
          simp [astar_update, alookup_cons_self]
        · rw [hp2]
          simp [astar_update, alookup_cons_self]
        · intro gold hgold
          simp at hgold
        · refine ⟨AstarEntry.mk (gpop + 1 + heuristic nbr goal) (gpop + 1)
            s.counter nbr, ?_, rfl, rfl, rfl⟩
          apply foldl_relax_heap_mono
          simp [astar_update]
      | some gold =>
        by_cases hlt : gpop + 1 < gold
        · have hrel : astar_relax goal current gpop s nbr =
              astar_update goal current (gpop + 1) s nbr := by
            unfold astar_relax
            simp [hncl, halo, hlt]
          rw [hrel] at hg2 hp2 ⊢
          right
          refine ⟨?_, ?_, ?_, ?_⟩
          · rw [hg2]
            simp [astar_update, alookup_cons_self]
          · rw [hp2]
            simp [astar_update, alookup_cons_self]
          · intro gold2 hgold2
            injection hgold2 with hh
            subst hh
            exact hlt
          · refine ⟨AstarEntry.mk (gpop + 1 + heuristic nbr goal) (gpop + 1)
              s.counter nbr, ?_, rfl, rfl, rfl⟩
            apply foldl_relax_heap_mono
            simp [astar_update]
        · have hrel : astar_relax goal current gpop s nbr = s := by
            unfold astar_relax
            simp [hncl, halo, hlt]
          rw [hrel] at hg2 hp2 ⊢
          left
          exact ⟨hg2.trans halo, hp2, gold, rfl, by omega⟩
    · simp only [List.foldl_cons]
      have hncl2 : nbr.key ∉ (astar_relax goal current gpop s x).closed := by
        rw [astar_relax_closed]; exact hncl
      have hne : x.key ≠ nbr.key := by
        intro he
        exact hnd.1 (he ▸ List.mem_map_of_mem Cell.key h1)
      obtain ⟨hg0, hp0⟩ := astar_relax_lookup_other goal current gpop s x nbr.key
        (fun he => hne he.symm)
      rcases ih hnd.2 (astar_relax goal current gpop s x) nbr h1 hncl2 with
        ⟨hg1, hp1, gold, hgold, hle⟩ | ⟨hg1, hp1, hall, he1⟩
      · exact Or.inl ⟨hg1.trans hg0, hp1.trans hp0, gold, hg0 ▸ hgold, hle⟩
      · refine Or.inr ⟨hg1, hp1, ?_, he1⟩
        intro gold2 hgold2
        exact hall gold2 (hg0.symm ▸ hgold2)

/-! ## The A* loop invariant -/

theorem mem_dropLast_or_last {l : List Cell} {y x : Cell}
    (hl : l.getLast? = some y) (hx : x ∈ l) : x ∈ l.dropLast ∨ x = y := by
  have hne : l ≠ [] := by rintro rfl; simp at hl
  have hdec : l.dropLast ++ [l.getLast hne] = l := List.dropLast_append_getLast hne
  have hy : l.getLast hne = y := by
    have := List.getLast?_eq_getLast l hne
    rw [this] at hl
    exact Option.some.inj hl
  rw [← hdec] at hx
  rcases List.mem_append.mp hx with h1 | h1
  · exact Or.inl h1
  · simp only [List.mem_singleton] at h1
    exact Or.inr (h1.trans hy)

theorem astar_pop_g {g : Grid} {start goal : Cell} {s : AstarState} {e : AstarEntry}
    {rest : List AstarEntry} (hinv : AstarInv g start goal s)
    (hp : popMin s.open_heap = some (e, rest)) (hc : e.cell.key ∉ s.closed) :
    alookup s.g_cost e.cell.key = some e.g := by
  obtain ⟨hmem, hrest, hmin⟩ := popMin_some hp
  obtain ⟨gk, hgk⟩ := Option.isSome_iff_exists.mp (hinv.heap_dom e hmem)
  obtain ⟨e2, he2, hkey, hgeq⟩ := hinv.open_entry _ gk hgk hc
  have hf := hinv.heap_f e hmem
  have hf2 := hinv.heap_f e2 he2
  have hcell : e2.cell = e.cell := key_inj hkey
  have hle : e.f ≤ e2.f := by
    rcases entryLt_resolve (hmin e2 he2) with h | h
    · unfold entryLt at h
      omega
    · omega
  have hge := hinv.heap_ge e hmem gk hgk
  rw [hf, hf2, hcell] at hle
  rw [hgk]
  have : e.g = gk := by omega
  rw [this]

theorem astar_init_inv (g : Grid) (gs0 : GraphState) (start goal : Cell) :
    AstarInv g start goal (astar_init gs0 start goal) := by
  have hgc : (astar_init gs0 start goal).g_cost = [(start.key, 0)] := rfl
  have hpar : (astar_init gs0 start goal).gs.parent = [(start.key, none)] := rfl
  have hheap : (astar_init gs0 start goal).open_heap =
      [AstarEntry.mk (0 + heuristic start goal) 0 0 start] := rfl
  have hcl : (astar_init gs0 start goal).closed = [] := rfl
  refine ⟨?_, ?_, ?_, ?_, ?_, ?_, ?_, ?_, ?_, ?_, ?_, ?_⟩
  · rw [hgc]
    simp [alookup]
  · rw [hpar]
    simp [alookup]
  · intro k hk
    rw [hpar] at hk
    by_cases hk2 : k = start.key
    · exact hk2
    · simp [alookup, hk2] at hk
  · intro k
    rw [hgc, hpar]
    by_cases hk : k = start.key <;> simp [alookup, hk]
  · intro k p hk
    rw [hpar] at hk
    by_cases hk2 : k = start.key
    · subst hk2
      simp [alookup] at hk
    · simp [alookup, hk2] at hk
  · intro k hk
    rw [hcl] at hk
    cases hk
  · intro e2 he2
    rw [hheap] at he2
    simp only [List.mem_singleton] at he2
    subst he2
    rw [hgc]
    simp [alookup]
  · intro e2 he2
    rw [hheap] at he2
    simp only [List.mem_singleton] at he2
    subst he2
    rfl
  · intro e2 he2 gk hgk
    rw [hheap] at he2
    simp only [List.mem_singleton] at he2
    subst he2
    rw [hgc] at hgk
    simp only at hgk
    simp [alookup] at hgk
    omega
  · intro k gk hgk hkc
    rw [hgc] at hgk
    by_cases hk : k = start.key
    · subst hk
      rw [alookup_cons_self] at hgk
      injection hgk with hh
      refine ⟨AstarEntry.mk (0 + heuristic start goal) 0 0 start, ?_, rfl, hh⟩
      rw [hheap]
      simp
    · rw [show alookup [(start.key, 0)] k = alookup ([] : List ((Int × Int) × Nat)) k
        from alookup_cons_ne _ _ hk] at hgk
      cases hgk
  · intro k gk hgk
    rw [hgc] at hgk
    by_cases hk : k = start.key
    · subst hk
      rw [alookup_cons_self] at hgk
      injection hgk with hh
      refine ⟨[keyCell start.key], ?_, ?_, ?_, ?_, ?_⟩
      · refine ChainTo.root _ ?_
        rw [hpar]
        simp [alookup, key_keyCell]
      · rw [keyCell_key]
        exact isPath_single g start
      · simp only [List.length_singleton]
        omega
      · simp
      · intro x hx
        simp at hx
    · rw [show alookup [(start.key, 0)] k = alookup ([] : List ((Int × Int) × Nat)) k
        from alookup_cons_ne _ _ hk] at hgk
      cases hgk
  · rw [hcl]
    simp

theorem astar_step_inv {g : Grid} {start goal : Cell} {s s2 : AstarState}
    (hinv : AstarInv g start goal s) (h : astar_step g goal s = .next s2) :
    AstarInv g start goal s2 := by
  unfold astar_step at h
  cases hp : popMin s.open_heap with
  | none => rw [hp] at h; cases h
  | some pr =>
    obtain ⟨e, rest⟩ := pr
    simp only [hp] at h
    obtain ⟨hmem, hrest, hmin⟩ := popMin_some hp
    have hsubrest : ∀ x ∈ rest, x ∈ s.open_heap := fun x hx =>
      removeFirst_subset e s.open_heap x (hrest ▸ hx)
    by_cases hc : e.cell.key ∈ s.closed
    · rw [if_pos hc] at h
      cases h
      obtain ⟨sg, sp, ns, di, pr2, cd, hd, hf, hge, oe, ch, go⟩ := hinv
      refine ⟨sg, sp, ns, di, pr2, cd, ?_, ?_, ?_, ?_, ch, go⟩
      · exact fun e2 he2 => hd e2 (hsubrest e2 he2)
      · exact fun e2 he2 => hf e2 (hsubrest e2 he2)
      · exact fun e2 he2 gk hgk => hge e2 (hsubrest e2 he2) gk hgk
      · intro k gk hgk hkc
        obtain ⟨e2, he2, hkey, hgeq⟩ := oe k gk hgk hkc
        refine ⟨e2, ?_, hkey, hgeq⟩
        show e2 ∈ rest
        rw [hrest]
        refine removeFirst_mem_of_ne he2 ?_
        intro heq
        rw [heq] at hkey
        exact hkc (hkey ▸ hc)
    · rw [if_neg hc] at h
      by_cases hgl : e.cell.i = goal.i ∧ e.cell.j = goal.j
      · rw [if_pos hgl] at h; cases h
      · rw [if_neg hgl] at h
        cases h
        set L := g.find_neighbors e.cell.i e.cell.j with hLdef
        set s1 : AstarState := { s with open_heap := rest, closed := e.cell.key :: s.closed, gs := { s.gs with visited_cells := s.gs.visited_cells ++ [Cell.mk e.cell.i e.cell.j] } } with hs1
        set F := L.foldl (astar_relax goal e.cell e.g) s1 with hFdef
        have hpopg : alookup s.g_cost e.cell.key = some e.g := astar_pop_g hinv hp hc
        have hndL : (L.map Cell.key).Nodup :=
          (nodup_find_neighbors g e.cell.i e.cell.j).map (fun a b => key_inj)
        have hFcl : F.closed = e.cell.key :: s.closed :=
          (foldl_relax_closed goal e.cell e.g L s1).trans rfl
        have hfroz : ∀ k, k ∈ e.cell.key :: s.closed →
            alookup F.g_cost k = alookup s.g_cost k ∧
            alookup F.gs.parent k = alookup s.gs.parent k := by
          intro k hk
          exact foldl_relax_frozen goal e.cell e.g L s1 k hk
        have classify : ∀ k : Int × Int,
            (alookup F.g_cost k = alookup s.g_cost k ∧
              alookup F.gs.parent k = alookup s.gs.parent k) ∨
            (k ∉ s.closed ∧ k ≠ e.cell.key ∧ keyCell k ∈ L ∧
              alookup F.g_cost k = some (e.g + 1) ∧
              alookup F.gs.parent k = some (some e.cell) ∧
              (∀ gold, alookup s.g_cost k = some gold → e.g + 1 < gold) ∧
              ∃ e2 ∈ F.open_heap, e2.cell.key = k ∧ e2.g = e.g + 1) := by
          intro k
          by_cases hkL : ∃ c ∈ L, c.key = k
          · obtain ⟨c, hcL, rfl⟩ := hkL
            by_cases hkc : c.key ∈ e.cell.key :: s.closed
            · exact Or.inl (hfroz c.key hkc)
            · rcases foldl_relax_key_char goal e.cell e.g L hndL s1 c hcL hkc with
                ⟨h1, h2, -⟩ | ⟨h1, h2, h3, e2, he2, hcell2, hg2, -⟩
              · exact Or.inl ⟨h1, h2⟩
              · simp only [List.mem_cons, not_or] at hkc
                refine Or.inr ⟨hkc.2, hkc.1, ?_, h1, h2, h3, e2, he2, ?_, hg2⟩
                · rw [keyCell_key]
                  exact hcL
                · rw [hcell2]
          · have hne : ∀ c ∈ L, c.key ≠ k := fun c hcm he => hkL ⟨c, hcm, he⟩
            exact Or.inl (foldl_relax_other_key goal e.cell e.g L s1 k hne)
        refine ⟨?_, ?_, ?_, ?_, ?_, ?_, ?_, ?_, ?_, ?_, ?_, ?_⟩
        · rcases classify start.key with ⟨h1, -⟩ | ⟨-, -, -, -, -, hall, -⟩
          · rw [h1]
            exact hinv.start_g
          · exact absurd (hall 0 hinv.start_g) (by omega)
        · rcases classify start.key with ⟨-, h2⟩ | ⟨-, -, -, -, -, hall, -⟩
          · rw [h2]
            exact hinv.start_parent
          · exact absurd (hall 0 hinv.start_g) (by omega)
        · intro k hk
          rcases classify k with ⟨-, h2⟩ | ⟨-, -, -, -, h2, -, -⟩
          · rw [h2] at hk
            exact hinv.none_start k hk
          · rw [h2] at hk
            simp at hk
        · intro k
          rcases classify k with ⟨h1, h2⟩ | ⟨-, -, -, h1, h2, -, -⟩
          · rw [h1, h2]
            exact hinv.dom_iff k
          · rw [h1, h2]
            simp
        · intro k p hk
          rcases classify k with ⟨h1, h2⟩ | ⟨hnc, hne, hmemL, h1, h2, -, -⟩
          · rw [h2] at hk
            obtain ⟨gk, gp, hgk, hgp, heq, hpcl, hnb⟩ := hinv.parent_rel k p hk
            refine ⟨gk, gp, ?_, ?_, heq, ?_, hnb⟩
            · rw [h1]
              exact hgk
            · rw [(hfroz p.key (List.mem_cons_of_mem _ hpcl)).1]
              exact hgp
            · rw [hFcl]
              exact List.mem_cons_of_mem _ hpcl
          · rw [h2] at hk
            have hpe : p = e.cell := by
              injection hk with hh
              injection hh with hh2
              exact hh2.symm
            subst hpe
            refine ⟨e.g + 1, e.g, h1, ?_, rfl, ?_, ?_⟩
            · rw [(hfroz e.cell.key (List.mem_cons_self _ _)).1]
              exact hpopg
            · rw [hFcl]
              exact List.mem_cons_self _ _
            · exact hmemL
        · intro k hk
          rw [hFcl] at hk
          rw [(hfroz k hk).1]
          rcases List.mem_cons.mp hk with h1 | h1
          · subst h1
            simp [hpopg]
          · exact hinv.closed_dom k h1
        · intro e2 he2
          rcases foldl_relax_heap_new goal e.cell e.g L s1 e2 he2 with h1 | ⟨hmL, hncl, -, -⟩
          · have hs : e2 ∈ s.open_heap := hsubrest e2 h1
            rcases classify e2.cell.key with ⟨hg1, -⟩ | ⟨-, -, -, hg1, -, -, -⟩
            · rw [hg1]
              exact hinv.heap_dom e2 hs
            · rw [hg1]
              simp
          · rcases foldl_relax_key_char goal e.cell e.g L hndL s1 e2.cell hmL hncl with
              ⟨h1, -, gold, hgold, -⟩ | ⟨h1, -, -, -⟩
            · rw [h1, hgold]
              simp
            · rw [h1]
              simp
        · intro e2 he2
          rcases foldl_relax_heap_new goal e.cell e.g L s1 e2 he2 with h1 | ⟨-, -, hg1, hf1⟩
          · exact hinv.heap_f e2 (hsubrest e2 h1)
          · rw [hf1, hg1]
        · intro e2 he2 gk hgk
          rcases foldl_relax_heap_new goal e.cell e.g L s1 e2 he2 with h1 | ⟨hmL, hncl, hg1, -⟩
          · have hs : e2 ∈ s.open_heap := hsubrest e2 h1
            rcases classify e2.cell.key with ⟨hq1, -⟩ | ⟨-, -, -, hq1, -, hall, -⟩
            · rw [hq1] at hgk
              exact hinv.heap_ge e2 hs gk hgk
            · rw [hq1] at hgk
              injection hgk with hh
              obtain ⟨gold, hgold⟩ := Option.isSome_iff_exists.mp (hinv.heap_dom e2 hs)
              have ha1 := hall gold hgold
              have ha2 := hinv.heap_ge e2 hs gold hgold
              omega
          · rcases foldl_relax_key_char goal e.cell e.g L hndL s1 e2.cell hmL hncl with
              ⟨h1, -, gold, hgold, hle⟩ | ⟨h1, -, -, -⟩
            · rw [h1, hgold] at hgk
              injection hgk with hh
              omega
            · rw [h1] at hgk
              injection hgk with hh
              omega
        · intro k gk hgk hkc
          rw [hFcl] at hkc
          simp only [List.mem_cons, not_or] at hkc
          rcases classify k with ⟨hq1, -⟩ | ⟨-, -, -, hq1, -, -, e2, he2, hkey, hg2⟩
          · rw [hq1] at hgk
            obtain ⟨e2, he2, hkey, hgeq⟩ := hinv.open_entry k gk hgk hkc.2
            refine ⟨e2, ?_, hkey, hgeq⟩
            apply foldl_relax_heap_mono
            show e2 ∈ rest
            rw [hrest]
            refine removeFirst_mem_of_ne he2 ?_
            intro heq
            rw [heq] at hkey
            exact hkc.1 hkey.symm
          · rw [hq1] at hgk
            injection hgk with hh
            exact ⟨e2, he2, hkey, by omega⟩
        · intro k gk hgk
          rcases classify k with ⟨hq1, hq2⟩ | ⟨hnc, hne, hmemL, hq1, hq2, -, -⟩
          · rw [hq1] at hgk
            obtain ⟨l, hchain, hpath, hlen, hnd2, hdrop⟩ := hinv.chain k gk hgk
            have hlast := chainTo_last hchain
            have htransfer : ChainTo F.gs (keyCell k) l := by
              refine chainTo_congr hchain ?_
              intro x hx
              rcases mem_dropLast_or_last hlast hx with hx1 | hx1
              · exact (hfroz x.key (List.mem_cons_of_mem _ (hdrop x hx1))).2
              · rw [hx1]
                exact hq2
            refine ⟨l, htransfer, hpath, hlen, hnd2, ?_⟩
            intro x hx
            rw [hFcl]
            exact List.mem_cons_of_mem _ (hdrop x hx)
          · rw [hq1] at hgk
            injection hgk with hh
            obtain ⟨lx, hchainx, hpathx, hlenx, hndx, hdropx⟩ :=
              hinv.chain e.cell.key e.g hpopg
            rw [keyCell_key] at hchainx hpathx
            have hlastx := chainTo_last hchainx
            have hcellsx : ∀ x ∈ lx, x.key ∈ e.cell.key :: s.closed := by
              intro x hx
              rcases mem_dropLast_or_last hlastx hx with hx1 | hx1
              · exact List.mem_cons_of_mem _ (hdropx x hx1)
              · rw [hx1]
                exact List.mem_cons_self _ _
            have htransferx : ChainTo F.gs e.cell lx := by
              refine chainTo_congr hchainx ?_
              intro x hx
              exact (hfroz x.key (hcellsx x hx)).2
            have hnewchain : ChainTo F.gs (keyCell k) (lx ++ [keyCell k]) :=
              ChainTo.step (keyCell k) e.cell lx hq2 htransferx
            refine ⟨lx ++ [keyCell k], hnewchain, ?_, ?_, ?_, ?_⟩
            · exact isPath_snoc hpathx hmemL
            · rw [List.length_append, List.length_singleton, hlenx]
              omega
            · refine nodup_concat hndx ?_
              intro hin
              have hkc2 := hcellsx _ hin
              rw [key_keyCell] at hkc2
              rcases List.mem_cons.mp hkc2 with h1 | h1
              · exact hne h1
              · exact hnc h1
            · intro x hx
              rw [List.dropLast_concat] at hx
              rw [hFcl]
              exact hcellsx x hx
        · rw [hFcl]
          simp only [List.mem_cons, not_or]
          refine ⟨?_, hinv.goal_open⟩
          intro heq
          have hge2 : goal = e.cell := key_inj heq
          exact hgl ⟨(congrArg Cell.i hge2).symm, (congrArg Cell.j hge2).symm⟩

theorem astar_reachable_inv {g : Grid} {start goal : Cell} (gs0 : GraphState) :
    ∀ (n : Nat) (s : AstarState),
      iterStates (astar_step g goal) n (astar_init gs0 start goal) = some s →
      AstarInv g start goal s := by
  intro n s hit
  exact iter_invariant (fun t t2 hP h => astar_step_inv hP h) n _ s
    (astar_init_inv g gs0 start goal) hit

/-! ## Step composition and persistence of parent entries -/

theorem iterStates_succ_right {σ : Type} (step : σ → StepRes σ) :
    ∀ (n : Nat) (s : σ), iterStates step (n + 1) s =
      (iterStates step n s).bind (fun t => iterStates step 1 t) := by
  intro n
  induction n with
  | zero =>
    intro s
    rw [iterStates_zero]
    rfl
  | succ n ih =>
    intro s
    cases hs : step s with
    | done p gs =>
      rw [iterStates_done hs, iterStates_done hs]
      rfl
    | next s3 =>
      rw [iterStates_next hs, iterStates_next hs, ih s3]

theorem iter_step_next {σ : Type} {step : σ → StepRes σ} {n : Nat} {s0 s s2 : σ}
    (h1 : iterStates step n s0 = some s) (h2 : iterStates step (n + 1) s0 = some s2) :
    step s = StepRes.next s2 := by
  rw [iterStates_succ_right, h1] at h2
  simp only [Option.some_bind] at h2
  cases hs : step s with
  | done p gs => rw [iterStates_done hs 0] at h2; cases h2
  | next t =>
    rw [iterStates_next hs 0, iterStates_zero] at h2
    cases h2
    rfl

theorem iter_isSome_of_succ {σ : Type} {step : σ → StepRes σ} {n : Nat} {s0 s2 : σ}
    (h : iterStates step (n + 1) s0 = some s2) : ∃ t, iterStates step n s0 = some t := by
  rw [iterStates_succ_right] at h
  cases ht : iterStates step n s0 with
  | none => rw [ht] at h; cases h
  | some t => exact ⟨t, rfl⟩

theorem parentInv_forest {g : Grid} {start : Cell} {visited : List (Int × Int)}
    {gs : GraphState} (h : ParentInv g start visited gs) : ForestRootedAt start gs := by
  intro k hk
  have hkv : k ∈ visited := (h.dom_iff k).mp hk
  obtain ⟨l, hl, hpath, hnd, -⟩ := h.chain k hkv
  exact ⟨l, hl, chainTo_head_start hl h.none_start, hnd⟩

theorem astarInv_forest {g : Grid} {start goal : Cell} {s : AstarState}
    (h : AstarInv g start goal s) : ForestRootedAt start s.gs := by
  intro k hk
  obtain ⟨gk, hgk⟩ := Option.isSome_iff_exists.mp ((h.dom_iff k).mpr hk)
  obtain ⟨l, hl, hpath, -, hnd, -⟩ := h.chain k gk hgk
  exact ⟨l, hl, chainTo_head_start hl h.none_start, hnd⟩

theorem dfs_visit_parent_stable (current : Cell) (s : DfsState) (nbr : Cell)
    (k : Int × Int) (hk : k ∈ s.visited) :
    alookup (dfs_visit current s nbr).gs.parent k = alookup s.gs.parent k := by
  unfold dfs_visit
  by_cases h : nbr.key ∈ s.visited
  · simp [h]
  · simp only [h, if_neg, not_false_iff]
    exact alookup_cons_ne _ _ (fun he => h (he ▸ hk))

theorem foldl_dfs_visit_parent_stable (current : Cell) :
    ∀ (L : List Cell) (s : DfsState) (k : Int × Int), k ∈ s.visited →
      alookup (L.foldl (dfs_visit current) s).gs.parent k = alookup s.gs.parent k := by
  intro L
  induction L with
  | nil => intro s k _; rfl
  | cons x xs ih =>
    intro s k hk
    simp only [List.foldl_cons]
    rw [ih _ k (dfs_visit_visited_mono current s x k hk)]
    exact dfs_visit_parent_stable current s x k hk

theorem bfs_visit_parent_stable (current : Cell) (s : BfsState) (nbr : Cell)
    (k : Int × Int) (hk : k ∈ s.visited) :
    alookup (bfs_visit current s nbr).gs.parent k = alookup s.gs.parent k := by
  unfold bfs_visit
  by_cases h : nbr.key ∈ s.visited
  · simp [h]
  · simp only [h, if_neg, not_false_iff]
    exact alookup_cons_ne _ _ (fun he => h (he ▸ hk))

theorem foldl_bfs_visit_parent_stable (current : Cell) :
    ∀ (L : List Cell) (s : BfsState) (k : Int × Int), k ∈ s.visited →
      alookup (L.foldl (bfs_visit current) s).gs.parent k = alookup s.gs.parent k := by
  intro L
  induction L with
  | nil => intro s k _; rfl
  | cons x xs ih =>
    intro s k hk
    simp only [List.foldl_cons]
    rw [ih _ k (bfs_visit_visited_mono current s x k hk)]
    exact bfs_visit_parent_stable current s x k hk

theorem dfs_step_parent_stable {g : Grid} {start goal : Cell} {s s2 : DfsState}
    (hinv : ParentInv g start s.visited s.gs)
    (h : dfs_step g goal s = .next s2) :
    ∀ (k : Int × Int) (v : Option Cell), alookup s.gs.parent k = some v →
      alookup s2.gs.parent k = some v := by
  intro k v hv
  have hkvis : k ∈ s.visited := (hinv.dom_iff k).mp (by rw [hv]; rfl)
  unfold dfs_step at h
  cases hs : s.stack with
  | nil => rw [hs] at h; cases h
  | cons current rest =>
    simp only [hs] at h
    by_cases hg : current.i = goal.i ∧ current.j = goal.j
    · rw [if_pos hg] at h; cases h
    · rw [if_neg hg] at h
      cases h
      rw [foldl_dfs_visit_parent_stable current (g.find_neighbors current.i current.j)
        { s with stack := rest } k hkvis]
      exact hv

theorem bfs_step_parent_stable {g : Grid} {start goal : Cell} {s s2 : BfsState}
    (hinv : ParentInv g start s.visited s.gs)
    (h : bfs_step g goal s = .next s2) :
    ∀ (k : Int × Int) (v : Option Cell), alookup s.gs.parent k = some v →
      alookup s2.gs.parent k = some v := by
  intro k v hv
  have hkvis : k ∈ s.visited := (hinv.dom_iff k).mp (by rw [hv]; rfl)
  unfold bfs_step at h
  cases hs : s.queue with
  | nil => rw [hs] at h; cases h
  | cons current rest =>
    simp only [hs] at h
    by_cases hg : current.i = goal.i ∧ current.j = goal.j
    · rw [if_pos hg] at h; cases h
    · rw [if_neg hg] at h
      cases h
      rw [foldl_bfs_visit_parent_stable current (g.find_neighbors current.i current.j)
        { s with queue := rest } k hkvis]
      exact hv

theorem dfs_parent_persist {g : Grid} {goal : Cell} {gs0 : GraphState} {start : Cell} :
    ∀ (d n : Nat) (s s' : DfsState),
      iterStates (dfs_step g goal) n (dfs_init gs0 start) = some s →
      iterStates (dfs_step g goal) (n + d) (dfs_init gs0 start) = some s' →
      ∀ (k : Int × Int) (v : Option Cell), alookup s.gs.parent k = some v →
        alookup s'.gs.parent k = some v := by
  intro d
  induction d with
  | zero =>
    intro n s s' h1 h2
    simp only [Nat.add_zero] at h2
    rw [h1] at h2
    cases h2
    exact fun k v hv => hv
  | succ d ih =>
    intro n s s' h1 h2
    rw [show n + (d + 1) = (n + d) + 1 from rfl] at h2
    obtain ⟨t, ht⟩ := iter_isSome_of_succ h2
    have hstep := iter_step_next ht h2
    have hinvt := (dfs_reachable_inv gs0 start (n + d) t ht).1
    intro k v hv
    exact dfs_step_parent_stable hinvt hstep k v (ih n s t h1 ht k v hv)

theorem bfs_parent_persist {g : Grid} {goal : Cell} {gs0 : GraphState} {start : Cell} :
    ∀ (d n : Nat) (s s' : BfsState),
      iterStates (bfs_step g goal) n (bfs_init gs0 start) = some s →
      iterStates (bfs_step g goal) (n + d) (bfs_init gs0 start) = some s' →
      ∀ (k : Int × Int) (v : Option Cell), alookup s.gs.parent k = some v →
        alookup s'.gs.parent k = some v := by
  intro d
  induction d with
  | zero =>
    intro n s s' h1 h2
    simp only [Nat.add_zero] at h2
    rw [h1] at h2
    cases h2
    exact fun k v hv => hv
  | succ d ih =>
    intro n s s' h1 h2
    rw [show n + (d + 1) = (n + d) + 1 from rfl] at h2
    obtain ⟨t, ht⟩ := iter_isSome_of_succ h2
    have hstep := iter_step_next ht h2
    have hinvt := (bfs_reachable_base_inv gs0 start (n + d) t ht).1
    intro k v hv
    exact bfs_step_parent_stable hinvt hstep k v (ih n s t h1 ht k v hv)

theorem astar_step_parent_change {g : Grid} {start goal : Cell} {s s2 : AstarState}
    (hinv : AstarInv g start goal s) (h : astar_step g goal s = .next s2) :
    ∀ k : Int × Int, (alookup s.gs.parent k).isSome →
      alookup s2.gs.parent k ≠ alookup s.gs.parent k →
      ∃ gold gnew, alookup s.g_cost k = some gold ∧
        alookup s2.g_cost k = some gnew ∧ gnew < gold := by
  intro k hdom hchange
  unfold astar_step at h
  cases hp : popMin s.open_heap with
  | none => rw [hp] at h; cases h
  | some pr =>
    obtain ⟨e, rest⟩ := pr
    simp only [hp] at h
    by_cases hc : e.cell.key ∈ s.closed
    · rw [if_pos hc] at h
      cases h
      exact absurd rfl hchange
    · rw [if_neg hc] at h
      by_cases hgl : e.cell.i = goal.i ∧ e.cell.j = goal.j
      · rw [if_pos hgl] at h; cases h
      · rw [if_neg hgl] at h
        cases h
        set L := g.find_neighbors e.cell.i e.cell.j with hLdef
        set s1 : AstarState := { s with open_heap := rest, closed := e.cell.key :: s.closed, gs := { s.gs with visited_cells := s.gs.visited_cells ++ [Cell.mk e.cell.i e.cell.j] } } with hs1
        have hndL : (L.map Cell.key).Nodup :=
          (nodup_find_neighbors g e.cell.i e.cell.j).map (fun a b => key_inj)
        by_cases hkL : ∃ c ∈ L, c.key = k
        · obtain ⟨c, hcL, rfl⟩ := hkL
          by_cases hkc : c.key ∈ e.cell.key :: s.closed
          · exact absurd (foldl_relax_frozen goal e.cell e.g L s1 c.key hkc).2 hchange
          · rcases foldl_relax_key_char goal e.cell e.g L hndL s1 c hcL hkc with
              ⟨-, h2, -⟩ | ⟨h1, -, hall, -⟩
            · exact absurd h2 hchange
            · obtain ⟨gold, hgold⟩ := Option.isSome_iff_exists.mp
                ((hinv.dom_iff c.key).mpr hdom)
              exact ⟨gold, e.g + 1, hgold, h1, hall gold hgold⟩
        · have hne : ∀ c ∈ L, c.key ≠ k := fun c hcm he => hkL ⟨c, hcm, he⟩
          exact absurd (foldl_relax_other_key goal e.cell e.g L s1 k hne).2 hchange

theorem astar_parent_covers_heap {g : Grid} {start goal : Cell} {s : AstarState}
    (hinv : AstarInv g start goal s) :
    ∀ e ∈ s.open_heap, (alookup s.gs.parent e.cell.key).isSome := by
  intro e he
  exact (hinv.dom_iff e.cell.key).mp (hinv.heap_dom e he)

/-! ## BFS optimality: the full loop invariant is maintained -/

/-- Exact effect of the neighbor loop of breadth_first_search on the queue, the
discovered set and the parent map: some sublist news of the neighbor list is
appended to the queue, its keys (fresh and pairwise distinct) are discovered
with parent current, and nothing else changes. -/
theorem foldl_bfs_visit_char (current : Cell) :
    ∀ (L : List Cell) (s : BfsState), ∃ news : List Cell,
      (L.foldl (bfs_visit current) s).queue = s.queue ++ news ∧
      (∀ c ∈ news, c ∈ L) ∧
      (∀ c ∈ news, c.key ∉ s.visited) ∧
      (news.map Cell.key).Nodup ∧
      (∀ k, k ∈ (L.foldl (bfs_visit current) s).visited ↔
        (k ∈ s.visited ∨ ∃ c ∈ news, c.key = k)) ∧
      (∀ c ∈ L, c.key ∉ s.visited → ∃ c2 ∈ news, c2.key = c.key) ∧
      (∀ c ∈ news, alookup (L.foldl (bfs_visit current) s).gs.parent c.key =
        some (some current)) := by
  intro L
  induction L with
  | nil =>
    intro s
    refine ⟨[], by simp, by simp, by simp, by simp, fun k => by simp, by simp, by simp⟩
  | cons x xs ih =>
    intro s
    by_cases hx : x.key ∈ s.visited
    · have hv : bfs_visit current s x = s := by
        unfold bfs_visit
        rw [if_pos hx]
      obtain ⟨news, h1, h2, h3, h4, h5, h6, h7⟩ := ih s
      refine ⟨news, ?_, ?_, h3, h4, ?_, ?_, ?_⟩
      · simpa only [List.foldl_cons, hv] using h1
      · exact fun c hc => List.mem_cons_of_mem _ (h2 c hc)
      · intro k
        simpa only [List.foldl_cons, hv] using h5 k
      · intro c hc hck
        rcases List.mem_cons.mp hc with rfl | hc2
        · exact absurd hx hck
        · exact h6 c hc2 hck
      · intro c hc
        simpa only [List.foldl_cons, hv] using h7 c hc
    · have hq1 : (bfs_visit current s x).queue = s.queue ++ [x] := by
        unfold bfs_visit
        rw [if_neg hx]
      have hv1 : (bfs_visit current s x).visited = x.key :: s.visited := by
        unfold bfs_visit
        rw [if_neg hx]
      have hp1 : (bfs_visit current s x).gs.parent =
          (x.key, some current) :: s.gs.parent := by
        unfold bfs_visit
        rw [if_neg hx]
      obtain ⟨news, h1, h2, h3, h4, h5, h6, h7⟩ := ih (bfs_visit current s x)
      refine ⟨x :: news, ?_, ?_, ?_, ?_, ?_, ?_, ?_⟩
      · simp only [List.foldl_cons]
        rw [h1, hq1, List.append_assoc]
        rfl
      · intro c hc
        rcases List.mem_cons.mp hc with rfl | hc2
        · exact List.mem_cons_self _ _
        · exact List.mem_cons_of_mem _ (h2 c hc2)
      · intro c hc
        rcases List.mem_cons.mp hc with rfl | hc2
        · exact hx
        · have := h3 c hc2
          rw [hv1] at this
          exact fun hmem => this (List.mem_cons_of_mem _ hmem)
      · simp only [List.map_cons, List.nodup_cons]
        refine ⟨?_, h4⟩
        intro hmem
        obtain ⟨c, hc, hck⟩ := List.mem_map.mp hmem
        have := h3 c hc
        rw [hv1, hck] at this
        exact this (List.mem_cons_self _ _)
      · intro k
        simp only [List.foldl_cons]
        rw [h5 k, hv1]
        simp only [List.mem_cons]
        constructor
        · rintro (h | h)
          · rcases h with h | h
            · exact Or.inr ⟨x, Or.inl rfl, h.symm⟩
            · exact Or.inl h
          · obtain ⟨c, hc, hck⟩ := h
            exact Or.inr ⟨c, Or.inr hc, hck⟩
        · rintro (h | h)
          · exact Or.inl (Or.inr h)
          · obtain ⟨c, hc, hck⟩ := h
            rcases hc with rfl | hc
            · exact Or.inl (Or.inl hck.symm)
            · exact Or.inr ⟨c, hc, hck⟩
      · intro c hc hck
        rcases List.mem_cons.mp hc with rfl | hc2
        · exact ⟨c, List.mem_cons_self _ _, rfl⟩
        · by_cases hcv : c.key ∈ (bfs_visit current s x).visited
          · rw [hv1] at hcv
            rcases List.mem_cons.mp hcv with heq | hmem
            · exact ⟨x, List.mem_cons_self _ _, heq.symm⟩
            · exact absurd hmem hck
          · obtain ⟨c2, hc2m, hc2k⟩ := h6 c hc2 hcv
            exact ⟨c2, List.mem_cons_of_mem _ hc2m, hc2k⟩
      · intro c hc
        rcases List.mem_cons.mp hc with rfl | hc2
        · simp only [List.foldl_cons]
          rw [foldl_bfs_visit_parent_stable current xs (bfs_visit current s c) c.key
            (by rw [hv1]; exact List.mem_cons_self _ _)]
          rw [hp1]
          exact alookup_cons_self _ _ _
        · simp only [List.foldl_cons]
          exact h7 c hc2

/-- The BFS separation lemma: under the loop invariant, any walk from start
either ends in a discovered cell within its depth, or ends undiscovered and is
strictly longer than the depth of the queue's head. -/
theorem bfs_cover {g : Grid} {start goal : Cell} {δ : (Int × Int) → Nat}
    {s : BfsState} (hinv : BfsInvD g start goal δ s)
    {current : Cell} {rest : List Cell} (hq : s.queue = current :: rest) :
    ∀ {x : Cell} {n : Nat}, Reach g start x n →
      (x.key ∈ s.visited ∧ δ x.key ≤ n) ∨
      (x.key ∉ s.visited ∧ δ current.key + 1 ≤ n) := by
  have hwin : ∀ c ∈ rest, δ current.key ≤ δ c.key ∧ δ c.key ≤ δ current.key + 1 := by
    have hsor := hinv.sorted
    rw [hq] at hsor
    exact fun c hc => (List.pairwise_cons.mp hsor).1 c hc
  have hvb1 : ∀ k ∈ s.visited, δ k ≤ δ current.key + 1 := by
    intro k hk
    rcases hinv.vis_bound k hk with ⟨c, hc, hck⟩ | h2
    · rw [hq] at hc
      rcases List.mem_cons.mp hc with rfl | hc2
      · rw [← hck]
        exact Nat.le_succ _
      · rw [← hck]
        exact (hwin c hc2).2
    · have := h2 current (by rw [hq]; exact List.mem_cons_self _ _)
      omega
  intro x n h
  induction h with
  | base => exact Or.inl ⟨hinv.base.start_mem, hinv.δ_start.le⟩
  | snoc hr hu ih =>
    rename_i y u m
    rcases ih with ⟨hyv, hyδ⟩ | ⟨hyn, hyb⟩
    · by_cases hqy : ∃ c ∈ s.queue, c.key = y.key
      · have hylo : δ current.key ≤ δ y.key := by
          obtain ⟨c, hc, hck⟩ := hqy
          rw [hq] at hc
          rcases List.mem_cons.mp hc with rfl | hc2
          · rw [← hck]
          · rw [← hck]
            exact (hwin c hc2).1
        by_cases huv : u.key ∈ s.visited
        · exact Or.inl ⟨huv, by have := hvb1 u.key huv; omega⟩
        · exact Or.inr ⟨huv, by omega⟩
      · push_neg at hqy
        have hexp := hinv.expanded y.key hyv hqy u (by rw [keyCell_key]; exact hu)
        exact Or.inl ⟨hexp.1, by omega⟩
    · by_cases huv : u.key ∈ s.visited
      · exact Or.inl ⟨huv, by have := hvb1 u.key huv; omega⟩
      · exact Or.inr ⟨huv, by omega⟩

/-- One non-final step of breadth_first_search preserves the BFS loop
invariant, for the depth assignment extended to the newly discovered cells with
the head's depth plus one. -/
theorem bfs_step_inv {g : Grid} {start goal : Cell} {δ : (Int × Int) → Nat}
    {s s2 : BfsState} (hinv : BfsInvD g start goal δ s)
    (h : bfs_step g goal s = .next s2) : BfsInv g start goal s2 := by
  unfold bfs_step at h
  cases hs : s.queue with
  | nil => rw [hs] at h; cases h
  | cons current rest =>
    simp only [hs] at h
    by_cases hg : current.i = goal.i ∧ current.j = goal.j
    · rw [if_pos hg] at h; cases h
    · rw [if_neg hg] at h
      cases h
      have hcurv : current.key ∈ s.visited :=
        hinv.frontier_vis current (by rw [hs]; exact List.mem_cons_self _ _)
      have hrestv : ∀ c ∈ rest, c.key ∈ s.visited := fun c hc =>
        hinv.frontier_vis c (by rw [hs]; exact List.mem_cons_of_mem _ hc)
      have hwin : ∀ c ∈ rest,
          δ current.key ≤ δ c.key ∧ δ c.key ≤ δ current.key + 1 := by
        have hsor := hinv.sorted
        rw [hs] at hsor
        exact fun c hc => (List.pairwise_cons.mp hsor).1 c hc
      have hvb1 : ∀ k ∈ s.visited, δ k ≤ δ current.key + 1 := by
        intro k hk
        rcases hinv.vis_bound k hk with ⟨c, hc, hck⟩ | h2
        · rw [hs] at hc
          rcases List.mem_cons.mp hc with rfl | hc2
          · rw [← hck]
            exact Nat.le_succ _
          · rw [← hck]
            exact (hwin c hc2).2
        · have := h2 current (by rw [hs]; exact List.mem_cons_self _ _)
          omega
      obtain ⟨news, hq2, hnewsL, hnewsNew, hnewsND, hvis2, hcover, hpar2⟩ :=
        foldl_bfs_visit_char current (g.find_neighbors current.i current.j)
          { s with queue := rest }
      have hmidq : ({ s with queue := rest } : BfsState).queue = rest := rfl
      rw [hmidq] at hq2
      have hstab : ∀ k ∈ s.visited,
          alookup ((g.find_neighbors current.i current.j).foldl (bfs_visit current)
            { s with queue := rest }).gs.parent k = alookup s.gs.parent k :=
        fun k hk => foldl_bfs_visit_parent_stable current _ { s with queue := rest } k hk
      refine ⟨fun k => if k ∈ s.visited then δ k else δ current.key + 1,
        ?_, ?_, ?_, ?_, ?_, ?_, ?_, ?_, ?_, ?_⟩
      · exact foldl_bfs_visit_parentInv _ { s with queue := rest } hinv.base hcurv
          (fun c hc => hc)
      · intro c hc
        rw [hq2] at hc
        rcases List.mem_append.mp hc with hc2 | hc2
        · exact (hvis2 c.key).mpr (Or.inl (hrestv c hc2))
        · exact (hvis2 c.key).mpr (Or.inr ⟨c, hc2, rfl⟩)
      · rw [hq2, List.map_append]
        rw [List.nodup_append]
        refine ⟨?_, hnewsND, ?_⟩
        · have hnd := hinv.queue_nodup
          rw [hs, List.map_cons, List.nodup_cons] at hnd
          exact hnd.2
        · intro a ha hb
          obtain ⟨c, hc, hck⟩ := List.mem_map.mp ha
          obtain ⟨c2, hc2, hck2⟩ := List.mem_map.mp hb
          exact hnewsNew c2 hc2 (by rw [hck2, ← hck]; exact hrestv c hc)
      · rw [if_pos hinv.base.start_mem]
        exact hinv.δ_start
      · intro k hk
        by_cases hkv : k ∈ s.visited
        · obtain ⟨l, hch, hip, hlen, hnd, hlv⟩ := hinv.δ_chain k hkv
          refine ⟨l, chainTo_congr hch (fun x hx => hstab x.key (hlv x hx)), hip,
            ?_, hnd, ?_⟩
          · rw [if_pos hkv]
            exact hlen
          · exact fun x hx => (hvis2 x.key).mpr (Or.inl (hlv x hx))
        · rcases (hvis2 k).mp hk with hkv2 | ⟨c, hc, hck⟩
          · exact absurd hkv2 hkv
          · obtain ⟨l, hch, hip, hlen, hnd, hlv⟩ := hinv.δ_chain current.key hcurv
            have hchain2 : ChainTo ((g.find_neighbors current.i current.j).foldl
                (bfs_visit current) { s with queue := rest }).gs (keyCell k)
                (l ++ [keyCell k]) := by
              rw [← hck, keyCell_key]
              exact ChainTo.step c current l (hpar2 c hc)
                (chainTo_congr hch (fun x hx => hstab x.key (hlv x hx)))
            refine ⟨l ++ [keyCell k], hchain2, ?_, ?_, ?_, ?_⟩
            · rw [← hck, keyCell_key]
              exact isPath_snoc hip (hnewsL c hc)
            · rw [if_neg hkv, List.length_append, List.length_singleton, hlen]
            · refine nodup_concat hnd ?_
              intro hmem
              exact hkv (by rw [← key_keyCell k]; exact hlv _ hmem)
            · intro x hx
              rcases List.mem_append.mp hx with hx2 | hx2
              · exact (hvis2 x.key).mpr (Or.inl (hlv x hx2))
              · rw [List.mem_singleton.mp hx2, key_keyCell]
                exact hk
      · rw [hq2]
        rw [List.pairwise_append]
        refine ⟨?_, ?_, ?_⟩
        · have hsor := hinv.sorted
          rw [hs] at hsor
          have htail := (List.pairwise_cons.mp hsor).2
          refine htail.imp_of_mem ?_
          intro a b ha hb hab
          rw [if_pos (hrestv a ha), if_pos (hrestv b hb)]
          exact hab
        · have hall : ∀ a ∈ news, ∀ b ∈ news,
              (fun a b : Cell =>
                (if a.key ∈ s.visited then δ a.key else δ current.key + 1) ≤
                  (if b.key ∈ s.visited then δ b.key else δ current.key + 1) ∧
                (if b.key ∈ s.visited then δ b.key else δ current.key + 1) ≤
                  (if a.key ∈ s.visited then δ a.key else δ current.key + 1) + 1)
                a b := by
            intro a ha b hb
            rw [if_neg (hnewsNew a ha), if_neg (hnewsNew b hb)]
            omega
          exact List.pairwise_of_forall_mem_list hall
        · intro a ha b hb
          rw [if_pos (hrestv a ha), if_neg (hnewsNew b hb)]
          have := hwin a ha
          omega
      · intro k hk hqn m hm
        rcases (hvis2 k).mp hk with hkv | ⟨c, hc, hck⟩
        · by_cases hkc : k = current.key
          · have hm2 : m ∈ g.find_neighbors current.i current.j := by
              rw [hkc, keyCell_key] at hm
              exact hm
            by_cases hmv : m.key ∈ s.visited
            · refine ⟨(hvis2 m.key).mpr (Or.inl hmv), ?_⟩
              rw [if_pos hmv, if_pos hkv, hkc]
              exact hvb1 m.key hmv
            · obtain ⟨c2, hc2, hck2⟩ := hcover m hm2 hmv
              refine ⟨(hvis2 m.key).mpr (Or.inr ⟨c2, hc2, hck2⟩), ?_⟩
              rw [if_neg hmv, if_pos hkv, hkc]
          · have hqn0 : ∀ c ∈ s.queue, c.key ≠ k := by
              intro c hc
              rw [hs] at hc
              rcases List.mem_cons.mp hc with heq | hc2
              · rw [heq]
                exact fun hck => hkc hck.symm
              · exact hqn c (by rw [hq2]; exact List.mem_append_left _ hc2)
            have hexp := hinv.expanded k hkv hqn0 m hm
            refine ⟨(hvis2 m.key).mpr (Or.inl hexp.1), ?_⟩
            rw [if_pos hexp.1, if_pos hkv]
            exact hexp.2
        · exact absurd hck (hqn c (by rw [hq2]; exact List.mem_append_right _ hc))
      · intro k hk
        rcases (hvis2 k).mp hk with hkv | ⟨c, hc, hck⟩
        · by_cases hrq : ∃ c ∈ rest, c.key = k
          · obtain ⟨c, hc, hck⟩ := hrq
            exact Or.inl ⟨c, by rw [hq2]; exact List.mem_append_left _ hc, hck⟩
          · push_neg at hrq
            refine Or.inr ?_
            intro d hd
            rw [hq2] at hd
            rcases hinv.vis_bound k hkv with ⟨c, hc, hck⟩ | hall
            · rw [hs] at hc
              rcases List.mem_cons.mp hc with rfl | hc2
              · rcases List.mem_append.mp hd with hd2 | hd2
                · rw [if_pos hkv, if_pos (hrestv d hd2), ← hck]
                  exact (hwin d hd2).1
                · rw [if_pos hkv, if_neg (hnewsNew d hd2), ← hck]
                  omega
              · exact absurd hck (hrq c hc2)
            · rcases List.mem_append.mp hd with hd2 | hd2
              · rw [if_pos hkv, if_pos (hrestv d hd2)]
                exact hall d (by rw [hs]; exact List.mem_cons_of_mem _ hd2)
              · rw [if_pos hkv, if_neg (hnewsNew d hd2)]
                have := hall current (by rw [hs]; exact List.mem_cons_self _ _)
                omega
        · exact Or.inl ⟨c, by rw [hq2]; exact List.mem_append_right _ hc, hck⟩
      · intro k hk n hn
        by_cases hkv : k ∈ s.visited
        · rw [if_pos hkv]
          exact hinv.opt k hkv n hn
        · rw [if_neg hkv]
          rcases bfs_cover hinv hs hn with ⟨hmem, -⟩ | ⟨-, hb⟩
          · rw [key_keyCell] at hmem
            exact absurd hmem hkv
          · exact hb
      · intro hgoal
        by_cases hgv : goal.key ∈ s.visited
        · obtain ⟨c, hc, hck⟩ := hinv.goal_pending hgv
          rw [hs] at hc
          rcases List.mem_cons.mp hc with heq | hc2
          · exfalso
            apply hg
            rw [heq] at hck
            exact ⟨congrArg Prod.fst hck, congrArg Prod.snd hck⟩
          · exact ⟨c, by rw [hq2]; exact List.mem_append_left _ hc2, hck⟩
        · rcases (hvis2 goal.key).mp hgoal with hgv2 | ⟨c, hc, hck⟩
          · exact absurd hgv2 hgv
          · exact ⟨c, by rw [hq2]; exact List.mem_append_right _ hc, hck⟩

/-- The BFS loop invariant holds at initialization, with depth zero
everywhere. -/
theorem bfs_init_invD (g : Grid) (gs0 : GraphState) (start goal : Cell) :
    BfsInvD g start goal (fun _ => 0) (bfs_init gs0 start) := by
  refine ⟨bfs_init_parentInv g gs0 start, ?_, ?_, rfl, ?_, ?_, ?_, ?_, ?_, ?_⟩
  · intro c hc
    simp only [bfs_init, List.mem_singleton] at hc
    subst hc
    simp [bfs_init]
  · simp [bfs_init]
  · intro k hk
    simp only [bfs_init, List.mem_singleton] at hk
    subst hk
    refine ⟨[keyCell start.key], ChainTo.root _ ?_, ?_, by simp, by simp, ?_⟩
    · simp [bfs_init, key_keyCell, alookup]
    · rw [keyCell_key]
      exact isPath_single g start
    · intro x hx
      simp only [List.mem_singleton] at hx
      subst hx
      simp [bfs_init, key_keyCell]
  · simp [bfs_init]
  · intro k hk hqn m hm
    exfalso
    simp only [bfs_init, List.mem_singleton] at hk
    exact hqn start (by simp [bfs_init]) (by rw [hk])
  · intro k hk
    simp only [bfs_init, List.mem_singleton] at hk
    exact Or.inl ⟨start, by simp [bfs_init], hk.symm⟩
  · intro k _ n _
    exact Nat.zero_le n
  · intro hgoal
    simp only [bfs_init, List.mem_singleton] at hgoal
    exact ⟨start, by simp [bfs_init], hgoal.symm⟩

/-- The BFS loop invariant holds at every reachable state of the run. -/
theorem bfs_reachable_invD {g : Grid} {goal : Cell} (gs0 : GraphState) (start : Cell) :
    ∀ (n : Nat) (s : BfsState),
      iterStates (bfs_step g goal) n (bfs_init gs0 start) = some s →
      BfsInv g start goal s := by
  intro n s hit
  refine iter_invariant (P := BfsInv g start goal) ?_ n _ s
    ⟨fun _ => 0, bfs_init_invD g gs0 start goal⟩ hit
  intro t t2 hP h
  obtain ⟨δ, hd⟩ := hP
  exact bfs_step_inv hd h

/-- When the queue has emptied, every cell reachable from start has been
discovered. -/
theorem bfs_empty_all_reached {g : Grid} {start goal : Cell} {δ : (Int × Int) → Nat}
    {s : BfsState} (hinv : BfsInvD g start goal δ s) (hq : s.queue = []) :
    ∀ {x : Cell} {n : Nat}, Reach g start x n → x.key ∈ s.visited := by
  intro x n h
  induction h with
  | base => exact hinv.base.start_mem
  | snoc hr hu ih =>
    rename_i y u m
    have hexp := hinv.expanded y.key ih
      (by intro c hc; rw [hq] at hc; cases hc) u (by rw [keyCell_key]; exact hu)
    exact hexp.1

/-- When breadth_first_search halts on a grid whose goal is reachable, the
returned list is a start-to-goal path of minimal edge count. -/
theorem bfs_done_shortest {g : Grid} {start goal : Cell} {s : BfsState}
    {p : List Cell} {gsf : GraphState} (hinv : BfsInv g start goal s)
    (hreach : ∃ n, Reach g start goal n)
    (h : bfs_step g goal s = .done p gsf) :
    IsPath g start goal p ∧ ∀ q, IsPath g start goal q →
      pathEdges p ≤ pathEdges q := by
  obtain ⟨δ, hd⟩ := hinv
  unfold bfs_step at h
  cases hs : s.queue with
  | nil =>
    exfalso
    obtain ⟨n, hn⟩ := hreach
    have hgv : goal.key ∈ s.visited := bfs_empty_all_reached hd hs hn
    obtain ⟨c, hc, -⟩ := hd.goal_pending hgv
    rw [hs] at hc
    cases hc
  | cons current rest =>
    simp only [hs] at h
    by_cases hg : current.i = goal.i ∧ current.j = goal.j
    · rw [if_pos hg] at h
      have hp : p = trace_path current s.gs := by cases h; rfl
      have hcur : current = goal := cell_ext hg.1 hg.2
      have hcurv : current.key ∈ s.visited :=
        hd.frontier_vis current (by rw [hs]; exact List.mem_cons_self _ _)
      obtain ⟨l, hch, hip, hlen, hnd, -⟩ := hd.δ_chain current.key hcurv
      have hpl : p = l := by
        rw [hp, ← trace_path_of_chain hch hnd, keyCell_key]
      constructor
      · rw [hpl, ← hcur]
        have hip2 : IsPath g start current l := by
          rw [← keyCell_key current]
          exact hip
        exact hip2
      · intro q hq
        have hrq : Reach g start goal (q.length - 1) := isPath_reach hq
        have hrq2 : Reach g start (keyCell current.key) (q.length - 1) := by
          rw [keyCell_key, hcur]
          exact hrq
        have hopt := hd.opt current.key hcurv (q.length - 1) hrq2
        have hql : 1 ≤ q.length := by
          cases hql : q with
          | nil =>
            rw [hql] at hq
            simp [IsPath, isPathB] at hq
          | cons a as => simp [hql]
        unfold pathEdges
        rw [hpl]
        omega
    · rw [if_neg hg] at h
      cases h

/-- Every path of the grid is nonempty. -/
theorem isPath_length_pos {g : Grid} {s t : Cell} {p : List Cell}
    (h : IsPath g s t p) : 1 ≤ p.length := by
  cases hp : p with
  | nil =>
    rw [hp] at h
    simp [IsPath, isPathB] at h
  | cons a as => simp [hp]

/-- breadth_first_search on a grid with a reachable goal returns a
start-to-goal path of minimal edge count. -/
theorem bfs_shortest (g : Grid) (gs0 : GraphState) (start goal : Cell)
    (hreach : ∃ n, Reach g start goal n) :
    IsPath g start goal (breadth_first_search g gs0 start goal).1 ∧
    ∀ q, IsPath g start goal q →
      pathEdges (breadth_first_search g gs0 start goal).1 ≤ pathEdges q := by
  have hterm := bfs_terminates g gs0 start goal
  obtain ⟨r, hr⟩ := Option.isSome_iff_exists.mp hterm
  obtain ⟨n, s, hit, hdone⟩ := runSteps_done_exists hr
  have hinv := bfs_reachable_invD gs0 start n s hit
  unfold breadth_first_search
  rw [hr]
  exact bfs_done_shortest hinv hreach hdone

/-! ## A* optimality: closed cells carry optimal costs -/

/-- The optimality invariant holds at initialization (the closed set is
empty). -/
theorem astar_init_opt (g : Grid) (gs0 : GraphState) (start goal : Cell) :
    AstarOpt g start (astar_init gs0 start goal) := by
  constructor
  · intro k hk
    simp [astar_init] at hk
  · intro k hk
    simp [astar_init] at hk

/-- The A* frontier covering lemma: any walk from start to a non-closed cell is
witnessed by an open entry whose f-cost is at most the walk length plus the
target's heuristic (by consistency of the Manhattan heuristic). -/
theorem astar_cover {g : Grid} {start goal : Cell} {s : AstarState}
    (hinv : AstarInv g start goal s) (hopt : AstarOpt g start s) :
    ∀ {x : Cell} {n : Nat}, Reach g start x n → x.key ∉ s.closed →
      ∃ e ∈ s.open_heap, e.g + heuristic e.cell goal ≤ n + heuristic x goal := by
  intro x n h
  induction h with
  | base =>
    intro hxc
    obtain ⟨e, he, hkey, hgeq⟩ := hinv.open_entry start.key 0 hinv.start_g hxc
    refine ⟨e, he, ?_⟩
    rw [hgeq, key_inj hkey]
  | snoc hr hu ih =>
    rename_i y u m
    intro huc
    by_cases hyc : y.key ∈ s.closed
    · obtain ⟨gu, gy, hgu, hgy, hle⟩ :=
        hopt.closed_edge y.key hyc u (by rw [keyCell_key]; exact hu) huc
      have hyopt := hopt.closed_opt y.key hyc gy hgy m (by rw [keyCell_key]; exact hr)
      obtain ⟨e, he, hkey, hgeq⟩ := hinv.open_entry u.key gu hgu huc
      refine ⟨e, he, ?_⟩
      rw [hgeq, key_inj hkey]
      omega
    · obtain ⟨e, he, hle⟩ := ih hyc
      refine ⟨e, he, ?_⟩
      have hadj := heuristic_adj (c := goal) hu
      rw [cell_eta] at hadj
      omega

/-- When the pop removes a non-stale entry, the entry's g-cost lower-bounds
every walk from start to its cell: the popped entry minimizes f over the heap,
and the heuristic is consistent. -/
theorem astar_pop_opt {g : Grid} {start goal : Cell} {s : AstarState}
    {e : AstarEntry} {rest : List AstarEntry}
    (hinv : AstarInv g start goal s) (hopt : AstarOpt g start s)
    (hp : popMin s.open_heap = some (e, rest)) (hc : e.cell.key ∉ s.closed) :
    ∀ n, Reach g start e.cell n → e.g ≤ n := by
  intro n hn
  obtain ⟨hmem, -, hmin⟩ := popMin_some hp
  obtain ⟨e2, he2, hle⟩ := astar_cover hinv hopt hn hc
  have hne := hmin e2 he2
  simp only [entryLt, not_or, not_and, not_lt] at hne
  have hf := hinv.heap_f e hmem
  have hf2 := hinv.heap_f e2 he2
  have hfle : e.f ≤ e2.f := hne.1
  omega

/-- One non-final A* step preserves the optimality invariant. -/
theorem astar_step_opt {g : Grid} {start goal : Cell} {s s2 : AstarState}
    (hinv : AstarInv g start goal s) (hopt : AstarOpt g start s)
    (h : astar_step g goal s = .next s2) : AstarOpt g start s2 := by
  unfold astar_step at h
  cases hp : popMin s.open_heap with
  | none => rw [hp] at h; cases h
  | some pr =>
    obtain ⟨e, rest⟩ := pr
    simp only [hp] at h
    by_cases hc : e.cell.key ∈ s.closed
    · rw [if_pos hc] at h
      cases h
      exact ⟨hopt.closed_opt, hopt.closed_edge⟩
    · rw [if_neg hc] at h
      by_cases hgl : e.cell.i = goal.i ∧ e.cell.j = goal.j
      · rw [if_pos hgl] at h; cases h
      · rw [if_neg hgl] at h
        cases h
        set L := g.find_neighbors e.cell.i e.cell.j with hLdef
        set s1 : AstarState := { s with open_heap := rest, closed := e.cell.key :: s.closed, gs := { s.gs with visited_cells := s.gs.visited_cells ++ [Cell.mk e.cell.i e.cell.j] } } with hs1
        set F := L.foldl (astar_relax goal e.cell e.g) s1 with hFdef
        have hpopg : alookup s.g_cost e.cell.key = some e.g := astar_pop_g hinv hp hc
        have hndL : (L.map Cell.key).Nodup :=
          (nodup_find_neighbors g e.cell.i e.cell.j).map (fun a b => key_inj)
        have hFcl : F.closed = e.cell.key :: s.closed :=
          (foldl_relax_closed goal e.cell e.g L s1).trans rfl
        have hfroz : ∀ k, k ∈ e.cell.key :: s.closed →
            alookup F.g_cost k = alookup s.g_cost k :=
          fun k hk => (foldl_relax_frozen goal e.cell e.g L s1 k hk).1
        have hpop_opt : ∀ n, Reach g start e.cell n → e.g ≤ n :=
          astar_pop_opt hinv hopt hp hc
        constructor
        · intro k hk gk hgk n hn
          rw [hFcl] at hk
          rcases List.mem_cons.mp hk with rfl | hk2
          · rw [hfroz _ (List.mem_cons_self _ _), hpopg] at hgk
            injection hgk with hge
            have := hpop_opt n hn
            omega
          · rw [hfroz _ (List.mem_cons_of_mem _ hk2)] at hgk
            exact hopt.closed_opt k hk2 gk hgk n hn
        · intro k hk m hm hmc
          rw [hFcl] at hk hmc
          rcases List.mem_cons.mp hk with rfl | hk2
          · have hmL : m ∈ L := hm
            have hmns : m.key ∉ s1.closed := hmc
            rcases foldl_relax_key_char goal e.cell e.g L hndL s1 m hmL hmns with
              ⟨h1, -, gold, hgold, hgoldle⟩ | ⟨h1, -, -, -⟩
            · refine ⟨gold, e.g, ?_, ?_, hgoldle⟩
              · rw [h1]
                exact hgold
              · rw [hfroz _ (List.mem_cons_self _ _)]
                exact hpopg
            · refine ⟨e.g + 1, e.g, h1, ?_, Nat.le_refl _⟩
              rw [hfroz _ (List.mem_cons_self _ _)]
              exact hpopg
          · have hmns : m.key ∉ s.closed := fun hx => hmc (List.mem_cons_of_mem _ hx)
            obtain ⟨gm, gk, hgm, hgk, hle⟩ := hopt.closed_edge k hk2 m hm hmns
            have hkfr : alookup F.g_cost k = some gk := by
              rw [hfroz k (List.mem_cons_of_mem _ hk2)]
              exact hgk
            by_cases hmL : ∃ c ∈ L, c.key = m.key
            · obtain ⟨c, hcL, hck⟩ := hmL
              have hmns1 : c.key ∉ s1.closed := by
                rw [hck]
                exact hmc
              rcases foldl_relax_key_char goal e.cell e.g L hndL s1 c hcL hmns1 with
                ⟨h1, -, -⟩ | ⟨h1, -, hdec, -⟩
              · refine ⟨gm, gk, ?_, hkfr, hle⟩
                rw [hck] at h1
                rw [h1]
                exact hgm
              · refine ⟨e.g + 1, gk, ?_, hkfr, ?_⟩
                · rw [hck] at h1
                  exact h1
                · have := hdec gm (by rw [hck]; exact hgm)
                  omega
            · have hne : ∀ c ∈ L, c.key ≠ m.key := fun c hcm he => hmL ⟨c, hcm, he⟩
              refine ⟨gm, gk, ?_, hkfr, hle⟩
              rw [(foldl_relax_other_key goal e.cell e.g L s1 m.key hne).1]
              exact hgm

/-- Both A* invariants hold at every reachable state of the run. -/
theorem astar_reachable_opt {g : Grid} {start goal : Cell} (gs0 : GraphState) :
    ∀ (n : Nat) (s : AstarState),
      iterStates (astar_step g goal) n (astar_init gs0 start goal) = some s →
      AstarInv g start goal s ∧ AstarOpt g start s := by
  intro n s hit
  refine iter_invariant
    (P := fun s => AstarInv g start goal s ∧ AstarOpt g start s) ?_ n _ s
    ⟨astar_init_inv g gs0 start goal, astar_init_opt g gs0 start goal⟩ hit
  intro t t2 hP h
  exact ⟨astar_step_inv hP.1 h, astar_step_opt hP.1 hP.2 h⟩

/-- When a_star_search halts on a grid whose goal is reachable, the returned
list is a start-to-goal path of minimal edge count. -/
theorem astar_done_shortest {g : Grid} {start goal : Cell} {s : AstarState}
    {p : List Cell} {gsf : GraphState}
    (hinv : AstarInv g start goal s) (hopt : AstarOpt g start s)
    (hreach : ∃ n, Reach g start goal n)
    (h : astar_step g goal s = .done p gsf) :
    IsPath g start goal p ∧ ∀ q, IsPath g start goal q →
      pathEdges p ≤ pathEdges q := by
  unfold astar_step at h
  cases hp : popMin s.open_heap with
  | none =>
    exfalso
    obtain ⟨n, hn⟩ := hreach
    obtain ⟨e2, he2, -⟩ := astar_cover hinv hopt hn hinv.goal_open
    rw [popMin_none hp] at he2
    cases he2
  | some pr =>
    obtain ⟨e, rest⟩ := pr
    simp only [hp] at h
    by_cases hc : e.cell.key ∈ s.closed
    · rw [if_pos hc] at h
      cases h
    · rw [if_neg hc] at h
      by_cases hgl : e.cell.i = goal.i ∧ e.cell.j = goal.j
      · rw [if_pos hgl] at h
        cases h
        have hcell : e.cell = goal := cell_ext hgl.1 hgl.2
        have hpopg : alookup s.g_cost e.cell.key = some e.g := astar_pop_g hinv hp hc
        obtain ⟨l, hch, hip, hlen, hnd, -⟩ := hinv.chain e.cell.key e.g hpopg
        have hch2 : ChainTo { s.gs with
            visited_cells := s.gs.visited_cells ++ [Cell.mk e.cell.i e.cell.j] }
            e.cell l :=
          chainTo_congr hch (fun x _ => rfl)
        have htr := trace_path_of_chain hch2 hnd
        rw [htr]
        have hip2 : IsPath g start e.cell l := hip
        constructor
        · rw [← hcell]
          exact hip2
        · intro q hq
          have hrq : Reach g start e.cell (q.length - 1) := by
            rw [hcell]
            exact isPath_reach hq
          have hopt2 := astar_pop_opt hinv hopt hp hc (q.length - 1) hrq
          have hql := isPath_length_pos hq
          unfold pathEdges
          omega
      · rw [if_neg hgl] at h
        cases h

/-- a_star_search on a grid with a reachable goal returns a start-to-goal path
of minimal edge count. -/
theorem astar_shortest (g : Grid) (gs0 : GraphState) (start goal : Cell)
    (hreach : ∃ n, Reach g start goal n) :
    IsPath g start goal (a_star_search g gs0 start goal).1 ∧
    ∀ q, IsPath g start goal q →
      pathEdges (a_star_search g gs0 start goal).1 ≤ pathEdges q := by
  have hterm := astar_terminates g gs0 start goal
  obtain ⟨r, hr⟩ := Option.isSome_iff_exists.mp hterm
  obtain ⟨n, s, hit, hdone⟩ := runSteps_done_exists hr
  obtain ⟨hi, ho⟩ := astar_reachable_opt gs0 n s hit
  unfold a_star_search
  rw [hr]
  exact astar_done_shortest hi ho hreach hdone

/-! ## Claim C1: BFS optimality -/

/-- C1: for every grid and every start/goal pair with the goal reachable from
the start, breadth_first_search returns a start-to-goal path whose edge count
is minimal among all start-to-goal paths in the grid (all edges having uniform
step cost 1). -/
theorem C1_bfs_shortest (g : Grid) (gs0 : GraphState) (start goal : Cell)
    (hreach : ∃ n, Reach g start goal n) :
    IsPath g start goal (breadth_first_search g gs0 start goal).1 ∧
    ∀ q, IsPath g start goal q →
      pathEdges (breadth_first_search g gs0 start goal).1 ≤ pathEdges q :=
  bfs_shortest g gs0 start goal hreach

/-- Witness for C1 at a concrete input: the one-cell grid with start equal to
goal, where the goal is reachable in zero steps. -/
theorem C1_witness :
    (∃ n, Reach witGrid (Cell.mk 0 0) (Cell.mk 0 0) n) ∧
    IsPath witGrid (Cell.mk 0 0) (Cell.mk 0 0)
      (breadth_first_search witGrid emptyGS (Cell.mk 0 0) (Cell.mk 0 0)).1 ∧
    ∀ q, IsPath witGrid (Cell.mk 0 0) (Cell.mk 0 0) q →
      pathEdges (breadth_first_search witGrid emptyGS (Cell.mk 0 0) (Cell.mk 0 0)).1 ≤
        pathEdges q :=
  ⟨⟨0, Reach.base⟩,
    C1_bfs_shortest witGrid emptyGS (Cell.mk 0 0) (Cell.mk 0 0) ⟨0, Reach.base⟩⟩

/-! ## Claim C2: A* matches BFS in path length -/

/-- C2: for every grid and every start/goal pair with the goal reachable from
the start, the path returned by a_star_search has the same length — the same
edge count — as the path returned by breadth_first_search (both are shortest
by edge count under the uniform step cost), whatever graph states the two runs
start from. -/
theorem C2_astar_len_eq_bfs (g : Grid) (gs0 gs0' : GraphState) (start goal : Cell)
    (hreach : ∃ n, Reach g start goal n) :
    pathEdges (a_star_search g gs0 start goal).1 =
      pathEdges (breadth_first_search g gs0' start goal).1 ∧
    (a_star_search g gs0 start goal).1.length =
      (breadth_first_search g gs0' start goal).1.length := by
  obtain ⟨hA1, hA2⟩ := astar_shortest g gs0 start goal hreach
  obtain ⟨hB1, hB2⟩ := bfs_shortest g gs0' start goal hreach
  have h1 := hA2 _ hB1
  have h2 := hB2 _ hA1
  have hlA := isPath_length_pos hA1
  have hlB := isPath_length_pos hB1
  unfold pathEdges at h1 h2 ⊢
  omega

/-- Witness for C2 at a concrete input: the one-cell grid with start equal to
goal, where the goal is reachable in zero steps. -/
theorem C2_witness :
    (∃ n, Reach witGrid (Cell.mk 0 0) (Cell.mk 0 0) n) ∧
    pathEdges (a_star_search witGrid emptyGS (Cell.mk 0 0) (Cell.mk 0 0)).1 =
      pathEdges (breadth_first_search witGrid emptyGS (Cell.mk 0 0) (Cell.mk 0 0)).1 ∧
    (a_star_search witGrid emptyGS (Cell.mk 0 0) (Cell.mk 0 0)).1.length =
      (breadth_first_search witGrid emptyGS (Cell.mk 0 0) (Cell.mk 0 0)).1.length :=
  ⟨⟨0, Reach.base⟩,
    C2_astar_len_eq_bfs witGrid emptyGS emptyGS (Cell.mk 0 0) (Cell.mk 0 0)
      ⟨0, Reach.base⟩⟩

/-! ## Claim C3: tie-breaking of the A* pop -/

/-- C3 counterexample: on the concrete grid c3Grid with start (1,1) and goal
(3,3) (the goal is reachable), after six iterations of the a_star_search loop
the pop removes the entry with insertion counter 8, although an entry with the
same f-cost and the strictly smaller counter 6 — pushed earlier — remains in
the heap.  The Python heap orders the full (f, g, counter, cell) tuples, so
ties on f are broken by g before the insertion sequence number, refuting the
claim that among entries with equal f-cost the earliest-pushed one is removed
first. -/
theorem C3_counterexample :
    ∃ s : AstarState,
      iterStates (astar_step c3Grid (Cell.mk 3 3)) 6
        (astar_init emptyGS (Cell.mk 1 1) (Cell.mk 3 3)) = some s ∧
      ∃ e rest, popMin s.open_heap = some (e, rest) ∧
        ∃ e2, e2 ∈ rest ∧ e2.f = e.f ∧ e2.cnt < e.cnt := by
  refine ⟨_, rfl, AstarEntry.mk 6 2 8 (Cell.mk 2 0),
    [AstarEntry.mk 8 2 7 (Cell.mk 0 0), AstarEntry.mk 6 3 6 (Cell.mk 0 3)],
    by decide, AstarEntry.mk 6 3 6 (Cell.mk 0 3), by decide, rfl, by decide⟩

/-- C3 amended: whenever the frontier is popped during a run of a_star_search,
the entry removed is one with the lowest f-cost, but ties on f-cost are broken
first by the lowest g-cost and only then by the lowest insertion sequence
number (the heap compares the (f, g, counter, cell) tuples lexicographically,
and the pairwise-distinct counters keep the order total before the cells are
reached). -/
theorem C3_pop_lex_min (g : Grid) (gs0 : GraphState) (start goal : Cell) (n : Nat)
    (s : AstarState) (e : AstarEntry) (rest : List AstarEntry)
    (hs : iterStates (astar_step g goal) n (astar_init gs0 start goal) = some s)
    (hp : popMin s.open_heap = some (e, rest)) :
    ∀ e2 ∈ rest, e.f ≤ e2.f ∧ (e.f = e2.f → e.g ≤ e2.g) ∧
      (e.f = e2.f → e.g = e2.g → e.cnt ≤ e2.cnt) := by
  obtain ⟨-, hrest, hmin⟩ := popMin_some hp
  intro e2 he2
  have hmem : e2 ∈ s.open_heap := by
    rw [hrest] at he2
    exact removeFirst_subset e s.open_heap e2 he2
  have hne := hmin e2 hmem
  simp only [entryLt, not_or, not_and, not_lt] at hne
  exact ⟨hne.1, fun hf => (hne.2 hf.symm).1, fun hf hg => (hne.2 hf.symm).2 hg.symm⟩

/-- Witness for the amended C3 at a concrete input: the state after six
iterations of a_star_search on c3Grid from (1,1) towards (3,3). -/
theorem C3_pop_lex_min_witness :
    ∃ s : AstarState,
      iterStates (astar_step c3Grid (Cell.mk 3 3)) 6
        (astar_init emptyGS (Cell.mk 1 1) (Cell.mk 3 3)) = some s ∧
      ∃ e rest, popMin s.open_heap = some (e, rest) ∧
        ∀ e2 ∈ rest, e.f ≤ e2.f ∧ (e.f = e2.f → e.g ≤ e2.g) ∧
          (e.f = e2.f → e.g = e2.g → e.cnt ≤ e2.cnt) := by
  refine ⟨_, rfl, _, _, rfl, ?_⟩
  exact C3_pop_lex_min c3Grid emptyGS (Cell.mk 1 1) (Cell.mk 3 3) 6 _ _ _ rfl rfl

/-- A single relaxation never removes a key from the parent map's domain. -/
theorem astar_relax_parent_dom (goal current : Cell) (gpop : Nat) (s : AstarState)
    (nbr : Cell) (k : Int × Int) (h : (alookup s.gs.parent k).isSome) :
    (alookup (astar_relax goal current gpop s nbr).gs.parent k).isSome := by
  rcases astar_relax_cases goal current gpop s nbr with hc | hc <;> rw [hc]
  · exact h
  · show (alookup ((nbr.key, some current) :: s.gs.parent) k).isSome
    by_cases hk : k = nbr.key
    · subst hk
      rw [alookup_cons_self]
      rfl
    · rw [alookup_cons_ne _ _ hk]
      exact h

/-- The neighbor loop of a_star_search never removes a key from the parent
map's domain. -/
theorem foldl_relax_parent_dom (goal current : Cell) (gpop : Nat) :
    ∀ (L : List Cell) (s : AstarState) (k : Int × Int),
      (alookup s.gs.parent k).isSome →
      (alookup (L.foldl (astar_relax goal current gpop) s).gs.parent k).isSome := by
  intro L
  induction L with
  | nil => intro s k h; exact h
  | cons x xs ih =>
    intro s k h
    simp only [List.foldl_cons]
    exact ih _ k (astar_relax_parent_dom goal current gpop s x k h)

/-- One A* step never removes a key from the parent map's domain. -/
theorem astar_step_parent_dom {g : Grid} {goal : Cell} {s s2 : AstarState}
    (h : astar_step g goal s = .next s2) (k : Int × Int)
    (hk : (alookup s.gs.parent k).isSome) : (alookup s2.gs.parent k).isSome := by
  unfold astar_step at h
  cases hp : popMin s.open_heap with
  | none => rw [hp] at h; cases h
  | some pr =>
    obtain ⟨e, rest⟩ := pr
    simp only [hp] at h
    by_cases hc : e.cell.key ∈ s.closed
    · rw [if_pos hc] at h
      cases h
      exact hk
    · rw [if_neg hc] at h
      by_cases hgl : e.cell.i = goal.i ∧ e.cell.j = goal.j
      · rw [if_pos hgl] at h; cases h
      · rw [if_neg hgl] at h
        cases h
        exact foldl_relax_parent_dom goal e.cell e.g _ _ k hk

/-- A cell mapped by the A* parent map stays mapped at every later point of the
run (the recorded parent may change on relaxation, but the entry never
disappears). -/
theorem astar_parent_dom_persist {g : Grid} {goal : Cell} {gs0 : GraphState}
    {start : Cell} :
    ∀ (d n : Nat) (s s' : AstarState),
      iterStates (astar_step g goal) n (astar_init gs0 start goal) = some s →
      iterStates (astar_step g goal) (n + d) (astar_init gs0 start goal) = some s' →
      ∀ k : Int × Int, (alookup s.gs.parent k).isSome →
        (alookup s'.gs.parent k).isSome := by
  intro d
  induction d with
  | zero =>
    intro n s s' h1 h2
    simp only [Nat.add_zero] at h2
    rw [h1] at h2
    cases h2
    exact fun k hk => hk
  | succ d ih =>
    intro n s s' h1 h2
    rw [show n + (d + 1) = (n + d) + 1 from rfl] at h2
    obtain ⟨t, ht⟩ := iter_isSome_of_succ h2
    have hstep := iter_step_next ht h2
    intro k hk
    exact astar_step_parent_dom hstep k (ih n s t h1 ht k hk)

/-! ## Claims C6, C7, C8, C10: invariants of the parent map -/

/-- C6: at every point during a run of any of the three searches, the parent
map forms a forest rooted at the start cell (the parent chain of every mapped
coordinate is repetition-free and begins at start, so there are no cycles);
moreover a DFS or BFS step never changes an existing parent entry, and an A*
step changes an existing parent entry only when it simultaneously and strictly
lowers the recorded g-cost of that cell (cost relaxation). -/
theorem C6_parent_forest (g : Grid) (gs0 : GraphState) (start goal : Cell)
    (nd nb na : Nat) (sd : DfsState) (sb : BfsState) (sa : AstarState)
    (hd : iterStates (dfs_step g goal) nd (dfs_init gs0 start) = some sd)
    (hb : iterStates (bfs_step g goal) nb (bfs_init gs0 start) = some sb)
    (ha : iterStates (astar_step g goal) na (astar_init gs0 start goal) = some sa) :
    ForestRootedAt start sd.gs ∧ ForestRootedAt start sb.gs ∧
    ForestRootedAt start sa.gs ∧
    (∀ sd2, dfs_step g goal sd = .next sd2 → ∀ (k : Int × Int) (v : Option Cell),
      alookup sd.gs.parent k = some v → alookup sd2.gs.parent k = some v) ∧
    (∀ sb2, bfs_step g goal sb = .next sb2 → ∀ (k : Int × Int) (v : Option Cell),
      alookup sb.gs.parent k = some v → alookup sb2.gs.parent k = some v) ∧
    (∀ sa2 (k : Int × Int), astar_step g goal sa = .next sa2 →
      (alookup sa.gs.parent k).isSome →
      alookup sa2.gs.parent k ≠ alookup sa.gs.parent k →
      ∃ gold gnew, alookup sa.g_cost k = some gold ∧
        alookup sa2.g_cost k = some gnew ∧ gnew < gold) := by
  obtain ⟨hinvd, -⟩ := dfs_reachable_inv gs0 start nd sd hd
  obtain ⟨hinvb, -⟩ := bfs_reachable_base_inv gs0 start nb sb hb
  have hinva := astar_reachable_inv gs0 na sa ha
  exact ⟨parentInv_forest hinvd, parentInv_forest hinvb, astarInv_forest hinva,
    fun sd2 h => dfs_step_parent_stable hinvd h,
    fun sb2 h => bfs_step_parent_stable hinvb h,
    fun sa2 k h hdom hch => astar_step_parent_change hinva h k hdom hch⟩

/-- Witness for C6 at a concrete input: the initial states of the three
searches on the one-cell grid. -/
theorem C6_witness :
    ForestRootedAt (Cell.mk 0 0) (dfs_init emptyGS (Cell.mk 0 0)).gs ∧
    ForestRootedAt (Cell.mk 0 0) (bfs_init emptyGS (Cell.mk 0 0)).gs ∧
    ForestRootedAt (Cell.mk 0 0) (astar_init emptyGS (Cell.mk 0 0) (Cell.mk 0 5)).gs ∧
    (∀ sd2, dfs_step witGrid (Cell.mk 0 5) (dfs_init emptyGS (Cell.mk 0 0)) = .next sd2 →
      ∀ (k : Int × Int) (v : Option Cell),
        alookup (dfs_init emptyGS (Cell.mk 0 0)).gs.parent k = some v →
        alookup sd2.gs.parent k = some v) ∧
    (∀ sb2, bfs_step witGrid (Cell.mk 0 5) (bfs_init emptyGS (Cell.mk 0 0)) = .next sb2 →
      ∀ (k : Int × Int) (v : Option Cell),
        alookup (bfs_init emptyGS (Cell.mk 0 0)).gs.parent k = some v →
        alookup sb2.gs.parent k = some v) ∧
    (∀ sa2 (k : Int × Int),
      astar_step witGrid (Cell.mk 0 5)
        (astar_init emptyGS (Cell.mk 0 0) (Cell.mk 0 5)) = .next sa2 →
      (alookup (astar_init emptyGS (Cell.mk 0 0) (Cell.mk 0 5)).gs.parent k).isSome →
      alookup sa2.gs.parent k ≠
        alookup (astar_init emptyGS (Cell.mk 0 0) (Cell.mk 0 5)).gs.parent k →
      ∃ gold gnew,
        alookup (astar_init emptyGS (Cell.mk 0 0) (Cell.mk 0 5)).g_cost k = some gold ∧
        alookup sa2.g_cost k = some gnew ∧ gnew < gold) :=
  C6_parent_forest witGrid emptyGS (Cell.mk 0 0) (Cell.mk 0 5) 0 0 0 _ _ _ rfl rfl rfl

/-- C7: at every point during a run of each search, taken at its own step
index, the parent map covers every cell currently on the frontier — and hence
every cell ever pushed: for DFS and BFS an entry, once present, persists
unchanged to every later point of the run (recording the first predecessor),
and for A* a mapped cell stays mapped to every later point of the run, its
recorded parent being its cheapest-known predecessor in the sense that the
cell's recorded g-cost is exactly the parent's recorded g-cost plus one
step. -/
theorem C7_parent_covers_frontier (g : Grid) (gs0 : GraphState) (start goal : Cell)
    (nd dd nb db na da : Nat) (sd sd' : DfsState) (sb sb' : BfsState)
    (sa sa' : AstarState)
    (hd : iterStates (dfs_step g goal) nd (dfs_init gs0 start) = some sd)
    (hd' : iterStates (dfs_step g goal) (nd + dd) (dfs_init gs0 start) = some sd')
    (hb : iterStates (bfs_step g goal) nb (bfs_init gs0 start) = some sb)
    (hb' : iterStates (bfs_step g goal) (nb + db) (bfs_init gs0 start) = some sb')
    (ha : iterStates (astar_step g goal) na (astar_init gs0 start goal) = some sa)
    (ha' : iterStates (astar_step g goal) (na + da) (astar_init gs0 start goal) =
      some sa') :
    (∀ c ∈ sd.stack, (alookup sd.gs.parent c.key).isSome) ∧
    (∀ c ∈ sb.queue, (alookup sb.gs.parent c.key).isSome) ∧
    (∀ e ∈ sa.open_heap, (alookup sa.gs.parent e.cell.key).isSome) ∧
    (∀ (k : Int × Int) (v : Option Cell), alookup sd.gs.parent k = some v →
      alookup sd'.gs.parent k = some v) ∧
    (∀ (k : Int × Int) (v : Option Cell), alookup sb.gs.parent k = some v →
      alookup sb'.gs.parent k = some v) ∧
    (∀ k : Int × Int, (alookup sa.gs.parent k).isSome →
      (alookup sa'.gs.parent k).isSome) ∧
    (∀ (k : Int × Int) (p : Cell), alookup sa.gs.parent k = some (some p) →
      ∃ gk gp, alookup sa.g_cost k = some gk ∧ alookup sa.g_cost p.key = some gp ∧
        gk = gp + 1) := by
  obtain ⟨hinvd, hfrd⟩ := dfs_reachable_inv gs0 start nd sd hd
  obtain ⟨hinvb, hfrb⟩ := bfs_reachable_base_inv gs0 start nb sb hb
  have hinva := astar_reachable_inv gs0 na sa ha
  refine ⟨?_, ?_, astar_parent_covers_heap hinva,
    dfs_parent_persist dd nd sd sd' hd hd', bfs_parent_persist db nb sb sb' hb hb',
    astar_parent_dom_persist da na sa sa' ha ha', ?_⟩
  · intro c hcs
    exact (hinvd.dom_iff c.key).mpr (hfrd c hcs)
  · intro c hcs
    exact (hinvb.dom_iff c.key).mpr (hfrb c hcs)
  · intro k p hk
    obtain ⟨gk, gp, h1, h2, h3, -, -⟩ := hinva.parent_rel k p hk
    exact ⟨gk, gp, h1, h2, h3⟩

/-- Witness for C7 at a concrete input: the initial states of the three
searches on the one-cell grid. -/
theorem C7_witness :
    (∀ c ∈ (dfs_init emptyGS (Cell.mk 0 0)).stack,
      (alookup (dfs_init emptyGS (Cell.mk 0 0)).gs.parent c.key).isSome) ∧
    (∀ c ∈ (bfs_init emptyGS (Cell.mk 0 0)).queue,
      (alookup (bfs_init emptyGS (Cell.mk 0 0)).gs.parent c.key).isSome) ∧
    (∀ e ∈ (astar_init emptyGS (Cell.mk 0 0) (Cell.mk 0 5)).open_heap,
      (alookup (astar_init emptyGS (Cell.mk 0 0) (Cell.mk 0 5)).gs.parent
        e.cell.key).isSome) ∧
    (∀ (k : Int × Int) (v : Option Cell),
      alookup (dfs_init emptyGS (Cell.mk 0 0)).gs.parent k = some v →
      alookup (dfs_init emptyGS (Cell.mk 0 0)).gs.parent k = some v) ∧
    (∀ (k : Int × Int) (v : Option Cell),
      alookup (bfs_init emptyGS (Cell.mk 0 0)).gs.parent k = some v →
      alookup (bfs_init emptyGS (Cell.mk 0 0)).gs.parent k = some v) ∧
    (∀ k : Int × Int,
      (alookup (astar_init emptyGS (Cell.mk 0 0) (Cell.mk 0 5)).gs.parent k).isSome →
      (alookup (astar_init emptyGS (Cell.mk 0 0) (Cell.mk 0 5)).gs.parent
        k).isSome) ∧
    (∀ (k : Int × Int) (p : Cell),
      alookup (astar_init emptyGS (Cell.mk 0 0) (Cell.mk 0 5)).gs.parent k =
        some (some p) →
      ∃ gk gp, alookup (astar_init emptyGS (Cell.mk 0 0) (Cell.mk 0 5)).g_cost k =
        some gk ∧ alookup (astar_init emptyGS (Cell.mk 0 0) (Cell.mk 0 5)).g_cost
          p.key = some gp ∧ gk = gp + 1) :=
  C7_parent_covers_frontier witGrid emptyGS (Cell.mk 0 0) (Cell.mk 0 5) 0 0 0 0 0 0
    _ _ _ _ _ _ rfl rfl rfl rfl rfl rfl

/-- C8: whenever a search is about to call the path reconstructor — the cell it
just removed from the frontier matches the goal coordinates — that cell has a
recorded parent entry in the graph's parent map at that moment, so the
undefined-behavior case of trace_path is unreachable during the three
searches. -/
theorem C8_trace_precondition (g : Grid) (gs0 : GraphState) (start goal : Cell)
    (nd nb na : Nat) (sd : DfsState) (sb : BfsState) (sa : AstarState)
    (hd : iterStates (dfs_step g goal) nd (dfs_init gs0 start) = some sd)
    (hb : iterStates (bfs_step g goal) nb (bfs_init gs0 start) = some sb)
    (ha : iterStates (astar_step g goal) na (astar_init gs0 start goal) = some sa) :
    (∀ current rest, sd.stack = current :: rest →
      current.i = goal.i ∧ current.j = goal.j →
      (alookup sd.gs.parent current.key).isSome) ∧
    (∀ current rest, sb.queue = current :: rest →
      current.i = goal.i ∧ current.j = goal.j →
      (alookup sb.gs.parent current.key).isSome) ∧
    (∀ e rest, popMin sa.open_heap = some (e, rest) →
      e.cell.i = goal.i ∧ e.cell.j = goal.j →
      (alookup sa.gs.parent e.cell.key).isSome) := by
  obtain ⟨hinvd, hfrd⟩ := dfs_reachable_inv gs0 start nd sd hd
  obtain ⟨hinvb, hfrb⟩ := bfs_reachable_base_inv gs0 start nb sb hb
  have hinva := astar_reachable_inv gs0 na sa ha
  refine ⟨?_, ?_, ?_⟩
  · intro current rest hs _
    exact (hinvd.dom_iff current.key).mpr (hfrd current (by rw [hs]; simp))
  · intro current rest hs _
    exact (hinvb.dom_iff current.key).mpr (hfrb current (by rw [hs]; simp))
  · intro e rest hp _
    obtain ⟨hmem, -, -⟩ := popMin_some hp
    exact astar_parent_covers_heap hinva e hmem

/-- Witness for C8 at a concrete input: the initial states of the three
searches on the one-cell grid with start equal to goal. -/
theorem C8_witness :
    (∀ current rest, (dfs_init emptyGS (Cell.mk 0 0)).stack = current :: rest →
      current.i = (Cell.mk 0 0).i ∧ current.j = (Cell.mk 0 0).j →
      (alookup (dfs_init emptyGS (Cell.mk 0 0)).gs.parent current.key).isSome) ∧
    (∀ current rest, (bfs_init emptyGS (Cell.mk 0 0)).queue = current :: rest →
      current.i = (Cell.mk 0 0).i ∧ current.j = (Cell.mk 0 0).j →
      (alookup (bfs_init emptyGS (Cell.mk 0 0)).gs.parent current.key).isSome) ∧
    (∀ e rest, popMin (astar_init emptyGS (Cell.mk 0 0) (Cell.mk 0 0)).open_heap =
        some (e, rest) →
      e.cell.i = (Cell.mk 0 0).i ∧ e.cell.j = (Cell.mk 0 0).j →
      (alookup (astar_init emptyGS (Cell.mk 0 0) (Cell.mk 0 0)).gs.parent
        e.cell.key).isSome) :=
  C8_trace_precondition witGrid emptyGS (Cell.mk 0 0) (Cell.mk 0 0) 0 0 0 _ _ _
    rfl rfl rfl

/-- C10: at every point during a run of each search, the start cell's parent
entry is the recorded value None, no other cell ever maps to None, and walking
the parent links backward from any mapped cell ends at the start cell. -/
theorem C10_start_parent_none (g : Grid) (gs0 : GraphState) (start goal : Cell)
    (nd nb na : Nat) (sd : DfsState) (sb : BfsState) (sa : AstarState)
    (hd : iterStates (dfs_step g goal) nd (dfs_init gs0 start) = some sd)
    (hb : iterStates (bfs_step g goal) nb (bfs_init gs0 start) = some sb)
    (ha : iterStates (astar_step g goal) na (astar_init gs0 start goal) = some sa) :
    alookup sd.gs.parent start.key = some none ∧
    alookup sb.gs.parent start.key = some none ∧
    alookup sa.gs.parent start.key = some none ∧
    (∀ k, alookup sd.gs.parent k = some none → k = start.key) ∧
    (∀ k, alookup sb.gs.parent k = some none → k = start.key) ∧
    (∀ k, alookup sa.gs.parent k = some none → k = start.key) ∧
    (∀ k, (alookup sd.gs.parent k).isSome →
      ∃ l, ChainTo sd.gs (keyCell k) l ∧ l.head? = some start) ∧
    (∀ k, (alookup sb.gs.parent k).isSome →
      ∃ l, ChainTo sb.gs (keyCell k) l ∧ l.head? = some start) ∧
    (∀ k, (alookup sa.gs.parent k).isSome →
      ∃ l, ChainTo sa.gs (keyCell k) l ∧ l.head? = some start) := by
  obtain ⟨hinvd, -⟩ := dfs_reachable_inv gs0 start nd sd hd
  obtain ⟨hinvb, -⟩ := bfs_reachable_base_inv gs0 start nb sb hb
  have hinva := astar_reachable_inv gs0 na sa ha
  refine ⟨hinvd.start_parent, hinvb.start_parent, hinva.start_parent,
    hinvd.none_start, hinvb.none_start, hinva.none_start, ?_, ?_, ?_⟩
  · intro k hk
    obtain ⟨l, h1, h2, -⟩ := parentInv_forest hinvd k hk
    exact ⟨l, h1, h2⟩
  · intro k hk
    obtain ⟨l, h1, h2, -⟩ := parentInv_forest hinvb k hk
    exact ⟨l, h1, h2⟩
  · intro k hk
    obtain ⟨l, h1, h2, -⟩ := astarInv_forest hinva k hk
    exact ⟨l, h1, h2⟩

/-- Witness for C10 at a concrete input: the initial states of the three
searches on the one-cell grid. -/
theorem C10_witness :
    alookup (dfs_init emptyGS (Cell.mk 0 0)).gs.parent (Cell.mk 0 0).key =
      some none ∧
    alookup (bfs_init emptyGS (Cell.mk 0 0)).gs.parent (Cell.mk 0 0).key =
      some none ∧
    alookup (astar_init emptyGS (Cell.mk 0 0) (Cell.mk 0 5)).gs.parent
      (Cell.mk 0 0).key = some none ∧
    (∀ k, alookup (dfs_init emptyGS (Cell.mk 0 0)).gs.parent k = some none →
      k = (Cell.mk 0 0).key) ∧
    (∀ k, alookup (bfs_init emptyGS (Cell.mk 0 0)).gs.parent k = some none →
      k = (Cell.mk 0 0).key) ∧
    (∀ k, alookup (astar_init emptyGS (Cell.mk 0 0) (Cell.mk 0 5)).gs.parent k =
      some none → k = (Cell.mk 0 0).key) ∧
    (∀ k, (alookup (dfs_init emptyGS (Cell.mk 0 0)).gs.parent k).isSome →
      ∃ l, ChainTo (dfs_init emptyGS (Cell.mk 0 0)).gs (keyCell k) l ∧
        l.head? = some (Cell.mk 0 0)) ∧
    (∀ k, (alookup (bfs_init emptyGS (Cell.mk 0 0)).gs.parent k).isSome →
      ∃ l, ChainTo (bfs_init emptyGS (Cell.mk 0 0)).gs (keyCell k) l ∧
        l.head? = some (Cell.mk 0 0)) ∧
    (∀ k, (alookup (astar_init emptyGS (Cell.mk 0 0) (Cell.mk 0 5)).gs.parent
        k).isSome →
      ∃ l, ChainTo (astar_init emptyGS (Cell.mk 0 0) (Cell.mk 0 5)).gs
        (keyCell k) l ∧ l.head? = some (Cell.mk 0 0)) :=
  C10_start_parent_none witGrid emptyGS (Cell.mk 0 0) (Cell.mk 0 5) 0 0 0 _ _ _
    rfl rfl rfl

end GraphSearch
